import Mathlib

/-!
# CLZ codec (`clz.cpp`): shallow embedding and verified properties

The C++ source is embedded as follows.

* Bytes (`unsigned char`) and `size_t` values are natural numbers; a store into a byte
  cell is reduced `% 256`, and every `size_t` subtraction that the source performs without
  a guard goes through `size_sub`, which wraps modulo `2 ^ 64`.
* A C array is a `List Nat` read with default `0` (`rd`) and written with `wr`, which
  extends the list with zeros on demand.  The arrays of the source are zero filled
  (`memset`) before use, except the local `shrunken` of `shrink_output`, whose cells are
  written before they are read on every path the theorems below exercise.
* `std::map` / `std::set` are association lists kept sorted by the key order of the
  source (`operator <`), so iteration order is the one of the C++ containers.
* Streams are lists of bytes; an input stream carries its end-of-file flag.
* In an assignment the right operand is evaluated before the left one, side effects
  included (the C++17 rule); this decides `special_nums[ *si ] = special_nums.size( ) - 1`
  and `*( p_buffer + length ) = *( p_buffer + length++ - 1 ) + stepping_amount`.
* Loops that need not terminate (`remove_offsets_from`, `expand_meta_pattern`, the
  encoder main loop) take fuel and return `none` when it runs out.
-/

namespace Clz

/-! ## Constants -/

def c_max_offset : Nat := 4095
def c_max_repeats : Nat := 2048
def c_max_combines : Nat := 5
def c_min_pat_length : Nat := 3
def c_max_pat_length : Nat := 9
def c_meta_pat_length : Nat := 4
def c_max_encoded_chunk_size : Nat := c_max_offset + c_min_pat_length + 2
def c_max_specials : Nat := 6
def c_max_special_repeats : Nat := 8
def c_max_special_step_vals : Nat := 15
def c_nibble_one : Nat := 0xf0
def c_nibble_two : Nat := 0x0f
def c_high_bit_value : Nat := 0x80
def c_high_five_bits : Nat := 0xf8
def c_max_repeats_hi : Nat := 0xf7
def c_max_repeats_lo : Nat := 0xff
def c_special_marker : Nat := 0xf8
def c_special_nsteps : Nat := 0xf9
def c_special_maxval : Nat := 0xff

/-! ## Machine arithmetic and buffers -/

/-- Subtraction of two `size_t` values (wraps modulo `2 ^ 64`). -/
def size_sub (a b : Nat) : Nat := (a + 18446744073709551616 - b) % 18446744073709551616

/-- Left shift of a `size_t` value (wraps modulo `2 ^ 64`). -/
def size_shl (a n : Nat) : Nat := (a <<< n) % 18446744073709551616

/-- Truncation of an integer value stored into an `unsigned char`. -/
def to_byte (v : Nat) : Nat := v % 256

abbrev Buf := List Nat

/-- Read the cell `i` of a zero filled array. -/
def rd (b : Buf) (i : Nat) : Nat := b.getD i 0

/-- Write the cell `i` of a zero filled array. -/
def wr (b : Buf) (i v : Nat) : Buf :=
  if i < b.length then b.set i v else b ++ List.replicate (i - b.length) 0 ++ [v]

/-- The `n` cells starting at `i`, as `std::string( p + i, n )` reads them. -/
def rd_range (b : Buf) (i n : Nat) : List Nat := (List.range n).map (fun k => rd b (i + k))

/-- Store the bytes `vs` from cell `i` on. -/
def wr_range (b : Buf) (i : Nat) : List Nat → Buf
  | [] => b
  | v :: vs => wr_range (wr b i v) (i + 1) vs

/-- Model of `memmove( p + dst, p + src, n )` (and of `memcpy` within one array). -/
def memmove (b : Buf) (dst src n : Nat) : Buf := wr_range b dst (rd_range b src n)

/-! ## Ordered containers -/

section containers

variable {K V : Type} [DecidableEq K]

/-- Number of entries with key `k` (`std::map::count`), as a Boolean. -/
def map_count (m : List (K × V)) (k : K) : Bool := m.any (fun e => decide (e.1 = k))

/-- Value stored under `k`, or `d` when the key is missing. -/
def map_get (m : List (K × V)) (k : K) (d : V) : V :=
  match m.find? (fun e => decide (e.1 = k)) with
  | some e => e.2
  | none => d

/-- Assignment `m[ k ] = v` into a map ordered by `lt`. -/
def map_insert (lt : K → K → Bool) : List (K × V) → K → V → List (K × V)
  | [], k, v => [(k, v)]
  | (k', v') :: rest, k, v =>
    if k' = k then (k, v) :: rest
    else if lt k k' then (k, v) :: (k', v') :: rest
    else (k', v') :: map_insert lt rest k v

/-- Model of `std::map::insert`: an existing key keeps its value. -/
def map_insert_new (lt : K → K → Bool) (m : List (K × V)) (k : K) (v : V) : List (K × V) :=
  if map_count m k then m else map_insert lt m k v

/-- Model of `std::map::erase( key )`. -/
def map_erase (m : List (K × V)) (k : K) : List (K × V) :=
  m.filter (fun e => !decide (e.1 = k))

/-- Model of `std::set::insert`. -/
def set_insert (lt : K → K → Bool) : List K → K → List K
  | [], k => [k]
  | k' :: rest, k =>
    if k' = k then k' :: rest
    else if lt k k' then k :: k' :: rest
    else k' :: set_insert lt rest k

/-- Model of `std::multimap::insert`: equal keys keep their insertion order. -/
def multimap_insert : List (Nat × V) → Nat → V → List (Nat × V)
  | [], k, v => [(k, v)]
  | (k', v') :: rest, k, v =>
    if k < k' then (k, v) :: (k', v') :: rest
    else (k', v') :: multimap_insert rest k v

end containers

abbrev byte_pair := Nat × Nat

/-- Order of `std::pair< unsigned char, unsigned char >`. -/
def pair_lt (a b : byte_pair) : Bool := decide (a.1 < b.1 ∨ (a.1 = b.1 ∧ a.2 < b.2))

def nat_lt (a b : Nat) : Bool := decide (a < b)

structure meta_pattern where
  byte1 : Nat
  byte2 : Nat
  byte3 : Nat
  byte4 : Nat
deriving DecidableEq, Repr

/-- The `operator <` of `meta_pattern`. -/
def meta_pattern.lt (a p : meta_pattern) : Bool :=
  if a.byte1 < p.byte1 then true
  else if a.byte1 = p.byte1 then
    if a.byte2 < p.byte2 then true
    else if a.byte2 = p.byte2 then
      if a.byte3 < p.byte3 then true
      else if a.byte3 = p.byte3 then decide (a.byte4 < p.byte4)
      else false
    else false
  else false

abbrev meta_pair := byte_pair

/-! ## `meta_pattern_info` -/

structure meta_pattern_info where
  offsets : List (Nat × meta_pattern)
  patterns : List (meta_pattern × meta_pair)
deriving DecidableEq, Repr

namespace meta_pattern_info

def empty : meta_pattern_info := ⟨[], []⟩

def clear (_m : meta_pattern_info) : meta_pattern_info := empty

def has_offset (m : meta_pattern_info) (offset : Nat) : Bool := map_count m.offsets offset

def has_pattern (m : meta_pattern_info) (pat : meta_pattern) : Bool := map_count m.patterns pat

def add_pattern (m : meta_pattern_info) (pat : meta_pattern) (offset : Nat) : meta_pattern_info :=
  { offsets := map_insert nat_lt m.offsets offset pat
    patterns := map_insert meta_pattern.lt m.patterns pat
      (to_byte (0x90 ||| ((offset &&& 0x0f00) >>> 8)), to_byte (offset &&& 0x00ff)) }

/-- The `operator [ ]( const meta_pattern& )`: a missing pattern is inserted with the
pair `(0, 0)`, as `std::map::operator [ ]` does. -/
def index_pattern (m : meta_pattern_info) (pat : meta_pattern) : meta_pattern_info × meta_pair :=
  if map_count m.patterns pat then (m, map_get m.patterns pat (0, 0))
  else ({ m with patterns := map_insert meta_pattern.lt m.patterns pat (0, 0) }, (0, 0))

def last_offset (m : meta_pattern_info) : Nat :=
  match m.offsets.getLast? with
  | some e => e.1
  | none => 0

def pattern_offset (m : meta_pattern_info) (pat : meta_pattern) : Nat :=
  if m.has_pattern pat then
    match m.offsets.find? (fun e => decide (e.2 = pat)) with
    | some e => e.1
    | none => 0
  else 0

def remove_at_offset (m : meta_pattern_info) (offset : Nat) : meta_pattern_info :=
  if m.has_offset offset then
    let pat := map_get m.offsets offset ⟨0, 0, 0, 0⟩
    { offsets := map_erase m.offsets offset, patterns := map_erase m.patterns pat }
  else m

/-- The `while( true )` loop of `remove_offsets_from`, with fuel. -/
def remove_offsets_loop (start : Nat) : Nat → meta_pattern_info → Option meta_pattern_info
  | 0, _ => none
  | fuel + 1, m =>
    let next := m.last_offset
    if next < start then some m
    else remove_offsets_loop start fuel (m.remove_at_offset next)

/-- Every round that does not leave the loop erases an entry of `offsets` or meets an
empty map, so `offsets.length + 2` rounds decide whether the loop ends. -/
def remove_offsets_from (m : meta_pattern_info) (start : Nat) : Option meta_pattern_info :=
  remove_offsets_loop start (m.offsets.length + 2) m

end meta_pattern_info

/-! ## The shrink pass -/

/-- The `for( size_t j = 1; j < 4; j++ )` loop of the one nibble case: `n` rounds are
left, `j` is the loop variable and `nibble2` the second nibble of the byte before. -/
def nibble_steps_from (p_buffer : Buf) (offset : Nat) (ascending : Bool) (step_amount : Nat) :
    Nat → Nat → Nat → Bool
  | 0, _, _ => true
  | n + 1, j, nibble2 =>
    let ch := rd p_buffer (offset + j)
    let new_nibble1 := (ch &&& c_nibble_one) >>> 4
    let new_nibble2 := ch &&& c_nibble_two
    if (ascending = true ∧ new_nibble1 ≠ nibble2 + step_amount)
        ∨ (ascending = false ∧ new_nibble1 ≠ size_sub nibble2 step_amount)
        ∨ (ascending = true ∧ new_nibble2 ≠ new_nibble1 + step_amount)
        ∨ (ascending = false ∧ new_nibble2 ≠ size_sub new_nibble1 step_amount) then false
    else nibble_steps_from p_buffer offset ascending step_amount n (j + 1) new_nibble2

/-- The round `nibbles == 2` of `found_stepping_nibbles` together with the idle rounds 3
and 4: the result is `(return value, nibbles, ascending)`. -/
def found_stepping_bytes (p_buffer : Buf) (offset length : Nat) (ascending : Bool) :
    Bool × Nat × Bool :=
  if offset + 4 < length then
    let byte1 := rd p_buffer offset
    let byte2 := rd p_buffer (offset + 1)
    if byte1 = byte2 then (false, 5, ascending)
    else
      let ascending := decide (byte1 < byte2)
      let step_amount := if ascending then byte2 - byte1 else byte1 - byte2
      let byte3 := rd p_buffer (offset + 2)
      let byte4 := rd p_buffer (offset + 3)
      let found :=
        if (ascending = true ∧ byte3 ≠ byte2 + step_amount)
            ∨ (ascending = false ∧ byte3 ≠ size_sub byte2 step_amount)
            ∨ (ascending = true ∧ byte4 ≠ byte3 + step_amount)
            ∨ (ascending = false ∧ byte4 ≠ size_sub byte3 step_amount) then false
        else
          let byte5 := rd p_buffer (offset + 4)
          if (ascending = true ∧ byte5 ≠ byte4 + step_amount)
              ∨ (ascending = false ∧ byte5 ≠ size_sub byte4 step_amount) then false
          else true
      if found then (true, 2, ascending) else (false, 5, ascending)
  else (false, 5, ascending)

/-- Model of `found_stepping_nibbles`.  The argument `ascending` is the value the
reference holds on entry; the result is `(return value, nibbles, ascending)`.  The
function returns `step_amount` converted to `bool`, which is `true` exactly when one of
the two cases has left the loop with `break`. -/
def found_stepping_nibbles (p_buffer : Buf) (offset length : Nat) (ascending : Bool) :
    Bool × Nat × Bool :=
  if offset + 3 < length then
    let ch := rd p_buffer offset
    let nibble1 := (ch &&& c_nibble_one) >>> 4
    let nibble2 := ch &&& c_nibble_two
    if nibble1 = nibble2 then found_stepping_bytes p_buffer offset length ascending
    else
      let ascending := decide (nibble1 < nibble2)
      let step_amount := if ascending then nibble2 - nibble1 else nibble1 - nibble2
      if nibble_steps_from p_buffer offset ascending step_amount 3 1 nibble2 then
        (true, 1, ascending)
      else found_stepping_bytes p_buffer offset length ascending
  else found_stepping_bytes p_buffer offset length ascending

/-- The first loop of `shrink_output`: count the byte pairs that start with a high bit. -/
def count_pairs (p_buffer : Buf) (length : Nat) :
    Nat → Nat → List (byte_pair × Nat) → List (byte_pair × Nat)
  | 0, _, pairs => pairs
  | fuel + 1, i, pairs =>
    if i < length then
      let next := rd p_buffer i
      if i < size_sub length 1 ∧ (next &&& c_high_bit_value) ≠ 0 then
        let next_pair : byte_pair := (next, rd p_buffer (i + 1))
        count_pairs p_buffer length fuel (i + 2)
          (map_insert pair_lt pairs next_pair (map_get pairs next_pair 0 + 1))
      else count_pairs p_buffer length fuel (i + 1) pairs
    else pairs

/-- The pairs kept as specials, in the order of `std::set< byte_pair >`: pairs counted
at most twice are dropped, the rest is ordered by count in a `multimap` and the least
counted ones are erased while more than `c_max_specials` are left. -/
def select_specials (pairs : List (byte_pair × Nat)) : List byte_pair :=
  let kept := pairs.filter (fun e => !decide (e.2 ≤ 2))
  let ordered := kept.foldl (fun (o : List (Nat × byte_pair)) e => multimap_insert o e.2 e.1) []
  let ordered := ordered.drop (ordered.length - c_max_specials)
  ordered.foldl (fun (s : List byte_pair) e => set_insert pair_lt s e.2) []

/-- The numbering `special_nums[ *si ] = special_nums.size( ) - 1`: the right operand of
the assignment is evaluated first, before `operator[]` inserts the element, so the value
is the size of the map before the insertion minus one as a `size_t`: the specials are
numbered `2 ^ 64 - 1, 0, 1, ...` in set order. -/
def number_specials (specials : List byte_pair) : List (byte_pair × Nat) :=
  specials.foldl (fun (m : List (byte_pair × Nat)) p => map_insert pair_lt m p (size_sub m.length 1)) []

structure shrink_state where
  i : Nat
  num : Nat
  repeats : Nat
  steps_ascending : Bool
  stepping_amount : Nat
  stepping_nibbles : Nat
  last_special_pos : Nat
  last_ch : Nat
  shrunken : Buf
  repeated_special_counts : List (byte_pair × Nat)
  repeated_special_offsets : List (Nat × byte_pair)
deriving DecidableEq, Repr

/-- The value `next_val` the stepping continuation of `shrink_output` expects. -/
def stepping_next_val (s : shrink_state) : Nat :=
  let next_val := s.last_ch
  let next_val := if s.stepping_nibbles = 1 then (s.last_ch &&& c_nibble_one) >>> 4 else next_val
  let next_val :=
    if s.steps_ascending then (next_val + s.stepping_amount) % 18446744073709551616
    else size_sub next_val s.stepping_amount
  if s.stepping_nibbles = 1 then
    let next_val := size_shl next_val 4
    let next_val := (next_val + (s.last_ch &&& c_nibble_two)) % 18446744073709551616
    if s.steps_ascending then (next_val + s.stepping_amount) % 18446744073709551616
    else size_sub next_val s.stepping_amount
  else next_val

/-- The part of the loop body of `shrink_output` that handles a byte pair. -/
def shrink_pair (p_buffer : Buf) (special_nums : List (byte_pair × Nat)) (available_specials : Nat)
    (s : shrink_state) (next : Nat) : shrink_state :=
  let next_pair : byte_pair := (next, rd p_buffer (s.i + 1))
  let s := { s with i := s.i + 1 }
  let s :=
    if map_count special_nums next_pair then
      let marker := to_byte (size_sub c_special_maxval (map_get special_nums next_pair 0))
      let s := { s with shrunken := wr s.shrunken s.num marker }
      let s :=
        if available_specials ≠ 0 ∧ s.last_special_pos = size_sub s.num 1 then
          let new_pair : byte_pair := (rd s.shrunken (s.num - 1), rd s.shrunken s.num)
          if map_count s.repeated_special_offsets (size_sub s.num 2) then
            let old_pair := map_get s.repeated_special_offsets (size_sub s.num 2) (0, 0)
            if (map_count s.repeated_special_counts new_pair).toNat
                < (map_count s.repeated_special_counts old_pair).toNat then s
            else
              let s := { s with
                repeated_special_counts := map_insert pair_lt s.repeated_special_counts old_pair
                  (size_sub (map_get s.repeated_special_counts old_pair 0) 1)
                repeated_special_offsets := map_erase s.repeated_special_offsets (size_sub s.num 2) }
              { s with
                repeated_special_counts := map_insert pair_lt s.repeated_special_counts new_pair
                  (map_get s.repeated_special_counts new_pair 0 + 1)
                repeated_special_offsets :=
                  map_insert nat_lt s.repeated_special_offsets (s.num - 1) new_pair }
          else
            { s with
              repeated_special_counts := map_insert pair_lt s.repeated_special_counts new_pair
                (map_get s.repeated_special_counts new_pair 0 + 1)
              repeated_special_offsets :=
                map_insert nat_lt s.repeated_special_offsets (s.num - 1) new_pair }
        else s
      { s with last_special_pos := s.num, num := s.num + 1 }
    else
      { s with shrunken := wr (wr s.shrunken s.num next_pair.1) (s.num + 1) next_pair.2
               num := s.num + 2 }
  { s with last_ch := c_special_maxval }

/-- The part of the loop body of `shrink_output` that handles a simple character. -/
def shrink_char (p_buffer : Buf) (length : Nat) (s : shrink_state) (next : Nat) : shrink_state :=
  if next = s.last_ch ∧ s.repeats < c_max_special_repeats - 1 then
    { s with repeats := s.repeats + 1 }
  else if s.i < size_sub length 3 then
    let r := found_stepping_nibbles p_buffer s.i length s.steps_ascending
    let s := { s with stepping_amount := r.1.toNat, stepping_nibbles := r.2.1, steps_ascending := r.2.2 }
    if s.stepping_amount ≠ 0 then
      let second := rd p_buffer (s.i + 1)
      let shrunken := wr (wr s.shrunken s.num next) (s.num + 1) second
      let shrunken := wr shrunken (s.num + 2) c_special_nsteps
      let shrunken := wr shrunken (s.num + 3) (to_byte ((s.stepping_nibbles - 1) <<< 4))
      { s with i := s.i + 1, last_ch := second, shrunken := shrunken, num := s.num + 4 }
    else
      { s with shrunken := wr s.shrunken s.num next, num := s.num + 1, last_ch := next }
  else
    { s with shrunken := wr s.shrunken s.num next, num := s.num + 1, last_ch := next }

/-- One round of the main `for` loop of `shrink_output`, the increment of `i` included. -/
def shrink_body (p_buffer : Buf) (length : Nat) (special_nums : List (byte_pair × Nat))
    (available_specials : Nat) (s : shrink_state) : shrink_state :=
  let next := rd p_buffer s.i
  if s.stepping_amount ≠ 0
      ∧ next = stepping_next_val s
      ∧ (rd s.shrunken (s.num - 1) &&& c_nibble_two) < c_max_special_step_vals then
    { s with shrunken := wr s.shrunken (s.num - 1) (to_byte (rd s.shrunken (s.num - 1) + 1))
             last_ch := next
             i := s.i + 1 }
  else
    let s := { s with stepping_amount := 0 }
    let s :=
      if next ≠ s.last_ch ∧ s.repeats ≠ 0 then
        { s with shrunken := wr s.shrunken s.num (to_byte (c_nibble_one + s.repeats - 1))
                 num := s.num + 1
                 repeats := 0 }
      else s
    let s :=
      if s.i < size_sub length 1 ∧ (next &&& c_high_bit_value) ≠ 0 then
        shrink_pair p_buffer special_nums available_specials s next
      else shrink_char p_buffer length s next
    { s with i := s.i + 1 }

/-- The main `for( size_t i = 0; i < length; i++ )` loop of `shrink_output`; every round
advances `i`, so `length` rounds of fuel reach the end of the block. -/
def shrink_loop (p_buffer : Buf) (length : Nat) (special_nums : List (byte_pair × Nat))
    (available_specials : Nat) : Nat → shrink_state → shrink_state
  | 0, s => s
  | fuel + 1, s =>
    if s.i < length then
      shrink_loop p_buffer length special_nums available_specials fuel
        (shrink_body p_buffer length special_nums available_specials s)
    else s

structure extra_state where
  shrunken : Buf
  num : Nat
  already_adjusted : Nat
  extra_specials : List byte_pair
  repeated_specials_used : List (byte_pair × Nat)
deriving DecidableEq, Repr

/-- One round of the loop over `repeated_special_offsets` that replaces a pair of
special markers by the marker of an extra special. -/
def extra_step (num_specials : Nat) (repeated_specials : List byte_pair) (e : extra_state)
    (entry : Nat × byte_pair) : extra_state :=
  if entry.2 ∈ repeated_specials then
    let used := map_count e.repeated_specials_used entry.2
    let special_num :=
      if used then map_get e.repeated_specials_used entry.2 0
      else num_specials + e.extra_specials.length
    let e :=
      if used then e
      else { e with
        repeated_specials_used := map_insert pair_lt e.repeated_specials_used entry.2 special_num
        extra_specials := e.extra_specials ++ [entry.2] }
    let offset := size_sub entry.1 e.already_adjusted
    let shrunken := wr e.shrunken offset (to_byte (size_sub c_special_maxval special_num))
    let shrunken := memmove shrunken (offset + 1) (offset + 2) (size_sub e.num offset)
    { e with shrunken := shrunken, num := size_sub e.num 1
             already_adjusted := e.already_adjusted + 1 }
  else e

/-- The block `if( !repeated_special_counts.empty( ) )` of `shrink_output`. -/
def shrink_extras (num_specials available_specials : Nat) (s : shrink_state) : extra_state :=
  let e0 : extra_state := ⟨s.shrunken, s.num, 0, [], []⟩
  if s.repeated_special_counts.isEmpty then e0
  else
    let ordered := s.repeated_special_counts.foldl
      (fun (o : List (Nat × byte_pair)) e => if e.2 > 2 then map_insert_new nat_lt o e.2 e.1 else o) []
    let ordered := ordered.drop (ordered.length - available_specials)
    let marginal : Bool :=
      match ordered with
      | [e] => decide (e.1 = 3)
      | _ => false
    let ordered := if marginal then [] else ordered
    let repeated_special_offsets := if marginal then [] else s.repeated_special_offsets
    let repeated_specials := ordered.foldl (fun (r : List byte_pair) e => set_insert pair_lt r e.2) []
    repeated_special_offsets.foldl (extra_step num_specials repeated_specials) e0

/-- Append the table of the specials and, after the marker `0xf8`, of the extra specials. -/
def append_specials (specials : List byte_pair) (e : extra_state) : Buf × Nat :=
  let r := specials.foldl
    (fun (r : Buf × Nat) p => (wr (wr r.1 r.2 p.1) (r.2 + 1) p.2, r.2 + 2)) (e.shrunken, e.num)
  let r := if e.extra_specials.length ≠ 0 then (wr r.1 r.2 c_special_marker, r.2 + 1) else r
  e.extra_specials.foldl
    (fun (r : Buf × Nat) p => (wr (wr r.1 r.2 p.1) (r.2 + 1) p.2, r.2 + 2)) r

/-- The contents of `shrunken` and the value of `num` at the end of `shrink_output`. -/
def shrink_scratch (p_buffer : Buf) (length : Nat) : Buf × Nat :=
  let pairs := count_pairs p_buffer length length 0 []
  let specials := select_specials pairs
  let special_nums := number_specials specials
  let available_specials := c_max_specials - special_nums.length
  let s0 : shrink_state :=
    { i := 0, num := 0, repeats := 0, steps_ascending := true, stepping_amount := 0
      stepping_nibbles := 0, last_special_pos := 0, last_ch := c_special_maxval
      shrunken := [], repeated_special_counts := [], repeated_special_offsets := [] }
  let s := shrink_loop p_buffer length special_nums available_specials length s0
  let s :=
    if s.repeats ≠ 0 then
      { s with shrunken := wr s.shrunken s.num (to_byte (c_nibble_one + s.repeats - 1))
               num := s.num + 1 }
    else s
  append_specials specials (shrink_extras specials.length available_specials s)

/-- Model of `shrink_output( p_buffer, length )`: the result is the buffer and the new
value of `length`.  The scratch array is copied back only when it is shorter. -/
def shrink_output (p_buffer : Buf) (length : Nat) : Buf × Nat :=
  if length ≤ c_max_encoded_chunk_size then
    let r := shrink_scratch p_buffer length
    if r.2 < length then (wr_range p_buffer 0 (rd_range r.1 0 r.2), r.2) else (p_buffer, length)
  else (p_buffer, length)

/-- The shrink pass applied to a block given as a list of bytes. -/
def shrink_block (block : List Nat) : List Nat :=
  let r := shrink_output block block.length
  r.1.take r.2

/-! ## Marker bytes -/

/-- First byte of a back-ref marker, as the match branch of `encode_clz_data` builds it:
`byte1 = c_high_bit_value | ( ( offset & 0x0f00 ) >> 8 )` followed by
`byte1 |= ( length - c_min_pat_length ) << 4`. -/
def back_ref_byte1 (offset length : Nat) : Nat :=
  to_byte (to_byte (c_high_bit_value ||| ((offset &&& 0x0f00) >>> 8))
    ||| ((length - c_min_pat_length) <<< 4))

/-- Second byte of a back-ref marker: `byte2 = ( offset & 0x00ff )`. -/
def back_ref_byte2 (offset : Nat) : Nat := to_byte (offset &&& 0x00ff)

/-- First byte of a back-ref repeat, built from the decremented counter:
`rbyte1 = c_nibble_one | ( ( --last_pair_repeats & 0x0f00 ) >> 8 )`. -/
def repeat_byte1 (last_pair_repeats : Nat) : Nat :=
  to_byte (c_nibble_one ||| ((last_pair_repeats &&& 0x0f00) >>> 8))

/-- Second byte of a back-ref repeat: `rbyte2 = ( last_pair_repeats & 0x00ff )`. -/
def repeat_byte2 (last_pair_repeats : Nat) : Nat := to_byte (last_pair_repeats &&& 0x00ff)

/-- The length a decoder reads from a marker: `( ( byte1 & 0x70 ) >> 4 ) + c_min_pat_length`. -/
def marker_pat_length (byte1 : Nat) : Nat := ((byte1 &&& 0x70) >>> 4) + c_min_pat_length

/-- The offset a decoder reads from a marker: `( ( byte1 & c_nibble_two ) << 8 ) + byte2`. -/
def marker_pat_offset (byte1 byte2 : Nat) : Nat := ((byte1 &&& c_nibble_two) <<< 8) + byte2

/-- The repeat count `decode_clz_data` reads from a back-ref repeat:
`num_repeats = ( byte1 & c_nibble_two ) << 8` followed by `num_repeats += ( byte2 + 1 )`. -/
def marker_num_repeats (byte1 byte2 : Nat) : Nat := ((byte1 &&& c_nibble_two) <<< 8) + (byte2 + 1)

/-! ## Meta-pattern combining -/

structure combine_state where
  meta_patterns : meta_pattern_info
  p_buffer : Buf
  offset : Nat
  last_pattern_offset : Nat
deriving DecidableEq, Repr

/-- Increment of the repeat value held in the two bytes at `at_hi` and `at_hi + 1`. -/
def increment_repeat (p_buffer : Buf) (at_hi : Nat) : Buf :=
  if rd p_buffer (at_hi + 1) ≠ c_max_repeats_lo then
    wr p_buffer (at_hi + 1) (to_byte (rd p_buffer (at_hi + 1) + 1))
  else
    let p_buffer := wr p_buffer (at_hi + 1) 0
    wr p_buffer at_hi (to_byte (rd p_buffer at_hi + 1))

/-- Store `meta_patterns[ pat ].first` and `.second` at `at_pos` and `at_pos + 1`. -/
def store_pattern_pair (c : combine_state) (pat : meta_pattern) (at_pos : Nat) : combine_state :=
  let r := c.meta_patterns.index_pattern pat
  { c with meta_patterns := r.1
           p_buffer := wr (wr c.p_buffer at_pos r.2.1) (at_pos + 1) r.2.2 }

/-- Model of `combine_meta_patterns`: the result is the new state and `can_continue`. -/
def combine_meta_patterns (c : combine_state) : Option (combine_state × Bool) :=
  if c.offset > c_min_pat_length + c_meta_pat_length then
    let offset := c.offset
    let pat : meta_pattern :=
      ⟨rd c.p_buffer (offset - 4), rd c.p_buffer (offset - 3),
       rd c.p_buffer (offset - 2), rd c.p_buffer (offset - 1)⟩
    if (pat.byte1 &&& c_nibble_one) ≠ c_nibble_one then
      if c.meta_patterns.has_pattern pat = true
          ∧ c.meta_patterns.pattern_offset pat < offset - 4 then
        (c.meta_patterns.remove_offsets_from (offset - 6)).map fun m =>
          let c := store_pattern_pair { c with meta_patterns := m } pat (offset - 4)
          ({ c with offset := offset - 2, last_pattern_offset := offset - 2 - 2 }, true)
      else if pat.byte1 = pat.byte3 ∧ pat.byte2 = pat.byte4 then
        (c.meta_patterns.remove_offsets_from (offset - 4)).map fun m =>
          let rpl : meta_pattern := { pat with byte3 := c_nibble_one, byte4 := 0x00 }
          let p_buffer := wr (wr c.p_buffer (offset - 2) rpl.byte3) (offset - 1) rpl.byte4
          let m := if m.has_pattern rpl then m else m.add_pattern rpl (offset - 4)
          ({ c with meta_patterns := m, p_buffer := p_buffer, last_pattern_offset := offset - 4 },
            true)
      else if c.meta_patterns.has_offset (offset - 6) = true
          ∧ c.meta_patterns.has_pattern pat = true
          ∧ c.meta_patterns.pattern_offset pat < offset - 4 then
        (c.meta_patterns.remove_offsets_from (offset - 6)).map fun m =>
          let c := store_pattern_pair { c with meta_patterns := m } pat (offset - 4)
          let pat : meta_pattern :=
            ⟨rd c.p_buffer (offset - 6), rd c.p_buffer (offset - 5),
             rd c.p_buffer (offset - 4), rd c.p_buffer (offset - 3)⟩
          let m := if c.meta_patterns.has_pattern pat then c.meta_patterns
                   else c.meta_patterns.add_pattern pat (offset - 4)
          ({ c with meta_patterns := m, offset := offset - 2
                    last_pattern_offset := offset - 2 - 2 }, true)
      else if (pat.byte1 &&& c_nibble_one) = 0x90 ∧ c.meta_patterns.has_pattern pat = false then
        let first_offset := ((pat.byte1 &&& c_nibble_two) <<< 8) + pat.byte2
        if c.meta_patterns.has_offset first_offset then
          (c.meta_patterns.remove_offsets_from (offset - 4)).map fun m =>
            ({ c with meta_patterns := m.add_pattern pat (offset - 4) }, false)
        else some (c, false)
      else some (c, false)
    else if pat.byte3 = rd c.p_buffer (offset - 6) ∧ pat.byte4 = rd c.p_buffer (offset - 5) then
      (c.meta_patterns.remove_offsets_from (offset - 6)).map fun m =>
        let c := { c with meta_patterns := m }
        if rd c.p_buffer (offset - 4) ≠ c_max_repeats_hi
            ∨ rd c.p_buffer (offset - 3) ≠ c_max_repeats_lo then
          let p_buffer := increment_repeat c.p_buffer (offset - 4)
          let pat : meta_pattern :=
            ⟨rd p_buffer (offset - 6), rd p_buffer (offset - 5),
             rd p_buffer (offset - 4), rd p_buffer (offset - 3)⟩
          let m := if m.has_pattern pat then m else m.add_pattern pat (offset - 6)
          ({ meta_patterns := m, p_buffer := p_buffer, offset := offset - 2
             last_pattern_offset := size_sub (offset - 2) 4 }, true)
        else (c, false)
    else
      let rpt : meta_pattern :=
        ⟨rd c.p_buffer (offset - 6), rd c.p_buffer (offset - 5),
         rd c.p_buffer (offset - 4), rd c.p_buffer (offset - 3)⟩
      if c.meta_patterns.has_pattern rpt = true
          ∧ c.meta_patterns.pattern_offset rpt < offset - 6 then
        (c.meta_patterns.remove_offsets_from (offset - 8)).map fun m =>
          let p_buffer := wr (wr c.p_buffer (offset - 6) rpt.byte1) (offset - 5) rpt.byte2
          let p_buffer := wr (wr p_buffer (offset - 4) pat.byte3) (offset - 3) pat.byte4
          let pat : meta_pattern := { pat with byte1 := rpt.byte1, byte2 := rpt.byte2 }
          let m := if m.has_pattern pat then m else m.add_pattern pat (offset - 4)
          ({ meta_patterns := m, p_buffer := p_buffer, offset := offset - 2
             last_pattern_offset := offset - 2 - 2 }, true)
      else some (c, false)
  else some (c, false)

/-- The loop of `perform_meta_combines`, with `n` rounds left. -/
def perform_combines_loop : Nat → combine_state → Option combine_state
  | 0, c => some c
  | n + 1, c =>
    match combine_meta_patterns c with
    | none => none
    | some (c, true) => perform_combines_loop n c
    | some (c, false) => some c

/-- Model of `perform_meta_combines`. -/
def perform_meta_combines (c : combine_state) : Option combine_state :=
  perform_combines_loop c_max_combines c

structure replace_result where
  meta_patterns : meta_pattern_info
  p_buffer : Buf
  new_byte1 : Nat
  new_byte2 : Nat
  end_offset : Nat
  last_pattern_offset : Nat
  was_replaced : Bool
deriving DecidableEq, Repr

/-- Model of `replace_meta_pattern`.  The arguments passed by reference are returned in
the result together with the return value `was_replaced`. -/
def replace_meta_pattern (meta_patterns : meta_pattern_info) (p_buffer : Buf) (offset : Nat)
    (new_byte1 new_byte2 end_offset last_pattern_offset : Nat) : Option replace_result :=
  if offset ≥ c_min_pat_length then
    let byte1 := rd p_buffer offset
    let byte2 := rd p_buffer (offset + 1)
    let same : Bool := decide ((byte1 &&& c_nibble_one) ≠ c_nibble_one
      ∧ byte1 = new_byte1 ∧ byte2 = new_byte2)
    let new_byte1 := if same then 0xf0 else new_byte1
    let new_byte2 := if same then 0x00 else new_byte2
    let pat : meta_pattern := ⟨byte1, byte2, new_byte1, new_byte2⟩
    if meta_patterns.has_pattern pat then
      let had_prior_pattern := meta_patterns.has_offset (offset - 2)
      match meta_patterns.remove_offsets_from (offset - 2) with
      | none => none
      | some m =>
        let c := store_pattern_pair ⟨m, p_buffer, end_offset, offset⟩ pat offset
        match perform_meta_combines c with
        | none => none
        | some c =>
          let m :=
            if had_prior_pattern = true ∧ end_offset = c.offset then
              let pat : meta_pattern :=
                ⟨rd c.p_buffer (offset - 2), rd c.p_buffer (offset - 1),
                 rd c.p_buffer offset, rd c.p_buffer (offset + 1)⟩
              if c.meta_patterns.has_pattern pat then c.meta_patterns
              else c.meta_patterns.add_pattern pat (offset - 2)
            else c.meta_patterns
          some ⟨m, c.p_buffer, new_byte1, new_byte2, c.offset, c.last_pattern_offset, true⟩
    else if (pat.byte1 &&& c_nibble_one) ≠ c_nibble_one then
      (meta_patterns.remove_offsets_from offset).map fun m =>
        ⟨m.add_pattern pat offset, p_buffer, new_byte1, new_byte2, end_offset, offset, false⟩
    else some ⟨meta_patterns, p_buffer, new_byte1, new_byte2, end_offset, last_pattern_offset, false⟩
  else some ⟨meta_patterns, p_buffer, new_byte1, new_byte2, end_offset, last_pattern_offset, false⟩

/-- Order of `std::string` keys (bytes compared as `unsigned char`). -/
def string_lt : List Nat → List Nat → Bool
  | [], [] => false
  | [], _ :: _ => true
  | _ :: _, [] => false
  | a :: as, b :: bs => if a < b then true else if a = b then string_lt as bs else false

/-- Model of `replace_extra_pattern`: the result is the map, the buffer, `output_offset`
and the return value `was_replaced`. -/
def replace_extra_pattern (extra_patterns : List (List Nat × Nat)) (pattern : List Nat)
    (p_buffer : Buf) (output_offset : Nat) : List (List Nat × Nat) × Buf × Nat × Bool :=
  if map_count extra_patterns pattern = false then
    (map_insert string_lt extra_patterns pattern (size_sub output_offset 2), p_buffer,
      output_offset, false)
  else
    let offset := map_get extra_patterns pattern 0
    let byte1 := c_high_bit_value ||| ((offset &&& 0x0f00) >>> 8)
    let byte1 := to_byte (byte1 ||| size_shl (size_sub pattern.length c_min_pat_length) 4)
    let byte2 := offset &&& 0x00ff
    if output_offset > c_min_pat_length
        ∧ rd p_buffer (output_offset - 4) = byte1
        ∧ rd p_buffer (output_offset - 3) = byte2 then
      (extra_patterns, wr (wr p_buffer (output_offset - 2) c_nibble_one) (output_offset - 1) 0x00,
        output_offset, true)
    else if output_offset > c_min_pat_length * 2
        ∧ rd p_buffer (output_offset - 6) = byte1
        ∧ rd p_buffer (output_offset - 5) = byte2
        ∧ (rd p_buffer (output_offset - 4) &&& c_nibble_one) = c_nibble_one then
      if rd p_buffer (output_offset - 4) ≠ c_max_repeats_hi
          ∨ rd p_buffer (output_offset - 3) ≠ c_max_repeats_lo then
        (extra_patterns, increment_repeat p_buffer (output_offset - 4), output_offset - 2, true)
      else
        (extra_patterns, wr (wr p_buffer (output_offset - 2) byte1) (output_offset - 1) byte2,
          output_offset, true)
    else
      (extra_patterns,
        wr (wr p_buffer (size_sub output_offset 2) byte1) (size_sub output_offset 1) byte2,
        output_offset, true)

/-! ## The encoder -/

structure encode_state where
  is : List Nat
  is_eof : Bool
  os : List Nat
  num : Nat
  output_offset : Nat
  last_pair_repeats : Nat
  last_pattern_offset : Nat
  last_back_ref_offset : Nat
  last_pair : meta_pair
  meta_patterns : meta_pattern_info
  extra_patterns : List (List Nat × Nat)
  input_buffer : Buf
  output_buffer : Buf
deriving DecidableEq, Repr

/-- The statement `if( is.read( ( char* )input_buffer + num, 1 ) ) ++num;`: a read at
the end of the stream stores nothing and sets the end-of-file flag. -/
def encode_read (s : encode_state) : encode_state :=
  match s.is with
  | [] => { s with is_eof := true }
  | ch :: rest => { s with is := rest, input_buffer := wr s.input_buffer s.num ch, num := s.num + 1 }

/-- The reading loop `while( num < c_max_pat_length )` at the head of the main loop.  A
round either stores a byte or sets the end-of-file flag, so `c_max_pat_length + 2`
rounds of fuel are never used up. -/
def encode_refill : Nat → encode_state → encode_state
  | 0, s => s
  | fuel + 1, s =>
    if s.num < c_max_pat_length then
      if s.is_eof then s
      else
        let s := encode_read s
        let bytes_from_end :=
          if s.num ≠ 0 ∧ (rd s.input_buffer 0 &&& c_high_bit_value) ≠ 0 then 3 else 1
        if s.output_offset + s.num ≥ c_max_offset - bytes_from_end then s
        else encode_refill fuel s
    else s

/-- The pair-repeat flush that the source spells out four times: the repeat bytes are
built from `--last_pair_repeats` and handed to `replace_meta_pattern`; when that does
not replace, they are appended to the output buffer. -/
def emit_pair_repeat (s : encode_state) : Option encode_state :=
  let last_pair_repeats := size_sub s.last_pair_repeats 1
  let rbyte1 := repeat_byte1 last_pair_repeats
  let rbyte2 := repeat_byte2 last_pair_repeats
  (replace_meta_pattern s.meta_patterns s.output_buffer s.last_back_ref_offset rbyte1 rbyte2
      s.output_offset s.last_pattern_offset).map fun r =>
    let s := { s with last_pair_repeats := last_pair_repeats, meta_patterns := r.meta_patterns
                      output_buffer := r.p_buffer, output_offset := r.end_offset
                      last_pattern_offset := r.last_pattern_offset }
    if r.was_replaced then s
    else
      { s with output_buffer := wr (wr s.output_buffer s.output_offset r.new_byte1)
                 (s.output_offset + 1) r.new_byte2
               output_offset := s.output_offset + 2 }

/-- The extra-pattern attempt followed by the literal copy of `count` bytes, shared by
the short branch (`count = min( num, c_min_pat_length )`, pattern built from `num`
bytes) and the branch without a sufficient match (`count = length`). -/
def emit_literals (s : encode_state) (guard : Bool) (pattern_bytes count : Nat) : encode_state :=
  let try_extra : Bool := guard
    && decide (s.last_pattern_offset = size_sub s.output_offset 2)
    && decide ((rd s.input_buffer 0 &&& c_high_bit_value) ≠ c_high_bit_value)
  let r : List (List Nat × Nat) × Buf × Nat × Bool :=
    if try_extra then
      replace_extra_pattern s.extra_patterns
        (rd_range s.output_buffer s.last_pattern_offset 2 ++ rd_range s.input_buffer 0 pattern_bytes)
        s.output_buffer s.output_offset
    else (s.extra_patterns, s.output_buffer, s.output_offset, false)
  let s := { s with extra_patterns := r.1, output_buffer := r.2.1, output_offset := r.2.2.1 }
  if r.2.2.2 then s
  else
    { s with output_buffer := wr_range s.output_buffer s.output_offset (rd_range s.input_buffer 0 count)
             output_offset := s.output_offset + count }

/-- The inner loop `for( ; i < num; i++ )` of the back-ref search at `start`: the result
is `(i, length, offset)`. -/
def match_inner (output_buffer input_buffer : Buf) (num output_offset start : Nat) :
    Nat → Nat → Nat → Nat → Nat × Nat × Nat
  | 0, i, length, offset => (i, length, offset)
  | fuel + 1, i, length, offset =>
    if i < num then
      if rd output_buffer (start + i) ≠ rd input_buffer i then (i, length, offset)
      else
        let length' := if i ≥ length then i + 1 else length
        let offset' := if i ≥ length then start else offset
        if start + i ≥ output_offset then (i, length', offset')
        else match_inner output_buffer input_buffer num output_offset start fuel (i + 1)
          length' offset'
    else (i, length, offset)

/-- The outer loop `for( ; start <= output_offset - c_min_pat_length; start++ )` of the
back-ref search: the result is `(length, offset)`. -/
def match_outer (output_buffer input_buffer : Buf) (num output_offset : Nat) :
    Nat → Nat → Nat → Nat → Nat × Nat
  | 0, _, length, offset => (length, offset)
  | fuel + 1, start, length, offset =>
    if start ≤ size_sub output_offset c_min_pat_length then
      let r := match_inner output_buffer input_buffer num output_offset start num 0 length offset
      if r.1 = num then (num, start)
      else match_outer output_buffer input_buffer num output_offset fuel (start + 1) r.2.1 r.2.2
    else (length, offset)

/-- The back-ref search of the main loop, the adjustment for an input that starts with
a back-ref included: the result is `(length, offset)`. -/
def find_back_ref (s : encode_state) : Nat × Nat :=
  let input_starts_with_back_ref : Bool := decide ((rd s.input_buffer 0 &&& c_high_bit_value) ≠ 0)
  let last_offset_for_pattern := c_max_offset - 2
  let last_offset_for_pattern :=
    if input_starts_with_back_ref then last_offset_for_pattern - 2 else last_offset_for_pattern
  let r : Nat × Nat :=
    if s.output_offset < last_offset_for_pattern then
      match_outer s.output_buffer s.input_buffer s.num s.output_offset (s.output_offset + 1) 0 1 0
    else (1, 0)
  if r.1 = 1 ∧ input_starts_with_back_ref = true then (r.1 + 1, r.2) else r

/-- The branch `if( num < c_min_pat_length || output_offset < c_min_pat_length )`; the
Boolean is `true` when the branch leaves the main loop with `break`. -/
def encode_short (s : encode_state) : Option (encode_state × Bool) :=
  let flushed := if s.last_pair_repeats ≠ 0 then emit_pair_repeat s else some s
  flushed.map fun s =>
    let s := { s with last_pair := (0, 0), last_pair_repeats := 0 }
    let s := emit_literals s (decide (s.num < c_min_pat_length)) s.num (min s.num c_min_pat_length)
    if s.num < c_min_pat_length then (s, true)
    else
      ({ s with input_buffer := memmove s.input_buffer 0 c_min_pat_length (s.num - c_min_pat_length)
                num := s.num - c_min_pat_length }, false)

/-- The statements `if( num > length ) memmove( input_buffer, input_buffer + length,
num - length )` and `num -= length` that take `length` bytes out of the input buffer. -/
def encode_consume (s : encode_state) (length : Nat) : encode_state :=
  let input_buffer :=
    if s.num > length then memmove s.input_buffer 0 length (s.num - length) else s.input_buffer
  { s with input_buffer := input_buffer, num := size_sub s.num length }

/-- The branch `if( length < c_min_pat_length )` of the main loop. -/
def encode_no_match (s : encode_state) (length : Nat) : Option encode_state :=
  let input_starts_with_back_ref : Bool := decide ((rd s.input_buffer 0 &&& c_high_bit_value) ≠ 0)
  let flushed :=
    if input_starts_with_back_ref then some { s with last_back_ref_offset := s.output_offset }
    else
      (if s.last_pair_repeats ≠ 0 then emit_pair_repeat s else some s).map fun s =>
        { s with last_pair := (0, 0), last_pair_repeats := 0 }
  match flushed with
  | none => none
  | some s =>
    let s := emit_literals s (decide (length < c_min_pat_length)) length length
    let s := encode_consume s length
    (perform_meta_combines ⟨s.meta_patterns, s.output_buffer, s.output_offset,
        s.last_back_ref_offset⟩).map fun c =>
      { s with meta_patterns := c.meta_patterns, output_buffer := c.p_buffer
               output_offset := c.offset, last_back_ref_offset := c.last_pattern_offset }

/-- The block `if( !last_pair_repeats )` of the match branch, followed by
`num -= length`: the back-ref is merged with the back-ref before it into a meta
pattern, or it is put at the front of the input buffer. -/
def encode_chain (s : encode_state) (length byte1 byte2 : Nat) : Option encode_state :=
  let r : Option replace_result :=
    if s.last_back_ref_offset ≠ 0 ∧ s.last_back_ref_offset = size_sub s.output_offset 2 then
      replace_meta_pattern s.meta_patterns s.output_buffer s.last_back_ref_offset byte1 byte2
        s.output_offset s.last_pattern_offset
    else
      some ⟨s.meta_patterns, s.output_buffer, byte1, byte2, s.output_offset,
        s.last_pattern_offset, false⟩
  r.map fun r =>
    let s := { s with meta_patterns := r.meta_patterns, output_buffer := r.p_buffer
                      output_offset := r.end_offset
                      last_pattern_offset := r.last_pattern_offset }
    if r.was_replaced then
      { s with last_pair := (0, 0), last_pair_repeats := 0
               input_buffer := memmove s.input_buffer 0 length (size_sub s.num length)
               num := size_sub s.num length }
    else
      let input_buffer :=
        if length > 2 ∧ s.num > length then memmove s.input_buffer 2 length (s.num - length)
        else s.input_buffer
      { s with input_buffer := wr (wr input_buffer 0 r.new_byte1) 1 r.new_byte2
               last_pair := (r.new_byte1, r.new_byte2)
               num := size_sub (s.num + 2) length }

/-- The part of the match branch after the pending pair repeat has been flushed. -/
def encode_back_ref (s : encode_state) (length byte1 byte2 : Nat)
    (bytes_same_as_last_pair : Bool) : Option encode_state :=
  if bytes_same_as_last_pair = false ∧ s.output_offset ≥ c_max_offset - 1 then
    some { s with output_buffer := wr (wr s.output_buffer s.output_offset byte1)
                    (s.output_offset + 1) byte2
                  output_offset := s.output_offset + 2
                  num := size_sub s.num length }
  else
    let s := { s with last_pair_repeats :=
      if bytes_same_as_last_pair then s.last_pair_repeats + 1 else s.last_pair_repeats }
    if s.last_pair_repeats = 0 then encode_chain s length byte1 byte2
    else some (encode_consume s length)

/-- The branch of the main loop for a match of at least `c_min_pat_length` bytes. -/
def encode_match (s : encode_state) (length offset : Nat) : Option encode_state :=
  let byte1 := back_ref_byte1 offset length
  let byte2 := back_ref_byte2 offset
  let bytes_same_as_last_pair : Bool := decide (byte1 = s.last_pair.1 ∧ byte2 = s.last_pair.2)
  if s.last_pair_repeats ≠ 0
      ∧ (bytes_same_as_last_pair = false ∨ s.last_pair_repeats ≥ c_max_repeats) then
    match emit_pair_repeat s with
    | none => none
    | some s =>
      encode_back_ref { s with last_pair := (0, 0), last_pair_repeats := 0 } length byte1 byte2 false
  else encode_back_ref s length byte1 byte2 bytes_same_as_last_pair

/-- The end of a round of the main loop: combine and, when the block is full, shrink
and write it (one byte more than its length) and reset the block state. -/
def encode_flush (s : encode_state) : Option encode_state :=
  let combined : Option encode_state :=
    if s.output_offset ≥ c_max_offset then
      (perform_meta_combines ⟨s.meta_patterns, s.output_buffer, s.output_offset,
          s.last_back_ref_offset⟩).map fun c =>
        { s with meta_patterns := c.meta_patterns, output_buffer := c.p_buffer
                 output_offset := c.offset, last_back_ref_offset := c.last_pattern_offset }
    else some s
  combined.map fun s =>
    if s.output_offset ≥ c_max_offset then
      let r := shrink_output s.output_buffer s.output_offset
      { s with output_buffer := r.1
               os := s.os ++ rd_range r.1 0 (r.2 + 1)
               meta_patterns := meta_pattern_info.empty
               extra_patterns := []
               last_pair := (0, 0), last_pair_repeats := 0
               output_offset := 0, last_pattern_offset := 0, last_back_ref_offset := 0 }
    else s

/-- The part of a round of the main loop from the back-ref search on. -/
def encode_search (s : encode_state) : Option encode_state :=
  let r := find_back_ref s
  let next := if r.1 < c_min_pat_length then encode_no_match s r.1 else encode_match s r.1 r.2
  match next with
  | none => none
  | some s => encode_flush s

/-- One round of the main loop `while( true )` of `encode_clz_data`; the Boolean is
`true` when the round leaves the loop with `break`. -/
def encode_round (s : encode_state) : Option (encode_state × Bool) :=
  let s := encode_refill (c_max_pat_length + 2) s
  if s.num = 0 then some (s, true)
  else if s.num < c_min_pat_length ∨ s.output_offset < c_min_pat_length then
    match encode_short s with
    | none => none
    | some (s, true) => some (s, true)
    | some (s, false) => (encode_search s).map fun s => (s, false)
  else (encode_search s).map fun s => (s, false)

/-- The main loop of `encode_clz_data`, with fuel. -/
def encode_loop : Nat → encode_state → Option encode_state
  | 0, _ => none
  | fuel + 1, s =>
    match encode_round s with
    | none => none
    | some (s, true) => some s
    | some (s, false) => encode_loop fuel s

/-- The output block at the end of `encode_clz_data`, before the last `shrink_output`:
the pending pair repeat is flushed and, when the block is not empty, the meta patterns
are combined.  The result is the buffer and `output_offset`. -/
def encode_last_block (s : encode_state) : Option (Buf × Nat) :=
  let flushed := if s.last_pair_repeats ≠ 0 then emit_pair_repeat s else some s
  match flushed with
  | none => none
  | some s =>
    if s.output_offset ≠ 0 then
      (perform_meta_combines ⟨s.meta_patterns, s.output_buffer, s.output_offset,
          s.last_back_ref_offset⟩).map fun c => (c.p_buffer, c.offset)
    else some (s.output_buffer, 0)

/-- The statements of `encode_clz_data` after the main loop: the last block is shrunk
and written when it is not empty. -/
def encode_finish (s : encode_state) : Option (List Nat) :=
  (encode_last_block s).map fun b =>
    if b.2 ≠ 0 then
      let r := shrink_output b.1 b.2
      s.os ++ rd_range r.1 0 r.2
    else s.os

/-- The state of `encode_clz_data` before the main loop: the counters are zero, the
containers empty and both buffers zero filled. -/
def encode_init (is : List Nat) : encode_state :=
  { is := is, is_eof := false, os := [], num := 0, output_offset := 0, last_pair_repeats := 0
    last_pattern_offset := 0, last_back_ref_offset := 0, last_pair := (0, 0)
    meta_patterns := meta_pattern_info.empty, extra_patterns := []
    input_buffer := List.replicate (c_max_pat_length + 2) 0, output_buffer := [] }

/-- Fuel of the main loop: a round that does not leave the loop takes at least one byte
out of the stream and the input buffer together, and one more round sees the end. -/
def encode_fuel (is : List Nat) : Nat := is.length + 2

/-- Model of `encode_clz_data( is, os )`: the bytes written to `os`, or `none` when a
loop of the encoder does not end within its fuel. -/
def encode_clz_data (is : List Nat) : Option (List Nat) :=
  match encode_loop (encode_fuel is) (encode_init is) with
  | none => none
  | some s => encode_finish s

/-- The bytes of the last output block of `encode_clz_data` as they stand before the
last shrink pass. -/
def encode_unshrunk (is : List Nat) : Option (List Nat) :=
  match encode_loop (encode_fuel is) (encode_init is) with
  | none => none
  | some s => (encode_last_block s).map fun b => rd_range b.1 0 b.2

/-- The state of the encoder after `n` further rounds of the main loop; a round that
leaves the loop with `break` ends the count. -/
def encode_rounds : Nat → encode_state → Option encode_state
  | 0, s => some s
  | n + 1, s =>
    match encode_round s with
    | none => none
    | some (s, true) => some s
    | some (s, false) => encode_rounds n s

/-- A state of the encoder that holds literals only: nothing is pending, the
containers are empty and the input stream is used up. -/
def literal_state (num : Nat) (input_buffer output_buffer : List Nat) (output_offset : Nat) :
    encode_state :=
  { is := [], is_eof := true, os := [], num := num, output_offset := output_offset
    last_pair_repeats := 0, last_pattern_offset := 0, last_back_ref_offset := 0
    last_pair := (0, 0), meta_patterns := meta_pattern_info.empty, extra_patterns := []
    input_buffer := input_buffer, output_buffer := output_buffer }

/-- The ASCII string `ABC` repeated `n` times. -/
def abc (n : Nat) : List Nat := (List.replicate n [0x41, 0x42, 0x43]).flatten

/-- A state of the encoder in the first block, with nothing written, no meta pattern
and no extra pattern recorded. -/
def block_state (is : List Nat) (is_eof : Bool) (num output_offset : Nat)
    (input_buffer output_buffer : List Nat) (last_pair : meta_pair)
    (last_pair_repeats last_back_ref_offset : Nat) : encode_state :=
  { is := is, is_eof := is_eof, os := [], num := num, output_offset := output_offset
    last_pair_repeats := last_pair_repeats, last_pattern_offset := 0
    last_back_ref_offset := last_back_ref_offset
    last_pair := last_pair, meta_patterns := meta_pattern_info.empty, extra_patterns := []
    input_buffer := input_buffer, output_buffer := output_buffer }

/-- The input buffer while the encoder runs through the repetitions of `ABC`. -/
def abc_buffer : Buf := [0x41, 0x42, 0x43, 0x41, 0x42, 0x43, 0x41, 0x42, 0x43, 0, 0]

/-- The state of the encoder while it counts the repeats of the back-ref to `ABC`. -/
def chain_state (is : List Nat) (is_eof : Bool) (num last_pair_repeats : Nat) : encode_state :=
  block_state is is_eof num 5 abc_buffer [0x41, 0x42, 0x43, 0x80, 0x00] (0x80, 0x00)
    last_pair_repeats 3

/-! ## The expand pass -/

structure expand_state where
  length : Nat
  num_specials : Nat
  last_ch : Nat
  had_marker : Bool
  process_steps : Bool
  back_refs : List Nat
  specials : List (Nat × Nat)
  p_buffer : Buf
deriving DecidableEq, Repr

/-- The loop `for( size_t i = 0; i < num_repeats; i++ )` of the stepping expansion.  In
its statement `*( p_buffer + length ) = *( p_buffer + length++ - 1 ) + stepping_amount`
the right operand of the assignment is evaluated first: the byte before `length` is
read and `length` advances, then the sum is stored at the new `length`, one cell after
the end of the data, and the cell at the old `length` is not written. -/
def expand_steps (stepping_amount : Nat) : Nat → Buf → Nat → Buf × Nat
  | 0, p_buffer, length => (p_buffer, length)
  | n + 1, p_buffer, length =>
    expand_steps stepping_amount n
      (wr p_buffer (length + 1) (to_byte (rd p_buffer (size_sub length 1) + stepping_amount)))
      (length + 1)

/-- The branch `if( process_steps )` of `expand_input` for the byte `ch` after `0xf9`. -/
def expand_process_steps (s : expand_state) (ch : Nat) : expand_state :=
  let nibbles := ((ch &&& c_nibble_one) >>> 4) + 1
  let num_repeats := ch &&& c_nibble_two
  let stepping_amount :=
    if nibbles = 1 then
      let nibble1 := (rd s.p_buffer (size_sub s.length 1) &&& c_nibble_one) >>> 4
      let nibble2 := rd s.p_buffer (size_sub s.length 1) &&& c_nibble_two
      let stepping_amount := if nibble1 < nibble2 then nibble2 - nibble1 else nibble1 - nibble2
      (stepping_amount <<< 4) + stepping_amount
    else if nibbles = 2 then
      let byte1 := rd s.p_buffer (size_sub s.length 2)
      let byte2 := rd s.p_buffer (size_sub s.length 1)
      if byte1 < byte2 then byte2 - byte1 else byte1 - byte2
    else 0
  let r := expand_steps stepping_amount num_repeats s.p_buffer s.length
  { s with process_steps := false, p_buffer := r.1, length := r.2 }

/-- The loop `for( size_t i = 0; i <= ( ch - c_nibble_one ); i++ )` that repeats `last_ch`. -/
def expand_repeat (last_ch : Nat) : Nat → Buf → Nat → Buf × Nat
  | 0, p_buffer, length => (p_buffer, length)
  | n + 1, p_buffer, length => expand_repeat last_ch n (wr p_buffer length last_ch) (length + 1)

/-- The body of the reading loop of `expand_input` for one byte `ch`.  The Boolean is
`false` when the body leaves through `continue`, so that `++length >= max_length` is
not reached.  (`skip_count` is never set by the source; its branch is dead.) -/
def expand_byte (s : expand_state) (ch : Nat) : expand_state × Bool :=
  if s.process_steps then (expand_process_steps s ch, false)
  else if s.had_marker then ({ s with p_buffer := wr s.p_buffer s.length ch }, true)
  else if (ch &&& c_high_five_bits) = c_high_five_bits
      ∧ ¬ size_sub s.length 1 ∈ s.back_refs then
    if ch = c_special_marker then ({ s with had_marker := true }, false)
    else if ch = c_special_nsteps then ({ s with process_steps := true }, false)
    else
      let s := { s with specials := map_insert nat_lt s.specials s.length (c_special_maxval - ch)
                        length := s.length + 1 }
      let s :=
        if (c_special_maxval - ch) + 1 > s.num_specials then
          { s with num_specials := (c_special_maxval - ch) + 1 }
        else s
      (s, true)
  else
    let s :=
      if (ch &&& c_high_bit_value) ≠ 0
          ∧ ¬ size_sub s.length 1 ∈ s.back_refs
          ∧ ((ch &&& c_nibble_one) ≠ c_nibble_one
            ∨ size_sub s.length 2 ∈ s.back_refs
            ∨ map_count s.specials (size_sub s.length 2) = true) then
        { s with back_refs := set_insert nat_lt s.back_refs s.length }
      else s
    if (ch &&& c_nibble_one) = c_nibble_one
        ∧ ¬ size_sub s.length 1 ∈ s.back_refs
        ∧ ¬ size_sub s.length 2 ∈ s.back_refs
        ∧ map_count s.specials (size_sub s.length 2) = false then
      let r := expand_repeat s.last_ch (ch - c_nibble_one + 1) s.p_buffer s.length
      ({ s with p_buffer := r.1, length := size_sub r.2 1, last_ch := ch }, true)
    else
      ({ s with last_ch := ch, p_buffer := wr s.p_buffer s.length ch }, true)

/-- The reading loop of `expand_input`: the result is the state at the end of the loop
and the unread rest of the stream. -/
def expand_read (max_length : Nat) : List Nat → expand_state → expand_state × List Nat
  | [], s => (s, [])
  | ch :: rest, s =>
    let r := expand_byte s ch
    if r.2 = true then
      let s := { r.1 with length := r.1.length + 1 }
      if s.length ≥ max_length then (s, rest) else expand_read max_length rest s
    else expand_read max_length rest r.1

/-- One round of the loop over the recorded special markers at the end of
`expand_input`; the state is `(p_buffer, length, already_adjusted)`. -/
def expand_special (special_pairs : List byte_pair) (st : Buf × Nat × Nat) (entry : Nat × Nat) :
    Buf × Nat × Nat :=
  let p_buffer := st.1
  let length := st.2.1
  let already_adjusted := st.2.2
  let offset := entry.1 + already_adjusted
  let p_buffer := wr p_buffer offset (special_pairs.getD entry.2 (0, 0)).1
  let p_buffer := wr p_buffer (offset + 1) (special_pairs.getD entry.2 (0, 0)).2
  if (rd p_buffer offset &&& c_high_five_bits) = c_special_marker then
    let num_1 := c_special_maxval - rd p_buffer offset
    let num_2 := c_special_maxval - rd p_buffer (offset + 1)
    let p_buffer := memmove p_buffer (offset + 2) offset (size_sub length offset)
    let p_buffer := wr p_buffer offset (special_pairs.getD num_1 (0, 0)).1
    let p_buffer := wr p_buffer (offset + 1) (special_pairs.getD num_1 (0, 0)).2
    let p_buffer := wr p_buffer (offset + 2) (special_pairs.getD num_2 (0, 0)).1
    let p_buffer := wr p_buffer (offset + 3) (special_pairs.getD num_2 (0, 0)).2
    (p_buffer, length + 2, already_adjusted + 2)
  else (p_buffer, length, already_adjusted)

/-- The block `if( num_specials )` at the end of `expand_input`. -/
def expand_specials (s : expand_state) : Buf × Nat :=
  if s.num_specials ≠ 0 then
    let specials_offset := size_sub s.length (s.num_specials * 2)
    let special_pairs : List byte_pair := (List.range s.num_specials).map
      (fun i => (rd s.p_buffer (specials_offset + i * 2), rd s.p_buffer (specials_offset + i * 2 + 1)))
    let r := s.specials.foldl (expand_special special_pairs) (s.p_buffer, specials_offset, 0)
    (r.1, r.2.1)
  else (s.p_buffer, s.length)

/-- Model of `expand_input( is, p_buffer, max_length )`: the result is the buffer, the
returned length and the unread rest of the stream.  The buffer is zero filled first. -/
def expand_input (is : List Nat) (max_length : Nat) : Buf × Nat × List Nat :=
  let s0 : expand_state :=
    { length := 0, num_specials := 0, last_ch := 0, had_marker := false, process_steps := false
      back_refs := [], specials := [], p_buffer := [] }
  let r := expand_read max_length is s0
  let e := expand_specials r.1
  (e.1, e.2, r.2)

/-! ## The decoder -/

/-- Fuel of `expand_meta_pattern`: a call depends on its first two bytes only, and there
are `32768` pairs that start with a high bit, so a deeper recursion never returns. -/
def expand_meta_fuel : Nat := 32769

/-- Model of `expand_meta_pattern( meta, p_encoded )`, with fuel for the recursion.  Both
branches of the source expand the first two bytes of `pattern` first; the model does so
before it tells the repeat from the second pattern. -/
def expand_meta_pattern (p_encoded : Buf) : Nat → List Nat → Option (List Nat)
  | 0, _ => none
  | fuel + 1, pat =>
    if pat.length ≥ 2 ∧ (pat.getD 0 0 &&& c_high_bit_value) ≠ 0 then
      let byte1 := pat.getD 0 0
      let byte2 := pat.getD 1 0
      let pat_length := marker_pat_length byte1
      let pat_offset := marker_pat_offset byte1 byte2
      let pattern := rd_range p_encoded pat_offset pat_length
      if (pattern.getD 0 0 &&& c_high_bit_value) ≠ 0 then
        if pattern.length ≥ c_meta_pat_length - 1 then
          match expand_meta_pattern p_encoded fuel (pattern.take (c_meta_pat_length - 2)) with
          | none => none
          | some first =>
            if (pattern.getD (c_meta_pat_length - 2) 0 &&& c_nibble_one) = c_nibble_one then
              let pat_repeats := ((pattern.getD (c_meta_pat_length - 2) 0 &&& c_nibble_two) <<< 8)
                + (pattern.getD (c_meta_pat_length - 1) 0 + 1)
              some (List.replicate (pat_repeats + 1) first).flatten
            else
              (expand_meta_pattern p_encoded fuel (pattern.drop (c_meta_pat_length - 2))).map
                (fun second => first ++ second)
        else some pattern
      else some pattern
    else some pat

/-- The loop of `decode_clz_data` that records the offsets of the marker pairs. -/
def scan_meta_offsets (input_buffer : Buf) (bytes_read : Nat) : Nat → Nat → List Nat → List Nat
  | 0, _, meta_offsets => meta_offsets
  | fuel + 1, offset, meta_offsets =>
    let hit : Bool := decide ((rd input_buffer offset &&& c_high_bit_value) ≠ 0)
    let meta_offsets := if hit then set_insert nat_lt meta_offsets offset else meta_offsets
    let offset := if hit then offset + 1 else offset
    let offset := offset + 1
    if offset > size_sub bytes_read 1 then meta_offsets
    else scan_meta_offsets input_buffer bytes_read fuel offset meta_offsets

structure walk_state where
  outputs : List (List Nat)
  num_repeats : Nat
  last_offset : Nat
deriving DecidableEq, Repr

/-- The part of the walking loop of `decode_clz_data` that handles the pair at
`next_offset` and sets `last_offset`. -/
def walk_pair (input_buffer : Buf) (w : walk_state) (next_offset : Nat) : Option walk_state :=
  let pat := rd_range input_buffer next_offset 2
  let byte1 := pat.getD 0 0
  let byte2 := pat.getD 1 0
  if (byte1 &&& c_nibble_one) = c_nibble_one then
    some { w with num_repeats := marker_num_repeats byte1 byte2, last_offset := next_offset }
  else
    (expand_meta_pattern input_buffer expand_meta_fuel pat).map fun pat =>
      { outputs := (List.replicate (w.num_repeats + 1) pat).flatten :: w.outputs
        num_repeats := 0
        last_offset := next_offset }

/-- The walking loop of `decode_clz_data` over the marker offsets that are still to be
visited, from the last one down; `next_offset` is the offset being visited. -/
def walk_meta (input_buffer : Buf) : List Nat → Nat → walk_state → Option walk_state
  | [], next_offset, w => walk_pair input_buffer w next_offset
  | o :: below, next_offset, w =>
    match walk_pair input_buffer w next_offset with
    | none => none
    | some w =>
      let w :=
        if o < size_sub w.last_offset 2 then
          { w with outputs :=
              rd_range input_buffer (o + 2) (size_sub (size_sub w.last_offset o) 2) :: w.outputs }
        else w
      walk_meta input_buffer below o w

structure decode_state where
  outputs : List (List Nat)
  meta_offsets : List Nat
  os : List Nat
deriving DecidableEq, Repr

/-- The body of the block loop of `decode_clz_data` after `expand_input` has returned
`bytes_read > 0`.  Neither `outputs` nor `meta_offsets` is cleared between blocks. -/
def decode_block (input_buffer : Buf) (bytes_read : Nat) (d : decode_state) : Option decode_state :=
  if bytes_read ≤ c_min_pat_length then
    some { d with os := d.os ++ rd_range input_buffer 0 bytes_read }
  else
    let meta_offsets := scan_meta_offsets input_buffer bytes_read bytes_read 0 d.meta_offsets
    match meta_offsets.reverse with
    | [] => some { d with meta_offsets := meta_offsets, os := d.os ++ rd_range input_buffer 0 bytes_read }
    | next_offset :: below =>
      let outputs :=
        if next_offset < size_sub bytes_read 2 then
          d.outputs ++ [rd_range input_buffer (next_offset + 2)
            (size_sub (size_sub bytes_read next_offset) 2)]
        else d.outputs
      match walk_meta input_buffer below next_offset ⟨outputs, 0, bytes_read⟩ with
      | none => none
      | some w =>
        let os := if w.last_offset ≠ 0 then d.os ++ rd_range input_buffer 0 w.last_offset else d.os
        some { outputs := w.outputs, meta_offsets := meta_offsets, os := os ++ w.outputs.flatten }

/-- The block loop of `decode_clz_data`.  Every block with `bytes_read > 0` takes at
least one byte from the stream, so the fuel `is.length + 1` of `decode_clz_data` is
never used up. -/
def decode_loop : Nat → List Nat → decode_state → Option decode_state
  | 0, _, _ => none
  | fuel + 1, is, d =>
    let r := expand_input is c_max_encoded_chunk_size
    let bytes_read := r.2.1
    if bytes_read = 0 then some d
    else
      match decode_block r.1 bytes_read d with
      | none => none
      | some d =>
        if bytes_read < c_max_encoded_chunk_size then some d
        else decode_loop fuel r.2.2 d

/-- Model of `decode_clz_data( is, os )`: the bytes written to `os`, or `none` when the
recursion of `expand_meta_pattern` does not return. -/
def decode_clz_data (is : List Nat) : Option (List Nat) :=
  (decode_loop (is.length + 1) is ⟨[], [], []⟩).map (fun d => d.os)

/-- A block of 4095 literals, the length at which the encoder flushes a block. -/
def full_literal_block : Buf := List.replicate 4091 0x41 ++ [0x01, 0x02, 0x03, 0x04]

/-- A state at the end of a round of the main loop in which the output block holds
4095 literals. -/
def flush_state : encode_state :=
  block_state [] false 3 4095 abc_buffer full_literal_block (0, 0) 0 0

/-- The block of `flush_state` as the combining leaves it. -/
def flush_combined : combine_state := ⟨meta_pattern_info.empty, full_literal_block, 4095, 0⟩

/-- The check of the last block of the pair-repeat chain at the decremented repeat
counter `k`: the repeat bytes are `0xf0 | (k >> 8)` and `k & 0xff`, and `shrink_output`
leaves the block as it is. -/
def chain_block_ok (k : Nat) : Bool :=
  decide (repeat_byte1 k = 0xf0 ||| (k >>> 8) ∧ repeat_byte2 k = k &&& 0xff
    ∧ shrink_output [0x41, 0x42, 0x43, 0x80, 0x00, repeat_byte1 k, repeat_byte2 k] 7
      = ([0x41, 0x42, 0x43, 0x80, 0x00, repeat_byte1 k, repeat_byte2 k], 7))

/-- The check of the specials scenario at the second byte `q` of the pair: the pair is
the only special, and the marker byte written for it is `0x00`. -/
def specials_ok (q : Nat) : Bool :=
  decide (select_specials
        (count_pairs [0x80, q, 0x41, 0x80, q, 0x42, 0x80, q, 0x43, 0x80, q, 0x44, 0x80, q]
          14 14 0 []) = [(0x80, q)]
    ∧ shrink_block
        [0x80, q, 0x41, 0x80, q, 0x42, 0x80, q, 0x43, 0x80, q, 0x44, 0x80, q]
      = [0x00, 0x41, 0x00, 0x42, 0x00, 0x43, 0x00, 0x44, 0x00, 0x80, q])

/-- The specials and the state after the extra specials at the end of `shrink_output`,
before the tables are appended (the values of `specials` and of `extra_specials`,
`repeated_specials_used`, `shrunken` and `num` at that point). -/
def shrink_tables (p_buffer : Buf) (length : Nat) : List byte_pair × extra_state :=
  let pairs := count_pairs p_buffer length length 0 []
  let specials := select_specials pairs
  let special_nums := number_specials specials
  let available_specials := c_max_specials - special_nums.length
  let s0 : shrink_state :=
    { i := 0, num := 0, repeats := 0, steps_ascending := true, stepping_amount := 0
      stepping_nibbles := 0, last_special_pos := 0, last_ch := c_special_maxval
      shrunken := [], repeated_special_counts := [], repeated_special_offsets := [] }
  let s := shrink_loop p_buffer length special_nums available_specials length s0
  let s :=
    if s.repeats ≠ 0 then
      { s with shrunken := wr s.shrunken s.num (to_byte (c_nibble_one + s.repeats - 1))
               num := s.num + 1 }
    else s
  (specials, shrink_extras specials.length available_specials s)

/-- What the loop over `repeated_special_offsets` keeps true: the extra specials are
distinct members of `repeated_specials`, they are the keys of `repeated_specials_used`,
and every number stored there is below `num_specials` plus their count. -/
def extras_ok (num_specials : Nat) (repeated_specials : List byte_pair) (e : extra_state) : Prop :=
  e.extra_specials.Nodup
    ∧ (∀ p ∈ e.extra_specials, p ∈ repeated_specials)
    ∧ (∀ p, map_count e.repeated_specials_used p = true ↔ p ∈ e.extra_specials)
    ∧ (∀ x ∈ e.repeated_specials_used, x.2 < num_specials + e.extra_specials.length)

/-- The entry of a map under a key (`std::map::find`), `none` when the key is missing. -/
def map_find {K V : Type} [DecidableEq K] (m : List (K × V)) (k : K) : Option V :=
  (m.find? (fun e => decide (e.1 = k))).map Prod.snd

/-- The pair that `add_pattern` stores for a pattern bound at `offset`. -/
def pattern_pair (offset : Nat) : meta_pair :=
  (to_byte (0x90 ||| ((offset &&& 0x0f00) >>> 8)), to_byte (offset &&& 0x00ff))

/-- The two maps of a dictionary agree: every binding `offset -> pattern` has the pattern
entry `pattern -> pattern_pair offset`, every pattern entry belongs to a binding, and no
pattern is bound at two offsets. -/
structure synchronized (m : meta_pattern_info) : Prop where
  pattern_of_offset : ∀ o p, map_find m.offsets o = some p →
    map_find m.patterns p = some (pattern_pair o)
  offset_of_pattern : ∀ p v, map_find m.patterns p = some v → ∃ o, map_find m.offsets o = some p
  one_offset : ∀ o o' p, map_find m.offsets o = some p → map_find m.offsets o' = some p → o = o'

/-- A call of one of the three mutators of `meta_pattern_info`. -/
inductive dict_call where
  | add_pattern (pat : meta_pattern) (offset : Nat)
  | remove_at_offset (offset : Nat)
  | remove_offsets_from (start : Nat)
deriving DecidableEq, Repr

/-- The dictionary after one call.  The result is `none` for an `add_pattern` whose
pattern or offset is bound already, and for a `remove_offsets_from` that does not
return. -/
def dict_step (m : meta_pattern_info) : dict_call → Option meta_pattern_info
  | dict_call.add_pattern pat offset =>
    if m.has_pattern pat = false ∧ m.has_offset offset = false then
      some (m.add_pattern pat offset)
    else none
  | dict_call.remove_at_offset offset => some (m.remove_at_offset offset)
  | dict_call.remove_offsets_from start => m.remove_offsets_from start

/-- The dictionary after a sequence of calls. -/
def dict_run : meta_pattern_info → List dict_call → Option meta_pattern_info
  | m, [] => some m
  | m, c :: cs =>
    match dict_step m c with
    | none => none
    | some m => dict_run m cs

/-- Six calls on the empty dictionary. -/
def sample_calls : List dict_call :=
  [dict_call.add_pattern ⟨0x80, 0, 0x80, 3⟩ 3, dict_call.add_pattern ⟨0x80, 3, 0x90, 3⟩ 7,
   dict_call.remove_at_offset 3, dict_call.add_pattern ⟨0x90, 7, 0xf0, 0⟩ 9,
   dict_call.add_pattern ⟨0x80, 0, 0x80, 3⟩ 11, dict_call.remove_offsets_from 10]

/-- The dictionary that `sample_calls` leaves. -/
def sample_dict : meta_pattern_info :=
  ⟨[(7, ⟨0x80, 3, 0x90, 3⟩), (9, ⟨0x90, 7, 0xf0, 0⟩)],
    [(⟨0x80, 3, 0x90, 3⟩, (0x90, 7)), (⟨0x90, 7, 0xf0, 0⟩, (0x90, 9))]⟩

/-- The dictionary whose offsets 1 and 5 are bound to the same pattern, as two calls of
`add_pattern` leave it. -/
def twice_bound : meta_pattern_info :=
  (meta_pattern_info.empty.add_pattern ⟨0x80, 0, 0x80, 3⟩ 1).add_pattern ⟨0x80, 0, 0x80, 3⟩ 5

/-- A combine state on the eight literals `01 02 03 04 41 42 41 42` with an empty
dictionary. -/
def abab_state : combine_state :=
  ⟨meta_pattern_info.empty, [1, 2, 3, 4, 0x41, 0x42, 0x41, 0x42], 8, 0⟩

/-- A combine state whose last six bytes are a pair, the repeat marker `F0 FF` and the
pair again. -/
def carry_state : combine_state :=
  ⟨meta_pattern_info.empty, [1, 2, 3, 4, 0x80, 0x00, 0xf0, 0xff, 0x80, 0x00], 10, 0⟩

/-- A combine state whose last six bytes are three times the pair `80 00`, with the
pattern `80 00 80 00` bound at offset 4 by `add_pattern`. -/
def window_state : combine_state :=
  ⟨meta_pattern_info.empty.add_pattern ⟨0x80, 0x00, 0x80, 0x00⟩ 4,
    [1, 2, 3, 4, 0x80, 0x00, 0x80, 0x00, 0x80, 0x00], 10, 0⟩

/-- A combine state at `offset = 8` whose bytes 2..5 are the pair `41 42` and the repeat
marker `F0 00`, followed by another pair, with the pattern `41 42 F0 00` bound at
offset 0. -/
def endless_state : combine_state :=
  ⟨meta_pattern_info.empty.add_pattern ⟨0x41, 0x42, 0xf0, 0x00⟩ 0,
    [0x41, 0x42, 0x41, 0x42, 0xf0, 0x00, 0x43, 0x44], 8, 0⟩

/-- The buffer `41 42 43 / 80 00 / F0 01 / 80 00 / 80 00`: three literals, a
back-ref to them, a repeat marker and two further back-refs to the literals. -/
def meta_buffer : Buf := [0x41, 0x42, 0x43, 0x80, 0x00, 0xf0, 0x01, 0x80, 0x00, 0x80, 0x00]

/-- Model of `check_meta_patterns( meta_patterns, p_buffer, offset )`: the dictionary
after the call (the `operator [ ]` of the pattern map adds a missing pattern with the
pair `(0, 0)`) and whether no line "found invalid meta pattern" is printed. -/
def check_meta_patterns (meta_patterns : meta_pattern_info) (p_buffer : Buf) (offset : Nat) :
    meta_pattern_info × Bool :=
  (List.range offset).foldl
    (fun st i =>
      if st.1.has_offset i then
        let pat := map_get st.1.offsets i ⟨0, 0, 0, 0⟩
        let r := st.1.index_pattern pat
        let offset := ((r.2.1 &&& c_nibble_two) <<< 8) + r.2.2
        let invalid : Bool := decide (pat.byte1 ≠ rd p_buffer offset
          ∨ pat.byte2 ≠ rd p_buffer (offset + 1)
          ∨ pat.byte3 ≠ rd p_buffer (offset + 2) ∨ pat.byte4 ≠ rd p_buffer (offset + 3))
        (r.1, st.2 && !invalid)
      else st)
    (meta_patterns, true)

/-- The fields of an encoder state that the dictionary discipline is about:
`output_offset`, the bindings, the four buffer bytes at `offset`, the first two bytes of
the input buffer, and the verdict of `check_meta_patterns` up to `output_offset`. -/
def discipline_view (offset : Nat) (s : encode_state) :
    Nat × List (Nat × meta_pattern) × List Nat × List Nat × Bool :=
  (s.output_offset, s.meta_patterns.offsets, rd_range s.output_buffer offset 4,
    rd_range s.input_buffer 0 2,
    (check_meta_patterns s.meta_patterns s.output_buffer s.output_offset).2)

/-- The input `def jkl jkl def bcy jkl def x bcy jkl def x ix` (ASCII). -/
def stale_input : List Nat :=
  [0x64, 0x65, 0x66, 0x6a, 0x6b, 0x6c, 0x6a, 0x6b, 0x6c, 0x64, 0x65, 0x66, 0x62, 0x63, 0x79,
   0x6a, 0x6b, 0x6c, 0x64, 0x65, 0x66, 0x78, 0x62, 0x63, 0x79, 0x6a, 0x6b, 0x6c, 0x64, 0x65,
   0x66, 0x78, 0x69, 0x78]

/-- The shrink pass on the blocks of 3 to 8 copies of the byte `b`: each becomes `b`
followed by one repeat byte. -/
def literal_run_ok (b : Nat) : Bool :=
  (List.range 6).all fun k =>
    decide (shrink_block (List.replicate (k + 3) b) = [b, 0xf0 ||| (k + 1)]
      ∧ (shrink_output (List.replicate (k + 3) b) (k + 3)).2 = 2)

/-- A buffer in which each of the two markers refers to an offset below its position:
`80 00` at 3 refers to the literals at 0, and `90 03` at 5 refers to the four bytes at 3,
which end with the marker `90 03` itself. -/
def loop_buffer : Buf := [0x41, 0x42, 0x43, 0x80, 0x00, 0x90, 0x03]

/-- A buffer of three literals and three markers, each marker referring to bytes that
end before it: `80 00` at 3 and at 5, and `90 03` at 7. -/
def nested_buffer : Buf := [0x41, 0x42, 0x43, 0x80, 0x00, 0x80, 0x00, 0x90, 0x03]

/-- The state of `expand_input` after the one byte `41`. -/
def after_literal_state : expand_state :=
  { length := 1, num_specials := 0, last_ch := 0x41, had_marker := false
    process_steps := false, back_refs := [], specials := [], p_buffer := [0x41] }

/-- The block of `k` copies of `01 23 45 67`. -/
def unit_block (k : Nat) : List Nat := (List.replicate k [0x01, 0x23, 0x45, 0x67]).flatten

/-- The scratch array `shrunken` after `k` units `01 23 45 67`: every unit has become
`01 23 F9 00 45 67`. -/
def header_block (k : Nat) : List Nat :=
  (List.replicate k [0x01, 0x23, 0xf9, 0x00, 0x45, 0x67]).flatten

/-- The state of the main loop of `shrink_output` in front of the unit `j` of a block of
units `01 23 45 67`: four block bytes and six scratch bytes per unit so far, nothing
pending. -/
structure scratch_inv (s : shrink_state) (j : Nat) : Prop where
  at_i : s.i = 4 * j
  at_num : s.num = 6 * j
  no_repeats : s.repeats = 0
  no_steps : s.stepping_amount = 0
  last_differs : s.last_ch ≠ 0x01
  no_counts : s.repeated_special_counts = []
  scratch : s.shrunken = header_block j

/-! ## Facts about the marker bytes -/

/-- The two masks of the marker bytes on every 12 bit offset. -/
theorem offset_masks_table :
    ((List.range 4096).all fun x =>
      decide ((x &&& 0x0f00) >>> 8 = x / 256 ∧ x &&& 0x00ff = x % 256)) = true := by
  decide!

theorem offset_masks (x : Nat) (hx : x < 4096) :
    (x &&& 0x0f00) >>> 8 = x / 256 ∧ x &&& 0x00ff = x % 256 := by
  have h := offset_masks_table
  rw [List.all_eq_true] at h
  exact of_decide_eq_true (h x (List.mem_range.mpr hx))

/-- The marker bytes for each value of the high offset nibble and of the length. -/
theorem back_ref_byte1_table :
    ((List.range 16).all fun h => (List.range 7).all fun k =>
      decide (to_byte (to_byte (c_high_bit_value ||| h) ||| (k <<< 4)) = 0x80 + 16 * k + h
        ∧ ((0x80 + 16 * k + h) &&& c_nibble_one) ≠ c_nibble_one
        ∧ ((0x80 + 16 * k + h) &&& c_nibble_two) <<< 8 = 256 * h
        ∧ ((0x80 + 16 * k + h) &&& 0x70) >>> 4 = k)) = true := by
  decide!

theorem back_ref_byte1_spec (offset length : Nat) (ho : offset ≤ 4095) (hl : 3 ≤ length)
    (hu : length ≤ 9) :
    back_ref_byte1 offset length = 0x80 + 16 * (length - 3) + offset / 256
      ∧ (back_ref_byte1 offset length &&& c_nibble_one) ≠ c_nibble_one
      ∧ (back_ref_byte1 offset length &&& c_nibble_two) <<< 8 = 256 * (offset / 256)
      ∧ (back_ref_byte1 offset length &&& 0x70) >>> 4 = length - 3 := by
  have h := back_ref_byte1_table
  rw [List.all_eq_true] at h
  have h1 := h (offset / 256) (List.mem_range.mpr (by omega))
  rw [List.all_eq_true] at h1
  have h2 := of_decide_eq_true (h1 (length - 3) (List.mem_range.mpr (by omega)))
  have e : back_ref_byte1 offset length = 0x80 + 16 * (length - 3) + offset / 256 := by
    unfold back_ref_byte1
    rw [(offset_masks offset (by omega)).1]
    exact h2.1
  rw [e]
  exact ⟨rfl, h2.2⟩

/-- C9: for every offset in 0..4095 and length in 3..9 the marker bytes the encoder
builds have a first byte in 0x80..0xEF whose high nibble is not 0xF, and the formulas of
the decoder read the same offset and length back from them. -/
theorem C9_back_ref_marker_round_trip (offset length : Nat) (ho : offset ≤ 4095)
    (hl : 3 ≤ length) (hu : length ≤ 9) :
    0x80 ≤ back_ref_byte1 offset length ∧ back_ref_byte1 offset length ≤ 0xef
      ∧ (back_ref_byte1 offset length &&& c_nibble_one) ≠ c_nibble_one
      ∧ marker_pat_offset (back_ref_byte1 offset length) (back_ref_byte2 offset) = offset
      ∧ marker_pat_length (back_ref_byte1 offset length) = length := by
  obtain ⟨e, h1, h2, h3⟩ := back_ref_byte1_spec offset length ho hl hu
  refine ⟨by omega, by omega, h1, ?_, ?_⟩
  · unfold marker_pat_offset back_ref_byte2 to_byte
    rw [h2, (offset_masks offset (by omega)).2]
    omega
  · unfold marker_pat_length c_min_pat_length
    rw [h3]
    omega

/-- C9 at offset 0x123 and length 5: the marker is `0xA1, 0x23`. -/
theorem C9_witness :
    (0x123 ≤ 4095 ∧ 3 ≤ 5 ∧ 5 ≤ 9) ∧ back_ref_byte1 0x123 5 = 0xa1 ∧ back_ref_byte2 0x123 = 0x23
      ∧ (0x80 ≤ back_ref_byte1 0x123 5 ∧ back_ref_byte1 0x123 5 ≤ 0xef
        ∧ (back_ref_byte1 0x123 5 &&& c_nibble_one) ≠ c_nibble_one
        ∧ marker_pat_offset (back_ref_byte1 0x123 5) (back_ref_byte2 0x123) = 0x123
        ∧ marker_pat_length (back_ref_byte1 0x123 5) = 5) :=
  ⟨by decide, by decide, by decide,
    C9_back_ref_marker_round_trip 0x123 5 (by decide) (by decide) (by decide)⟩

/-! ## The pending pair-repeat counter -/

/-- The repeat bytes for every decremented counter value `0..2047`. -/
theorem repeat_marker_table :
    ((List.range 2048).all fun n =>
      decide (0xf0 ≤ repeat_byte1 n ∧ repeat_byte1 n ≤ 0xf7
        ∧ marker_num_repeats (repeat_byte1 n) (repeat_byte2 n) = n + 1)) = true := by
  decide!

theorem size_sub_one (r : Nat) (h1 : 1 ≤ r) (h2 : r ≤ 2048) : size_sub r 1 = r - 1 := by
  unfold size_sub
  omega

theorem encode_read_last_pair_repeats (s : encode_state) :
    (encode_read s).last_pair_repeats = s.last_pair_repeats := by
  unfold encode_read
  split <;> rfl

theorem encode_refill_last_pair_repeats (fuel : Nat) (s : encode_state) :
    (encode_refill fuel s).last_pair_repeats = s.last_pair_repeats := by
  induction fuel generalizing s with
  | zero => rfl
  | succ n ih =>
    unfold encode_refill
    dsimp only
    split_ifs <;>
      first
        | rfl
        | exact encode_read_last_pair_repeats s
        | (rw [ih]; exact encode_read_last_pair_repeats s)

theorem emit_literals_last_pair_repeats (s : encode_state) (guard : Bool)
    (pattern_bytes count : Nat) :
    (emit_literals s guard pattern_bytes count).last_pair_repeats = s.last_pair_repeats := by
  unfold emit_literals
  dsimp only
  split_ifs <;> rfl

theorem encode_short_last_pair_repeats (s t : encode_state) (b : Bool)
    (h : encode_short s = some (t, b)) : t.last_pair_repeats = 0 := by
  unfold encode_short at h
  simp only [Option.map_eq_some'] at h
  obtain ⟨u, -, hu⟩ := h
  split_ifs at hu <;>
    (rw [← (Prod.mk.inj hu).1]; simp only [emit_literals_last_pair_repeats])

theorem encode_consume_last_pair_repeats (s : encode_state) (length : Nat) :
    (encode_consume s length).last_pair_repeats = s.last_pair_repeats := rfl

theorem encode_no_match_last_pair_repeats (s t : encode_state) (length : Nat)
    (h : encode_no_match s length = some t) : t.last_pair_repeats ≤ s.last_pair_repeats := by
  unfold encode_no_match at h
  dsimp only at h
  split at h
  · exact absurd h (by simp)
  · rename_i u hu
    simp only [Option.map_eq_some'] at h
    obtain ⟨c, -, hc⟩ := h
    have e : t.last_pair_repeats = u.last_pair_repeats := by
      rw [← hc]
      dsimp only
      rw [encode_consume_last_pair_repeats, emit_literals_last_pair_repeats]
    rw [e]
    split_ifs at hu
    · rw [← Option.some.inj hu]
    · simp only [Option.map_eq_some'] at hu
      obtain ⟨v, -, hv⟩ := hu
      rw [← hv]
      exact Nat.zero_le _
    · simp only [Option.map_some', Option.some.injEq] at hu
      rw [← hu]
      exact Nat.zero_le _

theorem encode_chain_last_pair_repeats (s t : encode_state) (length byte1 byte2 : Nat)
    (h : encode_chain s length byte1 byte2 = some t) :
    t.last_pair_repeats ≤ s.last_pair_repeats := by
  unfold encode_chain at h
  simp only [Option.map_eq_some'] at h
  obtain ⟨r, -, hr⟩ := h
  rw [← hr]
  split_ifs
  all_goals first
    | exact Nat.zero_le _
    | exact Nat.le_refl _

theorem encode_back_ref_last_pair_repeats (s t : encode_state) (length byte1 byte2 : Nat)
    (same : Bool) (h : encode_back_ref s length byte1 byte2 same = some t) :
    t.last_pair_repeats ≤ s.last_pair_repeats + (if same then 1 else 0) := by
  unfold encode_back_ref at h
  by_cases h1 : same = false ∧ s.output_offset ≥ c_max_offset - 1
  · rw [if_pos h1] at h
    rw [← Option.some.inj h]
    exact Nat.le_add_right _ _
  · rw [if_neg h1] at h
    cases same
    · simp only [Bool.false_eq_true, if_false, Nat.add_zero] at h ⊢
      by_cases h2 : s.last_pair_repeats = 0
      · rw [if_pos h2] at h
        exact encode_chain_last_pair_repeats _ _ _ _ _ h
      · rw [if_neg h2] at h
        rw [← Option.some.inj h]
        exact Nat.le_refl _
    · simp only [if_true] at h ⊢
      rw [if_neg (Nat.succ_ne_zero _)] at h
      rw [← Option.some.inj h]
      exact Nat.le_refl _

theorem encode_match_last_pair_repeats (s t : encode_state) (length offset : Nat)
    (hs : s.last_pair_repeats ≤ c_max_repeats) (h : encode_match s length offset = some t) :
    t.last_pair_repeats ≤ c_max_repeats := by
  unfold encode_match at h
  dsimp only at h
  split_ifs at h with hc
  · split at h
    · exact absurd h (by simp)
    · have := encode_back_ref_last_pair_repeats _ _ _ _ _ _ h
      simp only [Bool.false_eq_true, if_false, Nat.add_zero, Nat.le_zero] at this
      rw [this]
      exact Nat.zero_le _
  · have := encode_back_ref_last_pair_repeats _ _ _ _ _ _ h
    split_ifs at this with hsame
    · by_cases h0 : s.last_pair_repeats = 0
      · rw [h0] at this
        unfold c_max_repeats
        omega
      · have : s.last_pair_repeats < c_max_repeats := by
          by_contra hge
          exact hc ⟨h0, Or.inr (Nat.le_of_not_lt hge)⟩
        omega
    · omega

theorem encode_flush_last_pair_repeats (s t : encode_state) (h : encode_flush s = some t) :
    t.last_pair_repeats ≤ s.last_pair_repeats := by
  unfold encode_flush at h
  simp only [Option.map_eq_some'] at h
  obtain ⟨u, hu, hut⟩ := h
  have e : u.last_pair_repeats = s.last_pair_repeats := by
    split_ifs at hu
    · simp only [Option.map_eq_some'] at hu
      obtain ⟨c, -, hc⟩ := hu
      rw [← hc]
    · rw [← Option.some.inj hu]
  rw [← e, ← hut]
  split_ifs
  · exact Nat.zero_le _
  · exact Nat.le_refl _

theorem encode_search_last_pair_repeats (s t : encode_state)
    (hs : s.last_pair_repeats ≤ c_max_repeats) (h : encode_search s = some t) :
    t.last_pair_repeats ≤ c_max_repeats := by
  unfold encode_search at h
  dsimp only at h
  split at h
  · exact absurd h (by simp)
  · rename_i u hu
    refine Nat.le_trans (encode_flush_last_pair_repeats _ _ h) ?_
    split_ifs at hu
    · exact Nat.le_trans (encode_no_match_last_pair_repeats _ _ _ hu) hs
    · exact encode_match_last_pair_repeats _ _ _ _ hs hu

/-- One round of the main loop keeps the pending repeat counter within `c_max_repeats`. -/
theorem encode_round_last_pair_repeats (s t : encode_state) (b : Bool)
    (hs : s.last_pair_repeats ≤ c_max_repeats) (h : encode_round s = some (t, b)) :
    t.last_pair_repeats ≤ c_max_repeats := by
  unfold encode_round at h
  dsimp only at h
  have hr := encode_refill_last_pair_repeats (c_max_pat_length + 2) s
  split_ifs at h
  · rw [← (Prod.mk.inj (Option.some.inj h)).1, hr]
    exact hs
  · split at h
    · exact absurd h (by simp)
    · rename_i u hu
      rw [← (Prod.mk.inj (Option.some.inj h)).1, encode_short_last_pair_repeats _ _ _ hu]
      exact Nat.zero_le _
    · rename_i u hu
      simp only [Option.map_eq_some'] at h
      obtain ⟨w, hw, hwt⟩ := h
      rw [← (Prod.mk.inj hwt).1]
      refine encode_search_last_pair_repeats _ _ ?_ hw
      rw [encode_short_last_pair_repeats _ _ _ hu]
      exact Nat.zero_le _
  · simp only [Option.map_eq_some'] at h
    obtain ⟨w, hw, hwt⟩ := h
    rw [← (Prod.mk.inj hwt).1]
    refine encode_search_last_pair_repeats _ _ ?_ hw
    rw [hr]
    exact hs

theorem encode_rounds_last_pair_repeats (n : Nat) (s t : encode_state)
    (hs : s.last_pair_repeats ≤ c_max_repeats) (h : encode_rounds n s = some t) :
    t.last_pair_repeats ≤ c_max_repeats := by
  induction n generalizing s with
  | zero =>
    rw [← Option.some.inj h]
    exact hs
  | succ n ih =>
    unfold encode_rounds at h
    split at h
    · exact absurd h (by simp)
    · rename_i u hu
      rw [← Option.some.inj h]
      exact encode_round_last_pair_repeats _ _ _ hs hu
    · rename_i u hu
      exact ih u (encode_round_last_pair_repeats _ _ _ hs hu) h

/-- C10: for every repeat count `r` in 1..2048 the repeat bytes the encoder builds from
the decremented counter have a first byte in 0xF0..0xF7 and the decoder reads `r` back
from them; and after any number of rounds of the main loop, on any input, the pending
repeat counter of the encoder is at most 2048. -/
theorem C10_repeat_count_round_trip :
    (∀ r : Nat, 1 ≤ r → r ≤ 2048 →
        0xf0 ≤ repeat_byte1 (size_sub r 1) ∧ repeat_byte1 (size_sub r 1) ≤ 0xf7
          ∧ marker_num_repeats (repeat_byte1 (size_sub r 1)) (repeat_byte2 (size_sub r 1)) = r)
      ∧ ∀ (is : List Nat) (n : Nat) (s : encode_state),
          encode_rounds n (encode_init is) = some s → s.last_pair_repeats ≤ 2048 := by
  constructor
  · intro r h1 h2
    have h := repeat_marker_table
    rw [List.all_eq_true] at h
    have h3 := of_decide_eq_true (h (r - 1) (List.mem_range.mpr (by omega)))
    rw [size_sub_one r h1 h2]
    have e : r - 1 + 1 = r := by omega
    rw [e] at h3
    exact h3
  · intro is n s h
    exact encode_rounds_last_pair_repeats n (encode_init is) s (Nat.zero_le _) h

/-- C10 at the repeat count 98 of the pair-repeat scenario (bytes `0xF0, 0x61`), and at
the state of the encoder four rounds into the input `ABC` repeated five times, where
two repeats of the back-ref are pending. -/
theorem C10_witness :
    (1 ≤ 98 ∧ 98 ≤ 2048) ∧ repeat_byte1 (size_sub 98 1) = 0xf0 ∧ repeat_byte2 (size_sub 98 1) = 0x61
      ∧ marker_num_repeats 0xf0 0x61 = 98
      ∧ (0xf0 ≤ repeat_byte1 (size_sub 98 1) ∧ repeat_byte1 (size_sub 98 1) ≤ 0xf7
          ∧ marker_num_repeats (repeat_byte1 (size_sub 98 1)) (repeat_byte2 (size_sub 98 1)) = 98)
      ∧ (encode_rounds 4 (encode_init (List.replicate 5 [0x41, 0x42, 0x43]).flatten)).map
          (fun s => s.last_pair_repeats) = some 2
      ∧ ∀ s : encode_state,
          encode_rounds 4 (encode_init (List.replicate 5 [0x41, 0x42, 0x43]).flatten) = some s →
            s.last_pair_repeats ≤ 2048 :=
  ⟨by decide, by decide!, by decide!, by decide!,
    C10_repeat_count_round_trip.1 98 (by decide) (by decide), by decide!,
    fun s h => C10_repeat_count_round_trip.2 _ 4 s h⟩

/-! ## Scenarios evaluated on the model -/

/-- C2 (defect of the code): seven zero bytes are 7-bit data that fit in one block, and
decoding their encoding gives six zero bytes followed by `0x90`.  The back-ref search
compares the cell at `output_offset`, which holds no output yet, before it tests
`start + i >= output_offset`; the zero found there extends the match to four bytes, and
the marker written next overwrites that cell. -/
theorem C2_seven_zero_bytes_not_restored :
    (∀ b ∈ [0, 0, 0, 0, 0, 0, 0], b < 0x80)
      ∧ encode_unshrunk [0, 0, 0, 0, 0, 0, 0] = some [0x00, 0x00, 0x00, 0x90, 0x00]
      ∧ encode_clz_data [0, 0, 0, 0, 0, 0, 0] = some [0x00, 0xf1, 0x90, 0x00]
      ∧ (encode_clz_data [0, 0, 0, 0, 0, 0, 0]).bind decode_clz_data
          = some [0, 0, 0, 0, 0, 0, 0x90] := by
  decide!

/-- Two more 7-bit inputs that are not restored: a descending run of five bytes (the
shrink pass writes `45 44 F9 13`, and the expand pass stores each byte of a stepping run
one cell too far and adds the step where the run descends) and a block that ends in a
literal pair written twice after offset 7 (the combine step rewrites the second pair to
the repeat bytes `0xF0, 0x00`). -/
theorem round_trip_fails_on_descending_run_and_literal_pair :
    (encode_clz_data [0x45, 0x44, 0x43, 0x42, 0x41]).bind decode_clz_data
        = some [0x45, 0x44, 0x00, 0x45, 0x01]
      ∧ encode_unshrunk [0x42, 0x42, 0x41, 0x42, 0x42, 0x41, 0x41, 0x42, 0x41, 0x42]
        = some [0x42, 0x42, 0x41, 0x80, 0x00, 0x41, 0x42, 0xf0, 0x00]
      ∧ (encode_clz_data [0x42, 0x42, 0x41, 0x42, 0x42, 0x41, 0x41, 0x42, 0x41, 0x42]).bind
          decode_clz_data
        = some [0x42, 0x42, 0x41, 0x42, 0x42, 0x41, 0x41, 0x42, 0x42, 0x00] := by
  decide!

theorem encode_repeat_16 :
    encode_clz_data (List.replicate 16 0x41) = some [0x41, 0xf1, 0x80, 0x00, 0xf0, 0x02, 0x41] := by
  decide!

/-- C5 as stated fails: the output for sixteen bytes `0x41` is not the byte followed
only by literal-repeat markers in 0xF0..0xF7 whose counts sum to 15. -/
theorem C5_counterexample :
    ¬ ∃ markers : List Nat,
        encode_clz_data (List.replicate 16 0x41) = some (0x41 :: markers)
          ∧ (∀ m ∈ markers, 0xf0 ≤ m ∧ m ≤ 0xf7)
          ∧ (markers.map fun m => m - 0xf0 + 1).sum = 15 := by
  rintro ⟨markers, h, hall, -⟩
  rw [encode_repeat_16] at h
  have e : markers = [0xf1, 0x80, 0x00, 0xf0, 0x02, 0x41] := by
    have := Option.some.inj h
    exact (List.cons.inj this).2.symm
  subst e
  have := (hall 0x80 (by decide)).1
  omega

/-- C5, amended: for sixteen bytes `0x41` the block before the shrink pass is three
literals, the back-ref `0x80, 0x00` (offset 0, length 3) with the repeat bytes
`0xF0, 0x02` and a last literal; the shrink pass turns the three literals into `0x41`
and the literal-repeat marker `0xF1`, the output is `41 F1 80 00 F0 02 41`, and the
decoder restores the sixteen bytes from it. -/
theorem C5_simple_repeat_output :
    encode_unshrunk (List.replicate 16 0x41)
        = some [0x41, 0x41, 0x41, 0x80, 0x00, 0xf0, 0x02, 0x41]
      ∧ encode_clz_data (List.replicate 16 0x41)
        = some [0x41, 0xf1, 0x80, 0x00, 0xf0, 0x02, 0x41]
      ∧ decode_clz_data [0x41, 0xf1, 0x80, 0x00, 0xf0, 0x02, 0x41]
        = some (List.replicate 16 0x41) := by
  decide!

/-- C6 as stated fails: the output for `ABCDEABCDE` is not `A B C D E 0xA0 0x00`. -/
theorem C6_counterexample :
    encode_clz_data [0x41, 0x42, 0x43, 0x44, 0x45, 0x41, 0x42, 0x43, 0x44, 0x45]
      ≠ some [0x41, 0x42, 0x43, 0x44, 0x45, 0xa0, 0x00] := by
  decide!

/-- C6, amended: for `ABCDEABCDE` the block before the shrink pass is the five
literals followed by the back-ref marker `0xA0, 0x00` (offset 0, length 5); the shrink
pass rewrites the ascending literals as a stepping run, so the output is
`41 42 F9 13 A0 00`. -/
theorem C6_back_reference_output :
    encode_unshrunk [0x41, 0x42, 0x43, 0x44, 0x45, 0x41, 0x42, 0x43, 0x44, 0x45]
        = some [0x41, 0x42, 0x43, 0x44, 0x45, 0xa0, 0x00]
      ∧ shrink_block [0x41, 0x42, 0x43, 0x44, 0x45, 0xa0, 0x00]
        = [0x41, 0x42, 0xf9, 0x13, 0xa0, 0x00]
      ∧ encode_clz_data [0x41, 0x42, 0x43, 0x44, 0x45, 0x41, 0x42, 0x43, 0x44, 0x45]
        = some [0x41, 0x42, 0xf9, 0x13, 0xa0, 0x00] := by
  decide!

/-- The decoder on the output `41 42 F9 13 A0 00` for `ABCDEABCDE`: the stepping run
comes back as `41 42 00 43 01`, since every byte of the run is stored one cell after
the end of the data, and the back-ref copies these five bytes. -/
theorem decode_stepping_run_output :
    decode_clz_data [0x41, 0x42, 0xf9, 0x13, 0xa0, 0x00]
      = some [0x41, 0x42, 0x00, 0x43, 0x01, 0x41, 0x42, 0x00, 0x43, 0x01] := by
  decide!

/-- C7 (defect of the code): on the block `01 23 45 67 89` the one nibble case of
`found_stepping_nibbles` reports an ascending run, but the continuation of
`shrink_output` expects the byte `0x34` after `0x23`, so the count stays 0, the scratch
`01 23 F9 00 45 67 89` is longer than the block and is dropped.  The block and the
encoder output stay `01 23 45 67 89`, which decodes to `01 23 45 67 00 00 00`; the
bytes `01 23 F9 03` of the claim would decode to `01 23 00 34 11`. -/
theorem C7_stepping_nibbles_not_shrunk :
    found_stepping_nibbles [0x01, 0x23, 0x45, 0x67, 0x89] 0 5 true = (true, 1, true)
      ∧ shrink_scratch [0x01, 0x23, 0x45, 0x67, 0x89] 5
        = ([0x01, 0x23, 0xf9, 0x00, 0x45, 0x67, 0x89], 7)
      ∧ shrink_block [0x01, 0x23, 0x45, 0x67, 0x89] = [0x01, 0x23, 0x45, 0x67, 0x89]
      ∧ encode_clz_data [0x01, 0x23, 0x45, 0x67, 0x89] = some [0x01, 0x23, 0x45, 0x67, 0x89]
      ∧ decode_clz_data [0x01, 0x23, 0x45, 0x67, 0x89] = some [0x01, 0x23, 0x45, 0x67, 0, 0, 0]
      ∧ decode_clz_data [0x01, 0x23, 0xf9, 0x03] = some [0x01, 0x23, 0x00, 0x34, 0x11] := by
  decide!

/-! ## Steps of the encoder on a state given by its fields -/

theorem encode_refill_read (fuel : Nat) (s : encode_state) (ch : Nat) (rest : List Nat)
    (h1 : s.num < 9) (h2 : s.is_eof = false) (h3 : s.is = ch :: rest)
    (h4 : s.output_offset + s.num + 1 < 4092) :
    encode_refill (fuel + 1) s
      = encode_refill fuel
          { s with is := rest, input_buffer := wr s.input_buffer s.num ch, num := s.num + 1 } := by
  have e : encode_read s
      = { s with is := rest, input_buffer := wr s.input_buffer s.num ch, num := s.num + 1 } := by
    unfold encode_read
    rw [h3]
  rw [encode_refill]
  simp only [c_max_pat_length, h1, if_true, h2, Bool.false_eq_true, if_false, e, c_max_offset]
  split_ifs with h5 h6 h7
  · omega
  · rfl
  · omega
  · rfl

theorem encode_refill_end (fuel : Nat) (s : encode_state)
    (h1 : s.num < 9) (h2 : s.is_eof = false) (h3 : s.is = []) :
    encode_refill (fuel + 1) s = { s with is_eof := true } := by
  have e : encode_read s = { s with is_eof := true } := by
    unfold encode_read
    rw [h3]
  rw [encode_refill]
  simp only [c_max_pat_length, h1, if_true, h2, Bool.false_eq_true, if_false, e, c_max_offset]
  have e2 : encode_refill fuel { s with is_eof := true } = { s with is_eof := true } := by
    cases fuel with
    | zero => rfl
    | succ n =>
      rw [encode_refill]
      simp only [c_max_pat_length, h1, if_true]
  split_ifs with h5 h6 h7
  · rfl
  · exact e2
  · rfl
  · exact e2

theorem encode_refill_idle (fuel : Nat) (s : encode_state) (h : 9 ≤ s.num ∨ s.is_eof = true) :
    encode_refill fuel s = s := by
  cases fuel with
  | zero => rfl
  | succ n =>
    rw [encode_refill]
    rcases h with h | h
    · have : ¬ s.num < c_max_pat_length := by
        unfold c_max_pat_length
        omega
      simp only [if_neg this]
    · simp only [h, if_true, ite_self]

theorem emit_literals_copy (s : encode_state) (guard : Bool) (pattern_bytes count : Nat)
    (h : guard = false ∨ s.last_pattern_offset ≠ size_sub s.output_offset 2
      ∨ (rd s.input_buffer 0 &&& c_high_bit_value) = c_high_bit_value) :
    emit_literals s guard pattern_bytes count
      = { s with
          output_buffer := wr_range s.output_buffer s.output_offset (rd_range s.input_buffer 0 count)
          output_offset := s.output_offset + count } := by
  have e : (guard && decide (s.last_pattern_offset = size_sub s.output_offset 2)
      && decide ((rd s.input_buffer 0 &&& c_high_bit_value) ≠ c_high_bit_value)) = false := by
    rcases h with h | h | h
    · rw [h]
      rfl
    · simp only [h, decide_False, Bool.and_false, Bool.false_and]
    · simp only [h, ne_eq, not_true_eq_false, decide_False, Bool.and_false]
  unfold emit_literals
  simp only [e, Bool.false_eq_true, if_false]

theorem combine_small (c : combine_state) (h : c.offset ≤ 7) : perform_meta_combines c = some c := by
  unfold perform_meta_combines c_max_combines perform_combines_loop combine_meta_patterns
  have : ¬ (c.offset > c_min_pat_length + c_meta_pat_length) := by
    unfold c_min_pat_length c_meta_pat_length
    omega
  simp only [if_neg this]

theorem encode_flush_small (s : encode_state) (h : s.output_offset < 4095) :
    encode_flush s = some s := by
  have : ¬ (s.output_offset ≥ c_max_offset) := by
    unfold c_max_offset
    omega
  unfold encode_flush
  simp only [if_neg this, Option.map_some']

/-- The short branch without a pending pair repeat and without an extra pattern. -/
theorem encode_short_literals (s : encode_state) (h1 : s.last_pair_repeats = 0)
    (h2 : s.last_pattern_offset ≠ size_sub s.output_offset 2) :
    encode_short s
      = some (if s.num < 3 then
          ({ s with
              last_pair := (0, 0), last_pair_repeats := 0
              output_buffer := wr_range s.output_buffer s.output_offset
                (rd_range s.input_buffer 0 (min s.num 3))
              output_offset := s.output_offset + min s.num 3 }, true)
        else
          ({ s with
              last_pair := (0, 0), last_pair_repeats := 0
              output_buffer := wr_range s.output_buffer s.output_offset
                (rd_range s.input_buffer 0 (min s.num 3))
              output_offset := s.output_offset + min s.num 3
              input_buffer := memmove s.input_buffer 0 3 (s.num - 3)
              num := s.num - 3 }, false)) := by
  have key := emit_literals_copy { s with last_pair := (0, 0), last_pair_repeats := 0 }
    (decide (s.num < 3)) s.num (min s.num 3) (Or.inr (Or.inl h2))
  unfold encode_short
  simp only [h1, ne_eq, not_true_eq_false, if_false, Option.map_some', c_min_pat_length, key]

/-- The branch without a sufficient match, entered with literal input, without a
pending pair repeat and without an extra pattern, while the block is too short for
combining. -/
theorem encode_no_match_literals (s : encode_state) (length : Nat)
    (h0 : (rd s.input_buffer 0 &&& c_high_bit_value) = 0) (h1 : s.last_pair_repeats = 0)
    (h2 : s.last_pattern_offset ≠ size_sub s.output_offset 2)
    (h3 : s.output_offset + length ≤ 7) :
    encode_no_match s length
      = some { s with
          last_pair := (0, 0), last_pair_repeats := 0
          output_buffer := wr_range s.output_buffer s.output_offset
            (rd_range s.input_buffer 0 length)
          output_offset := s.output_offset + length
          input_buffer :=
            if s.num > length then memmove s.input_buffer 0 length (s.num - length)
            else s.input_buffer
          num := size_sub s.num length } := by
  have key := emit_literals_copy { s with last_pair := (0, 0), last_pair_repeats := 0 }
    (decide (length < c_min_pat_length)) length length (Or.inr (Or.inl h2))
  unfold encode_no_match
  simp only [h0, ne_eq, not_true_eq_false, decide_False, Bool.false_eq_true, if_false, h1,
    Option.map_some', key, encode_consume]
  rw [combine_small _ h3]
  rfl


/-- Refill at the end of the input: when the rest of the stream fits into the input
buffer, the loop stores all of it and sets the end-of-file flag. -/
theorem encode_refill_all (xs : List Nat) (fuel : Nat) (s : encode_state)
    (h1 : s.num + xs.length < 9) (h2 : s.is_eof = false) (h3 : s.is = xs)
    (h4 : s.output_offset + s.num + xs.length < 4092) (h5 : xs.length < fuel) :
    encode_refill fuel s
      = { s with is := [], is_eof := true, num := s.num + xs.length
                 input_buffer := wr_range s.input_buffer s.num xs } := by
  induction xs generalizing fuel s with
  | nil =>
    obtain ⟨n, rfl⟩ : ∃ n, fuel = n + 1 := ⟨fuel - 1, by simp only [List.length_nil] at h5; omega⟩
    rw [encode_refill_end n s (by simp only [List.length_nil] at h1; omega) h2 h3]
    simp only [h3, List.length_nil, Nat.add_zero, wr_range]
  | cons x xs ih =>
    simp only [List.length_cons] at h1 h4 h5
    obtain ⟨n, rfl⟩ : ∃ n, fuel = n + 1 := ⟨fuel - 1, by omega⟩
    rw [encode_refill_read n s x xs (by omega) h2 h3 (by omega)]
    have key := ih n
      { s with is := xs, input_buffer := wr s.input_buffer s.num x, num := s.num + 1 }
      (by show s.num + 1 + xs.length < 9; omega) h2 rfl
      (by show s.output_offset + (s.num + 1) + xs.length < 4092; omega) (by omega)
    rw [key]
    simp only [List.length_cons, wr_range]
    have : s.num + 1 + xs.length = s.num + (xs.length + 1) := by omega
    rw [this]


theorem seven_bit_table :
    ((List.range 128).all fun a =>
      decide (a &&& 0x80 = 0 ∧ a &&& 0xf0 ≠ 0xf0 ∧ a &&& 0xf8 ≠ 0xf8)) = true := by
  decide!

theorem seven_bit (a : Nat) (h : a < 128) :
    a &&& 0x80 = 0 ∧ a &&& 0xf0 ≠ 0xf0 ∧ a &&& 0xf8 ≠ 0xf8 := by
  have t := seven_bit_table
  rw [List.all_eq_true] at t
  exact of_decide_eq_true (t a (List.mem_range.mpr h))

theorem encode_refill_short (xs : List Nat) (h : xs.length ≤ 3) :
    encode_refill (c_max_pat_length + 2) (encode_init xs)
      = literal_state xs.length (wr_range (List.replicate 11 0) 0 xs) [] 0 := by
  rw [encode_refill_all xs _ (encode_init xs) (by show 0 + xs.length < 9; omega) rfl rfl
    (by show 0 + 0 + xs.length < 4092; omega) (by show xs.length < 9 + 2; omega)]
  simp only [encode_init, literal_state, Nat.zero_add, c_max_pat_length]

theorem encode_round_literal_end (num : Nat) (inp outp : List Nat) (oo : Nat) (h : num = 0) :
    encode_round (literal_state num inp outp oo) = some (literal_state num inp outp oo, true) := by
  unfold encode_round
  rw [encode_refill_idle _ _ (Or.inr rfl)]
  simp only [literal_state, h, if_true]

theorem encode_round_one (a : Nat) :
    encode_round (encode_init [a])
      = some (literal_state 1 [a, 0, 0, 0, 0, 0, 0, 0, 0, 0, 0] [a] 1, true) := by
  unfold encode_round
  rw [encode_refill_short [a] (by simp)]
  dsimp only
  rw [encode_short_literals _ rfl (by simp [literal_state, size_sub])]
  simp [literal_state, c_min_pat_length, rd_range, wr_range, rd, wr]

theorem encode_round_two (a b : Nat) :
    encode_round (encode_init [a, b])
      = some (literal_state 2 [a, b, 0, 0, 0, 0, 0, 0, 0, 0, 0] [a, b] 2, true) := by
  unfold encode_round
  rw [encode_refill_short [a, b] (by simp)]
  dsimp only
  rw [encode_short_literals _ rfl (by simp [literal_state, size_sub])]
  simp [literal_state, c_min_pat_length, rd_range, wr_range, rd, wr]

theorem find_back_ref_empty_input (s : encode_state) (h1 : s.num = 0) (h2 : 3 ≤ s.output_offset)
    (h3 : s.output_offset < 4091) : find_back_ref s = (0, 0) := by
  have e1 : size_sub s.output_offset c_min_pat_length = s.output_offset - 3 := by
    unfold size_sub c_min_pat_length
    omega
  have e2 : match_outer s.output_buffer s.input_buffer s.num s.output_offset
      (s.output_offset + 1) 0 1 0 = (0, 0) := by
    rw [match_outer, e1, if_pos (Nat.zero_le _), h1]
    simp only [match_inner, if_true]
  unfold find_back_ref
  simp only [c_max_offset]
  split_ifs <;> first | (simp_all; done) | (simp_all; omega)


theorem encode_round_three (a b c : Nat) (ha : a < 128) :
    encode_round (encode_init [a, b, c])
      = some (literal_state 0 [a, b, c, 0, 0, 0, 0, 0, 0, 0, 0] [a, b, c] 3, false) := by
  have h0 := (seven_bit a ha).1
  unfold encode_round
  rw [encode_refill_short [a, b, c] (by simp)]
  dsimp only
  rw [encode_short_literals _ rfl (by simp [literal_state, size_sub])]
  have e : (literal_state [a, b, c].length (wr_range (List.replicate 11 0) 0 [a, b, c]) [] 0)
      = literal_state 3 [a, b, c, 0, 0, 0, 0, 0, 0, 0, 0] [] 0 := by
    simp [literal_state, wr_range, wr]
  rw [e]
  have e2 : encode_search
      { literal_state 3 [a, b, c, 0, 0, 0, 0, 0, 0, 0, 0] [] 0 with
        last_pair := (0, 0), last_pair_repeats := 0
        output_buffer := wr_range [] 0 (rd_range [a, b, c, 0, 0, 0, 0, 0, 0, 0, 0] 0 (min 3 3))
        output_offset := 0 + min 3 3
        input_buffer := memmove [a, b, c, 0, 0, 0, 0, 0, 0, 0, 0] 0 3 (3 - 3)
        num := 3 - 3 }
      = some (literal_state 0 [a, b, c, 0, 0, 0, 0, 0, 0, 0, 0] [a, b, c] 3) := by
    unfold encode_search
    rw [find_back_ref_empty_input _ rfl (by simp) (by simp)]
    dsimp only
    rw [if_pos (by decide)]
    rw [encode_no_match_literals _ _ (by simpa [memmove, rd, rd_range, wr_range, c_high_bit_value] using h0) rfl
      (by simp [literal_state, size_sub]) (by simp)]
    dsimp only
    rw [encode_flush_small _ (by simp)]
    simp [literal_state, rd_range, wr_range, rd, wr, memmove, size_sub]
  simpa [literal_state, c_min_pat_length] using e2


theorem encode_last_block_literal (inp outp : List Nat) (oo : Nat) (h : oo ≤ 7) :
    encode_last_block (literal_state 0 inp outp oo) = some (outp, oo) := by
  have key := combine_small ⟨meta_pattern_info.empty, outp, oo, 0⟩ h
  unfold encode_last_block
  simp only [literal_state, ne_eq, not_true_eq_false, if_false, key, Option.map_some']
  split_ifs with h1
  · rw [h1]
  · rfl

/-! ## The shrink pass on at most three literals -/

set_option maxHeartbeats 1000000 in
theorem shrink_scratch_one (a : Nat) (ha : a < 128) : shrink_scratch [a] 1 = ([a], 1) := by
  have h1 := (seven_bit a ha).1
  have h3 : a ≠ 255 := by omega
  simp [shrink_scratch, count_pairs, select_specials, number_specials, shrink_loop, shrink_body,
    shrink_char, found_stepping_nibbles, found_stepping_bytes, shrink_extras,
    append_specials, c_max_specials, c_special_maxval, c_max_special_repeats, c_nibble_one,
    c_nibble_two, c_high_bit_value, size_sub, rd, wr, h1, h3]

set_option maxHeartbeats 1000000 in
theorem shrink_scratch_two (a b : Nat) (ha : a < 128) (hb : b < 128) :
    shrink_scratch [a, b] 2 = (if a = b then [a, 0xf0] else [a, b], 2) := by
  have h1 := (seven_bit a ha).1
  have h2 := (seven_bit b hb).1
  have h3 : a ≠ 255 := by omega
  have h4 : b ≠ 255 := by omega
  by_cases hab : a = b
  · subst hab
    simp [shrink_scratch, count_pairs, select_specials, number_specials, shrink_loop, shrink_body,
      shrink_char, found_stepping_nibbles, found_stepping_bytes, shrink_extras,
      append_specials, c_max_specials, c_special_maxval, c_max_special_repeats, c_nibble_one,
      c_nibble_two, c_high_bit_value, size_sub, rd, wr, to_byte, h1, h3]
  · have h5 : b ≠ a := fun h => hab h.symm
    simp [shrink_scratch, count_pairs, select_specials, number_specials, shrink_loop, shrink_body,
      shrink_char, found_stepping_nibbles, found_stepping_bytes, shrink_extras,
      append_specials, c_max_specials, c_special_maxval, c_max_special_repeats, c_nibble_one,
      c_nibble_two, c_high_bit_value, size_sub, rd, wr, to_byte, h1, h2, h3, h4, h5, hab]


set_option maxHeartbeats 4000000 in
theorem shrink_scratch_three (a b c : Nat) (ha : a < 128) (hb : b < 128) (hc : c < 128) :
    shrink_scratch [a, b, c] 3
      = if a = b then (if b = c then ([a, 0xf1], 2) else ([a, 0xf0, c], 3))
        else (if b = c then ([a, b, 0xf0], 3) else ([a, b, c], 3)) := by
  have h1 := (seven_bit a ha).1
  have h2 := (seven_bit b hb).1
  have h2c := (seven_bit c hc).1
  have h3 : a ≠ 255 := by omega
  have h4 : b ≠ 255 := by omega
  have h4c : c ≠ 255 := by omega
  by_cases hab : a = b
  · subst hab
    by_cases hbc : a = c
    · subst hbc
      simp [shrink_scratch, count_pairs, select_specials, number_specials, shrink_loop, shrink_body,
        shrink_char, found_stepping_nibbles, found_stepping_bytes, shrink_extras,
        append_specials, c_max_specials, c_special_maxval, c_max_special_repeats, c_nibble_one,
        c_nibble_two, c_high_bit_value, size_sub, rd, wr, to_byte, h1, h3]
    · have h5 : c ≠ a := fun h => hbc h.symm
      simp [shrink_scratch, count_pairs, select_specials, number_specials, shrink_loop, shrink_body,
        shrink_char, found_stepping_nibbles, found_stepping_bytes, shrink_extras,
        append_specials, c_max_specials, c_special_maxval, c_max_special_repeats, c_nibble_one,
        c_nibble_two, c_high_bit_value, size_sub, rd, wr, to_byte, h1, h2c, h3, h4c, h5, hbc]
  · have h5 : b ≠ a := fun h => hab h.symm
    by_cases hbc : b = c
    · subst hbc
      simp [shrink_scratch, count_pairs, select_specials, number_specials, shrink_loop, shrink_body,
        shrink_char, found_stepping_nibbles, found_stepping_bytes, shrink_extras,
        append_specials, c_max_specials, c_special_maxval, c_max_special_repeats, c_nibble_one,
        c_nibble_two, c_high_bit_value, size_sub, rd, wr, to_byte, h1, h2, h3, h4, h5, hab]
    · have h6 : c ≠ b := fun h => hbc h.symm
      simp [shrink_scratch, count_pairs, select_specials, number_specials, shrink_loop, shrink_body,
        shrink_char, found_stepping_nibbles, found_stepping_bytes, shrink_extras,
        append_specials, c_max_specials, c_special_maxval, c_max_special_repeats, c_nibble_one,
        c_nibble_two, c_high_bit_value, size_sub, rd, wr, to_byte, h1, h2, h2c, h3, h4, h4c, h5,
        h6, hab, hbc]


theorem encode_last_block_literals (num : Nat) (inp outp : List Nat) (oo : Nat) (h : oo ≤ 7) :
    encode_last_block (literal_state num inp outp oo) = some (outp, oo) := by
  have key := combine_small ⟨meta_pattern_info.empty, outp, oo, 0⟩ h
  unfold encode_last_block
  simp only [literal_state, ne_eq, not_true_eq_false, if_false, key, Option.map_some']
  split_ifs with h1
  · rw [h1]
  · rfl

theorem encode_loop_one (a : Nat) :
    encode_loop (encode_fuel [a]) (encode_init [a])
      = some (literal_state 1 [a, 0, 0, 0, 0, 0, 0, 0, 0, 0, 0] [a] 1) := by
  simp only [encode_fuel, List.length_singleton, encode_loop, encode_round_one]

theorem encode_loop_two (a b : Nat) :
    encode_loop (encode_fuel [a, b]) (encode_init [a, b])
      = some (literal_state 2 [a, b, 0, 0, 0, 0, 0, 0, 0, 0, 0] [a, b] 2) := by
  simp only [encode_fuel, List.length_cons, List.length_singleton, encode_loop,
    encode_round_two]

theorem encode_loop_three (a b c : Nat) (ha : a < 128) :
    encode_loop (encode_fuel [a, b, c]) (encode_init [a, b, c])
      = some (literal_state 0 [a, b, c, 0, 0, 0, 0, 0, 0, 0, 0] [a, b, c] 3) := by
  simp only [encode_fuel, List.length_cons, List.length_singleton, encode_loop,
    encode_round_three a b c ha, encode_round_literal_end _ _ _ _ rfl]

theorem encode_one (a : Nat) (ha : a < 128) : encode_clz_data [a] = some [a] := by
  unfold encode_clz_data
  rw [encode_loop_one]
  simp only [encode_finish, encode_last_block_literals 1 _ [a] 1 (by decide), Option.map_some']
  simp [shrink_output, shrink_scratch_one a ha, literal_state, rd_range, rd,
    c_max_encoded_chunk_size, c_max_offset, c_min_pat_length, List.range_succ]

theorem encode_two (a b : Nat) (ha : a < 128) (hb : b < 128) :
    encode_clz_data [a, b] = some [a, b] := by
  unfold encode_clz_data
  rw [encode_loop_two]
  simp only [encode_finish, encode_last_block_literals 2 _ [a, b] 2 (by decide), Option.map_some']
  simp [shrink_output, shrink_scratch_two a b ha hb, literal_state, rd_range, rd,
    c_max_encoded_chunk_size, c_max_offset, c_min_pat_length, List.range_succ]

theorem encode_three (a b c : Nat) (ha : a < 128) (hb : b < 128) (hc : c < 128) :
    encode_clz_data [a, b, c] = some (if a = b ∧ b = c then [a, 0xf1] else [a, b, c]) := by
  unfold encode_clz_data
  rw [encode_loop_three a b c ha]
  simp only [encode_finish, encode_last_block_literals 0 _ [a, b, c] 3 (by decide),
    Option.map_some']
  have e : shrink_output [a, b, c] 3
      = if a = b ∧ b = c then ([a, 0xf1, c], 2) else ([a, b, c], 3) := by
    unfold shrink_output
    rw [shrink_scratch_three a b c ha hb hc]
    by_cases h1 : a = b
    · subst h1
      by_cases h2 : a = c
      · subst h2
        simp [c_max_encoded_chunk_size, c_max_offset, c_min_pat_length, rd_range, rd,
          wr_range, wr, List.range_succ]
      · simp [h2, c_max_encoded_chunk_size, c_max_offset, c_min_pat_length, rd_range, rd,
          wr_range, wr, List.range_succ]
    · by_cases h2 : b = c
      · subst h2
        simp [h1, c_max_encoded_chunk_size, c_max_offset, c_min_pat_length, rd_range, rd,
          wr_range, wr, List.range_succ]
      · simp [h1, h2, c_max_encoded_chunk_size, c_max_offset, c_min_pat_length, rd_range, rd,
          wr_range, wr, List.range_succ]
  simp only [e, literal_state]
  by_cases h : a = b ∧ b = c <;> simp [h, rd_range, rd, List.range_succ]



/-! ## The decoder on a block of at most three literals -/

theorem expand_byte_literal (s : expand_state) (ch : Nat) (h : ch < 128)
    (h1 : s.process_steps = false) (h2 : s.had_marker = false) :
    expand_byte s ch = ({ s with last_ch := ch, p_buffer := wr s.p_buffer s.length ch }, true) := by
  obtain ⟨k1, k2, k3⟩ := seven_bit ch h
  unfold expand_byte
  simp only [h1, h2, Bool.false_eq_true, if_false, c_high_five_bits, k3, false_and, c_high_bit_value,
    k1, ne_eq, not_true_eq_false, c_nibble_one, k2]

/-- The reading loop on a literal byte, below the length limit. -/
theorem expand_read_literal (max_length : Nat) (ch : Nat) (rest : List Nat) (s : expand_state)
    (h : ch < 128) (h1 : s.process_steps = false) (h2 : s.had_marker = false)
    (h3 : s.length + 1 < max_length) :
    expand_read max_length (ch :: rest) s
      = expand_read max_length rest
          { s with last_ch := ch, p_buffer := wr s.p_buffer s.length ch, length := s.length + 1 } := by
  rw [expand_read, expand_byte_literal s ch h h1 h2]
  have : ¬ (s.length + 1 ≥ max_length) := by omega
  simp only [if_true, if_neg this]

/-- A block of at most three bytes is written out as it stands. -/
theorem decode_small_block (is : List Nat) (fuel : Nat) (buf : Buf) (n : Nat) (rest : List Nat)
    (h : expand_input is c_max_encoded_chunk_size = (buf, n, rest)) (h1 : n ≤ 3) :
    (decode_loop (fuel + 1) is ⟨[], [], []⟩).map (fun d => d.os) = some (rd_range buf 0 n) := by
  rw [decode_loop]
  simp only [h]
  by_cases h0 : n = 0
  · subst h0
    rfl
  · have h2 : n ≤ c_min_pat_length := h1
    have h3 : n < c_max_encoded_chunk_size := by
      unfold c_max_encoded_chunk_size c_max_offset c_min_pat_length
      omega
    simp only [if_neg h0, decode_block, if_pos h2, if_pos h3, Option.map_some', List.nil_append]

theorem expand_input_one (a : Nat) (ha : a < 128) :
    expand_input [a] c_max_encoded_chunk_size = ([a], 1, []) := by
  unfold expand_input
  dsimp only
  rw [expand_read_literal _ a [] _ ha rfl rfl (by decide)]
  rfl

theorem expand_input_two (a b : Nat) (ha : a < 128) (hb : b < 128) :
    expand_input [a, b] c_max_encoded_chunk_size = ([a, b], 2, []) := by
  unfold expand_input
  dsimp only
  rw [expand_read_literal _ a _ _ ha rfl rfl (by decide)]
  rw [expand_read_literal _ b _ _ hb rfl rfl (by show 0 + 1 + 1 < c_max_encoded_chunk_size; decide)]
  rfl

theorem expand_input_three (a b c : Nat) (ha : a < 128) (hb : b < 128) (hc : c < 128) :
    expand_input [a, b, c] c_max_encoded_chunk_size = ([a, b, c], 3, []) := by
  unfold expand_input
  dsimp only
  rw [expand_read_literal _ a _ _ ha rfl rfl (by decide)]
  rw [expand_read_literal _ b _ _ hb rfl rfl (by show 0 + 1 + 1 < c_max_encoded_chunk_size; decide)]
  rw [expand_read_literal _ c _ _ hc rfl rfl
    (by show 0 + 1 + 1 + 1 < c_max_encoded_chunk_size; decide)]
  rfl

/-- The body of the reading loop on the marker `0xf1`, when no back reference and no
special has been recorded: the last byte is stored two more times. -/
theorem expand_byte_repeat (s : expand_state) (h1 : s.process_steps = false)
    (h2 : s.had_marker = false) (h3 : s.back_refs = []) (h4 : s.specials = []) :
    expand_byte s 0xf1
      = ({ s with
            p_buffer := wr (wr s.p_buffer s.length s.last_ch) (s.length + 1) s.last_ch
            length := size_sub (s.length + 1 + 1) 1
            last_ch := 0xf1 }, true) := by
  have f1 : ¬ ((0xf1 &&& c_high_five_bits) = c_high_five_bits
      ∧ ¬ size_sub s.length 1 ∈ s.back_refs) := by
    have : (0xf1 &&& c_high_five_bits) ≠ c_high_five_bits := by decide
    tauto
  have f2 : ¬ ((0xf1 &&& c_high_bit_value) ≠ 0
      ∧ ¬ size_sub s.length 1 ∈ s.back_refs
      ∧ ((0xf1 &&& c_nibble_one) ≠ c_nibble_one
        ∨ size_sub s.length 2 ∈ s.back_refs
        ∨ map_count s.specials (size_sub s.length 2) = true)) := by
    have : (0xf1 &&& c_nibble_one) = c_nibble_one := by decide
    simp [h3, h4, map_count, this]
  have f3 : (0xf1 &&& c_nibble_one) = c_nibble_one
      ∧ ¬ size_sub s.length 1 ∈ s.back_refs
      ∧ ¬ size_sub s.length 2 ∈ s.back_refs
      ∧ map_count s.specials (size_sub s.length 2) = false := by
    have : (0xf1 &&& c_nibble_one) = c_nibble_one := by decide
    simp [h3, h4, map_count, this]
  have f4 : 0xf1 - c_nibble_one + 1 = 2 := by decide
  unfold expand_byte
  simp only [h1, h2, Bool.false_eq_true, if_false, if_neg f1, if_neg f2, if_pos f3, f4,
    expand_repeat]

theorem expand_input_repeat (a : Nat) (ha : a < 128) :
    expand_input [a, 0xf1] c_max_encoded_chunk_size = ([a, a, a], 3, []) := by
  unfold expand_input
  dsimp only
  rw [expand_read_literal _ a _ _ ha rfl rfl (by decide)]
  rw [expand_read, expand_byte_repeat _ rfl rfl rfl rfl]
  simp [expand_read, expand_specials, size_sub, wr, c_max_encoded_chunk_size, c_max_offset,
    c_min_pat_length]

theorem decode_one (a : Nat) (ha : a < 128) : decode_clz_data [a] = some [a] := by
  unfold decode_clz_data
  rw [decode_small_block _ _ _ _ _ (expand_input_one a ha) (by decide)]
  rfl

theorem decode_two (a b : Nat) (ha : a < 128) (hb : b < 128) :
    decode_clz_data [a, b] = some [a, b] := by
  unfold decode_clz_data
  rw [decode_small_block _ _ _ _ _ (expand_input_two a b ha hb) (by decide)]
  rfl

theorem decode_three (a b c : Nat) (ha : a < 128) (hb : b < 128) (hc : c < 128) :
    decode_clz_data [a, b, c] = some [a, b, c] := by
  unfold decode_clz_data
  rw [decode_small_block _ _ _ _ _ (expand_input_three a b c ha hb hc) (by decide)]
  rfl

theorem decode_repeat_three (a : Nat) (ha : a < 128) :
    decode_clz_data [a, 0xf1] = some [a, a, a] := by
  unfold decode_clz_data
  rw [decode_small_block _ _ _ _ _ (expand_input_repeat a ha) (by decide)]
  rfl


/-! ## Inputs of at most three 7-bit bytes -/

/-- The encoder on at most three 7-bit bytes: the input comes out as it stands, except
that three equal bytes come out as the byte and the literal-repeat marker `0xf1`. -/
theorem encode_short_input (xs : List Nat) (hl : xs.length ≤ 3) (h7 : ∀ b ∈ xs, b < 128) :
    encode_clz_data xs
      = some (match xs with
        | [a, b, c] => if a = b ∧ b = c then [a, 0xf1] else xs
        | _ => xs) := by
  match xs, hl, h7 with
  | [], _, _ =>
    show encode_clz_data [] = some []
    decide!
  | [a], _, h7 => exact encode_one a (h7 a (by simp))
  | [a, b], _, h7 => exact encode_two a b (h7 a (by simp)) (h7 b (by simp))
  | [a, b, c], _, h7 => exact encode_three a b c (h7 a (by simp)) (h7 b (by simp)) (h7 c (by simp))
  | _ :: _ :: _ :: _ :: _, hl, _ => simp at hl

/-- The decoder on at most three 7-bit bytes returns them. -/
theorem decode_short_input (xs : List Nat) (hl : xs.length ≤ 3) (h7 : ∀ b ∈ xs, b < 128) :
    decode_clz_data xs = some xs := by
  match xs, hl, h7 with
  | [], _, _ => decide!
  | [a], _, h7 => exact decode_one a (h7 a (by simp))
  | [a, b], _, h7 => exact decode_two a b (h7 a (by simp)) (h7 b (by simp))
  | [a, b, c], _, h7 => exact decode_three a b c (h7 a (by simp)) (h7 b (by simp)) (h7 c (by simp))
  | _ :: _ :: _ :: _ :: _, hl, _ => simp at hl

/-- C1 (as stated, refuted): the round trip does not hold for every byte sequence.  The
two bytes `0x41, 0xf0` are written as they stand, and the decoder reads `0xf0` as the
marker of a literal repeat, so `0x41, 0x41` comes back. -/
theorem C1_counterexample :
    encode_clz_data [0x41, 0xf0] = some [0x41, 0xf0]
      ∧ decode_clz_data [0x41, 0xf0] = some [0x41, 0x41]
      ∧ (encode_clz_data [0x41, 0xf0]).bind decode_clz_data ≠ some [0x41, 0xf0] := by
  decide!

/-- C1 (amended): round trip for every sequence of at most three 7-bit bytes (the empty
sequence, length 1 and length 2 included): `decode_clz_data` applied to the output of
`encode_clz_data` on `xs` returns exactly `xs`. -/
theorem C1_round_trip_short_seven_bit (xs : List Nat) (hl : xs.length ≤ 3)
    (h7 : ∀ b ∈ xs, b < 128) :
    (encode_clz_data xs).bind decode_clz_data = some xs := by
  rw [encode_short_input xs hl h7]
  match xs, hl, h7 with
  | [], _, _ =>
    show (some []).bind decode_clz_data = some []
    decide!
  | [a], _, h7 => exact decode_one a (h7 a (by simp))
  | [a, b], _, h7 => exact decode_two a b (h7 a (by simp)) (h7 b (by simp))
  | [a, b, c], _, h7 =>
    have ha := h7 a (by simp)
    have hb := h7 b (by simp)
    have hc := h7 c (by simp)
    by_cases h : a = b ∧ b = c
    · obtain ⟨h1, h2⟩ := h
      subst h1
      subst h2
      simpa using decode_repeat_three a ha
    · simpa [h] using decode_three a b c ha hb hc
  | _ :: _ :: _ :: _ :: _, hl, _ => simp at hl

/-- Witness of C1 (amended) at three equal bytes, the case in which the output differs
from the input. -/
theorem C1_witness :
    [0x41, 0x41, 0x41].length ≤ 3 ∧ (∀ b ∈ [0x41, 0x41, 0x41], b < 128)
      ∧ (encode_clz_data [0x41, 0x41, 0x41]).bind decode_clz_data = some [0x41, 0x41, 0x41] :=
  ⟨by decide, by decide,
    C1_round_trip_short_seven_bit [0x41, 0x41, 0x41] (by decide) (by decide)⟩

/-- C3: for every input of at most three 7-bit bytes in which no two adjacent bytes are
equal, `encode_clz_data` outputs exactly the input bytes, and `decode_clz_data` of that
output returns the same bytes. -/
theorem C3_short_literal_passthrough (xs : List Nat) (hl : xs.length ≤ 3)
    (h7 : ∀ b ∈ xs, b < 128) (hadj : xs.Chain' (fun a b => a ≠ b)) :
    encode_clz_data xs = some xs
      ∧ (encode_clz_data xs).bind decode_clz_data = some xs := by
  have e : encode_clz_data xs = some xs := by
    rw [encode_short_input xs hl h7]
    match xs, hadj with
    | [], _ => rfl
    | [_], _ => rfl
    | [_, _], _ => rfl
    | [a, b, c], hadj =>
      have hab : a ≠ b := by
        simp only [List.chain'_cons] at hadj
        exact hadj.1
      simp [hab]
    | _ :: _ :: _ :: _ :: _, _ => rfl
  refine ⟨e, ?_⟩
  rw [e]
  exact decode_short_input xs hl h7

/-- Witness of C3 at the input `0x01, 0x02, 0x03`. -/
theorem C3_witness :
    [0x01, 0x02, 0x03].length ≤ 3 ∧ (∀ b ∈ [0x01, 0x02, 0x03], b < 128)
      ∧ [0x01, 0x02, 0x03].Chain' (fun a b => a ≠ b)
      ∧ encode_clz_data [0x01, 0x02, 0x03] = some [0x01, 0x02, 0x03]
      ∧ (encode_clz_data [0x01, 0x02, 0x03]).bind decode_clz_data = some [0x01, 0x02, 0x03] :=
  ⟨by decide, by decide, by simp,
    C3_short_literal_passthrough [0x01, 0x02, 0x03] (by decide) (by decide) (by simp)⟩

/-! ## The encoder on repetitions of `ABC` -/

/-- Refill from a stream that holds more than the input buffer takes: the loop stores
bytes until the buffer holds `c_max_pat_length` of them. -/
theorem encode_refill_fill (xs rest : List Nat) (fuel : Nat) (s : encode_state)
    (h1 : s.num + xs.length = 9) (h2 : s.is_eof = false) (h3 : s.is = xs ++ rest)
    (h4 : s.output_offset + 9 < 4092) (h5 : xs.length ≤ fuel) :
    encode_refill fuel s
      = { s with is := rest, num := 9, input_buffer := wr_range s.input_buffer s.num xs } := by
  induction xs generalizing fuel s with
  | nil =>
    simp only [List.length_nil, Nat.add_zero] at h1
    rw [encode_refill_idle fuel s (Or.inl (by omega))]
    simp only [List.nil_append] at h3
    simp only [← h3, ← h1, wr_range]
  | cons x xs ih =>
    simp only [List.length_cons] at h1 h5
    obtain ⟨n, rfl⟩ : ∃ n, fuel = n + 1 := ⟨fuel - 1, by omega⟩
    rw [encode_refill_read n s x (xs ++ rest) (by omega) h2 h3 (by omega)]
    have key := ih n
      { s with is := xs ++ rest, input_buffer := wr s.input_buffer s.num x, num := s.num + 1 }
      (by show s.num + 1 + xs.length = 9; omega) h2 rfl h4 (by omega)
    rw [key]
    simp only [wr_range]

/-- The back-ref search while the output block is `ABC` and its back-ref, on an input
buffer that holds one, two or three times `ABC`. -/
theorem find_back_ref_chain (s : encode_state)
    (h1 : s.output_buffer = [0x41, 0x42, 0x43, 0x80, 0x00]) (h2 : s.output_offset = 5)
    (h3 : s.input_buffer = abc_buffer) (h4 : s.num = 9 ∨ s.num = 6 ∨ s.num = 3) :
    find_back_ref s = (3, 0) := by
  unfold find_back_ref
  rw [h1, h2, h3]
  rcases h4 with h | h | h <;> rw [h] <;> decide!

/-- The match branch on the back-ref of the last pair while fewer than `c_max_repeats`
repeats are pending: the counter goes up by one and the match is taken out of the
input buffer. -/
theorem encode_match_repeat (s : encode_state) (h : s.last_pair = (0x80, 0x00))
    (hr : s.last_pair_repeats < 2048) :
    encode_match s 3 0
      = some (encode_consume { s with last_pair_repeats := s.last_pair_repeats + 1 } 3) := by
  have b1 : back_ref_byte1 0 3 = 0x80 := by decide
  have b2 : back_ref_byte2 0 = 0x00 := by decide
  have c1 : ¬ (s.last_pair_repeats ≠ 0
      ∧ ((true : Bool) = false ∨ s.last_pair_repeats ≥ c_max_repeats)) := by
    unfold c_max_repeats
    simp only [Bool.true_eq_false, false_or, ge_iff_le, not_and, not_le]
    intro _
    exact hr
  unfold encode_match
  simp only [b1, b2, h, and_self, decide_True, if_neg c1]
  unfold encode_back_ref
  simp only [Bool.true_eq_false, false_and, if_false, if_true, Nat.add_one_ne_zero, h]

/-- Taking `ABC` out of the input buffer while the encoder counts the repeats. -/
theorem encode_consume_chain (is : List Nat) (is_eof : Bool) (num r : Nat)
    (hn : num = 9 ∨ num = 6 ∨ num = 3) :
    encode_consume (chain_state is is_eof num r) 3 = chain_state is is_eof (num - 3) r := by
  have e9 : memmove abc_buffer 0 3 (9 - 3) = abc_buffer := by decide!
  have e6 : memmove abc_buffer 0 3 (6 - 3) = abc_buffer := by decide!
  have s9 : size_sub 9 3 = 9 - 3 := by decide!
  have s6 : size_sub 6 3 = 6 - 3 := by decide!
  have s3 : size_sub 3 3 = 3 - 3 := by decide!
  unfold encode_consume chain_state block_state
  rcases hn with h | h | h
  · subst h
    simp only [e9, s9, gt_iff_lt, Nat.lt_add_one, Nat.reduceLT, if_true]
  · subst h
    simp only [e6, s6, gt_iff_lt, Nat.reduceLT, if_true]
  · subst h
    simp only [s3, gt_iff_lt, Nat.lt_irrefl, if_false]

/-- The part of a round from the back-ref search on, while the encoder counts the
repeats of the back-ref to `ABC`. -/
theorem encode_search_chain (is : List Nat) (is_eof : Bool) (num r : Nat)
    (hn : num = 9 ∨ num = 6 ∨ num = 3) (hr : r < 2048) :
    encode_search (chain_state is is_eof num r)
      = some (chain_state is is_eof (num - 3) (r + 1)) := by
  have e1 : find_back_ref (chain_state is is_eof num r) = (3, 0) :=
    find_back_ref_chain _ rfl rfl rfl hn
  have e2 : encode_match (chain_state is is_eof num r) 3 0
      = some (encode_consume (chain_state is is_eof num (r + 1)) 3) :=
    encode_match_repeat (chain_state is is_eof num r) rfl hr
  have e3 : encode_flush (chain_state is is_eof (num - 3) (r + 1))
      = some (chain_state is is_eof (num - 3) (r + 1)) :=
    encode_flush_small _ (by show 5 < 4095; decide)
  have c : ¬ ((3, 0) : Nat × Nat).1 < c_min_pat_length := by decide
  rw [encode_search, e1]
  dsimp only
  rw [if_neg c, e2, encode_consume_chain is is_eof num (r + 1) hn]
  exact e3

/-- A round in the middle of the repetitions: three more bytes are read and the repeat
counter goes up by one. -/
theorem encode_round_chain (rest : List Nat) (r : Nat) (hr : r < 2048) :
    encode_round (chain_state (0x41 :: 0x42 :: 0x43 :: rest) false 6 r)
      = some (chain_state rest false 6 (r + 1), false) := by
  have w : wr_range abc_buffer 6 [0x41, 0x42, 0x43] = abc_buffer := by decide!
  have e : encode_refill (c_max_pat_length + 2)
      (chain_state (0x41 :: 0x42 :: 0x43 :: rest) false 6 r) = chain_state rest false 9 r := by
    rw [encode_refill_fill [0x41, 0x42, 0x43] rest _
      (chain_state (0x41 :: 0x42 :: 0x43 :: rest) false 6 r) rfl rfl rfl
      (by show 5 + 9 < 4092; decide) (by decide)]
    simp only [chain_state, block_state, w]
  have c1 : ¬ (chain_state rest false 9 r).num = 0 := by
    show ¬ 9 = 0
    decide
  have c2 : ¬ ((chain_state rest false 9 r).num < c_min_pat_length
      ∨ (chain_state rest false 9 r).output_offset < c_min_pat_length) := by
    show ¬ (9 < c_min_pat_length ∨ 5 < c_min_pat_length)
    decide
  rw [encode_round, e]
  rw [if_neg c1, if_neg c2, encode_search_chain _ _ _ _ (Or.inl rfl) hr]
  rfl

/-- The round that finds the end of the stream with `ABCABC` in the input buffer. -/
theorem encode_round_chain_eof (r : Nat) (hr : r < 2048) :
    encode_round (chain_state [] false 6 r) = some (chain_state [] true 3 (r + 1), false) := by
  have e : encode_refill (c_max_pat_length + 2) (chain_state [] false 6 r)
      = chain_state [] true 6 r := by
    rw [encode_refill_end _ (chain_state [] false 6 r) (by show 6 < 9; decide) rfl rfl]
    rfl
  have c1 : ¬ (chain_state [] true 6 r).num = 0 := by
    show ¬ 6 = 0
    decide
  have c2 : ¬ ((chain_state [] true 6 r).num < c_min_pat_length
      ∨ (chain_state [] true 6 r).output_offset < c_min_pat_length) := by
    show ¬ (6 < c_min_pat_length ∨ 5 < c_min_pat_length)
    decide
  rw [encode_round, e]
  rw [if_neg c1, if_neg c2, encode_search_chain _ _ _ _ (Or.inr (Or.inl rfl)) hr]
  rfl

/-- The round on the last `ABC`. -/
theorem encode_round_chain_last (r : Nat) (hr : r < 2048) :
    encode_round (chain_state [] true 3 r) = some (chain_state [] true 0 (r + 1), false) := by
  have c1 : ¬ (chain_state [] true 3 r).num = 0 := by
    show ¬ 3 = 0
    decide
  have c2 : ¬ ((chain_state [] true 3 r).num < c_min_pat_length
      ∨ (chain_state [] true 3 r).output_offset < c_min_pat_length) := by
    show ¬ (3 < c_min_pat_length ∨ 5 < c_min_pat_length)
    decide
  rw [encode_round, encode_refill_idle _ _ (Or.inr rfl)]
  rw [if_neg c1, if_neg c2, encode_search_chain _ _ _ _ (Or.inr (Or.inr rfl)) hr]
  rfl

/-- The round that leaves the main loop. -/
theorem encode_round_chain_break (r : Nat) :
    encode_round (chain_state [] true 0 r) = some (chain_state [] true 0 r, true) := by
  rw [encode_round, encode_refill_idle _ _ (Or.inr rfl)]
  rfl

/-- The main loop from the state in which `ABCABC` is in the input buffer and `j` more
repetitions are in the stream: every repetition adds one to the repeat counter. -/
theorem encode_loop_chain (j : Nat) : ∀ (r fuel : Nat), r + j + 2 ≤ 2048 → j + 3 ≤ fuel →
    encode_loop fuel (chain_state (abc j) false 6 r) = some (chain_state [] true 0 (r + j + 2)) := by
  induction j with
  | zero =>
    intro r fuel h1 h2
    obtain ⟨f, rfl⟩ : ∃ f, fuel = f + 3 := ⟨fuel - 3, by omega⟩
    have e0 : abc 0 = [] := rfl
    rw [e0, encode_loop, encode_round_chain_eof r (by omega)]
    dsimp only
    rw [encode_loop, encode_round_chain_last (r + 1) (by omega)]
    dsimp only
    rw [encode_loop, encode_round_chain_break]
  | succ j ih =>
    intro r fuel h1 h2
    obtain ⟨f, rfl⟩ : ∃ f, fuel = f + 1 := ⟨fuel - 1, by omega⟩
    have e1 : abc (j + 1) = 0x41 :: 0x42 :: 0x43 :: abc j := by
      simp [abc, List.replicate_succ]
    rw [e1, encode_loop, encode_round_chain (abc j) r (by omega)]
    dsimp only
    rw [ih (r + 1) f (by omega) (by omega)]
    have : r + 1 + j + 2 = r + (j + 1) + 2 := by omega
    rw [this]

/-- The match branch on the first back-ref of a block: nothing is pending and no
back-ref comes before it, so the marker is put at the front of the input buffer. -/
theorem encode_match_first (s : encode_state) (h1 : s.last_pair = (0, 0))
    (h2 : s.last_pair_repeats = 0) (h3 : s.output_offset < 4094)
    (h4 : s.last_back_ref_offset = 0) (h5 : s.num > 3) :
    encode_match s 3 0
      = some { s with
          input_buffer := wr (wr (memmove s.input_buffer 2 3 (s.num - 3)) 0 0x80) 1 0x00
          last_pair := (0x80, 0x00)
          num := size_sub (s.num + 2) 3 } := by
  have b1 : back_ref_byte1 0 3 = 0x80 := by decide
  have b2 : back_ref_byte2 0 = 0x00 := by decide
  have c1 : ¬ ((false : Bool) = false ∧ s.output_offset ≥ c_max_offset - 1) := by
    unfold c_max_offset
    omega
  have c2 : (3 : Nat) > 2 ∧ s.num > 3 := ⟨by decide, h5⟩
  rw [encode_match]
  simp only [b1, b2, h1, h2, ne_eq, not_true_eq_false, false_and, if_false]
  have c0 : decide ((128 : Nat) = 0 ∧ True) = false := by decide
  rw [c0, encode_back_ref, if_neg c1]
  simp only [Bool.false_eq_true, if_false, h2, if_true, encode_chain, h4, ne_eq,
    not_true_eq_false, false_and, Option.map_some', c2, and_self]

/-- The branch without a sufficient match on an input buffer that starts with a
back-ref marker: the offset of the marker is recorded and the bytes are copied, while
the block is too short for combining. -/
theorem encode_no_match_back_ref (s : encode_state) (length : Nat)
    (h0 : (rd s.input_buffer 0 &&& c_high_bit_value) = c_high_bit_value)
    (h3 : s.output_offset + length ≤ 7) :
    encode_no_match s length
      = some { s with
          last_back_ref_offset := s.output_offset
          output_buffer := wr_range s.output_buffer s.output_offset
            (rd_range s.input_buffer 0 length)
          output_offset := s.output_offset + length
          input_buffer :=
            if s.num > length then memmove s.input_buffer 0 length (s.num - length)
            else s.input_buffer
          num := size_sub s.num length } := by
  have key := emit_literals_copy { s with last_back_ref_offset := s.output_offset }
    (decide (length < c_min_pat_length)) length length (Or.inr (Or.inr h0))
  have hb : c_high_bit_value ≠ 0 := by decide
  rw [encode_no_match]
  simp only [h0, ne_eq, hb, not_false_eq_true, decide_True, if_true, key, encode_consume]
  rw [combine_small _ h3]
  rfl

/-- The back-ref search on `ABCABC` after the literals `ABC`. -/
theorem find_back_ref_abc_first (s : encode_state)
    (h1 : s.output_buffer = [0x41, 0x42, 0x43]) (h2 : s.output_offset = 3)
    (h3 : s.input_buffer = abc_buffer) (h4 : s.num = 6) :
    find_back_ref s = (3, 0) := by
  unfold find_back_ref
  rw [h1, h2, h3, h4]
  decide!

/-- The first round on an input that starts with three times `ABC`: `ABC` is copied as
literals and the back-ref to it is put at the front of the input buffer. -/
theorem encode_round_abc_first (rest : List Nat) :
    encode_round (encode_init
        (0x41 :: 0x42 :: 0x43 :: 0x41 :: 0x42 :: 0x43 :: 0x41 :: 0x42 :: 0x43 :: rest))
      = some (block_state rest false 5 3 [0x80, 0x00, 0x41, 0x42, 0x43, 0x43, 0x41, 0x42, 0x43, 0, 0]
          [0x41, 0x42, 0x43] (0x80, 0x00) 0 0, false) := by
  have w : wr_range (List.replicate (c_max_pat_length + 2) 0) 0
      [0x41, 0x42, 0x43, 0x41, 0x42, 0x43, 0x41, 0x42, 0x43] = abc_buffer := by decide!
  have e : encode_refill (c_max_pat_length + 2) (encode_init
        (0x41 :: 0x42 :: 0x43 :: 0x41 :: 0x42 :: 0x43 :: 0x41 :: 0x42 :: 0x43 :: rest))
      = block_state rest false 9 0 abc_buffer [] (0, 0) 0 0 := by
    rw [encode_refill_fill [0x41, 0x42, 0x43, 0x41, 0x42, 0x43, 0x41, 0x42, 0x43] rest _
      (encode_init (0x41 :: 0x42 :: 0x43 :: 0x41 :: 0x42 :: 0x43 :: 0x41 :: 0x42 :: 0x43 :: rest))
      rfl rfl rfl (by show 0 + 9 < 4092; decide) (by decide)]
    simp only [encode_init, block_state, w]
  have c1 : ¬ (block_state rest false 9 0 abc_buffer [] (0, 0) 0 0).num = 0 := by
    show ¬ 9 = 0
    decide
  have c2 : (block_state rest false 9 0 abc_buffer [] (0, 0) 0 0).num < c_min_pat_length
      ∨ (block_state rest false 9 0 abc_buffer [] (0, 0) 0 0).output_offset < c_min_pat_length := by
    right
    show 0 < c_min_pat_length
    decide
  have m : memmove abc_buffer 0 3 (9 - 3) = abc_buffer := by decide!
  have o : wr_range [] 0 (rd_range abc_buffer 0 (min 9 3)) = [0x41, 0x42, 0x43] := by decide!
  have e2 : encode_short (block_state rest false 9 0 abc_buffer [] (0, 0) 0 0)
      = some (block_state rest false 6 3 abc_buffer [0x41, 0x42, 0x43] (0, 0) 0 0, false) := by
    rw [encode_short_literals _ rfl (by show (0 : Nat) ≠ size_sub 0 2; decide)]
    have c3 : ¬ (block_state rest false 9 0 abc_buffer [] (0, 0) 0 0).num < 3 := by
      show ¬ 9 < 3
      decide
    rw [if_neg c3]
    simp only [block_state, m, o]
    rfl
  have f : find_back_ref (block_state rest false 6 3 abc_buffer [0x41, 0x42, 0x43] (0, 0) 0 0)
      = (3, 0) := find_back_ref_abc_first _ rfl rfl rfl rfl
  have c4 : ¬ ((3, 0) : Nat × Nat).1 < c_min_pat_length := by decide
  have mm : wr (wr (memmove abc_buffer 2 3 (6 - 3)) 0 0x80) 1 0x00
      = [0x80, 0x00, 0x41, 0x42, 0x43, 0x43, 0x41, 0x42, 0x43, 0, 0] := by decide!
  have ss : size_sub (6 + 2) 3 = 5 := by decide!
  have e3 : encode_search (block_state rest false 6 3 abc_buffer [0x41, 0x42, 0x43] (0, 0) 0 0)
      = some (block_state rest false 5 3 [0x80, 0x00, 0x41, 0x42, 0x43, 0x43, 0x41, 0x42, 0x43, 0, 0]
          [0x41, 0x42, 0x43] (0x80, 0x00) 0 0) := by
    rw [encode_search, f]
    dsimp only
    rw [if_neg c4, encode_match_first _ rfl rfl (by show 3 < 4094; decide) rfl
      (by show 6 > 3; decide)]
    dsimp only
    rw [encode_flush_small _ (by show 3 < 4095; decide)]
    simp only [block_state, mm, ss]
  rw [encode_round, e, if_neg c1, if_pos c2, e2]
  dsimp only
  rw [e3]
  rfl

/-- The back-ref search on an input buffer that starts with the back-ref to `ABC`:
nothing matches, and the length is set to the two bytes of the marker. -/
theorem find_back_ref_abc_marker (s : encode_state)
    (h1 : s.output_buffer = [0x41, 0x42, 0x43]) (h2 : s.output_offset = 3)
    (h3 : s.input_buffer = [0x80, 0x00, 0x41, 0x42, 0x43, 0x41, 0x42, 0x43, 0x41, 0, 0])
    (h4 : s.num = 9) :
    find_back_ref s = (2, 0) := by
  unfold find_back_ref
  rw [h1, h2, h3, h4]
  decide!

/-- The part of a round from the back-ref search on, put together from its steps. -/
theorem encode_search_steps (s next t : encode_state) (r : Nat × Nat)
    (h1 : find_back_ref s = r)
    (h2 : (if r.1 < c_min_pat_length then encode_no_match s r.1 else encode_match s r.1 r.2)
      = some next)
    (h3 : encode_flush next = some t) : encode_search s = some t := by
  rw [encode_search]
  simp only [h1, h2, h3]

/-- The second round on the repetitions of `ABC`: the back-ref at the front of the input
buffer is copied to the output block. -/
theorem encode_round_abc_second (rest : List Nat) :
    encode_round (block_state (0x41 :: 0x42 :: 0x43 :: 0x41 :: rest) false 5 3
        [0x80, 0x00, 0x41, 0x42, 0x43, 0x43, 0x41, 0x42, 0x43, 0, 0]
        [0x41, 0x42, 0x43] (0x80, 0x00) 0 0)
      = some (block_state rest false 7 5 [0x41, 0x42, 0x43, 0x41, 0x42, 0x43, 0x41, 0x43, 0x41, 0, 0]
          [0x41, 0x42, 0x43, 0x80, 0x00] (0x80, 0x00) 0 3, false) := by
  have w : wr_range [0x80, 0x00, 0x41, 0x42, 0x43, 0x43, 0x41, 0x42, 0x43, 0, 0] 5
      [0x41, 0x42, 0x43, 0x41] = [0x80, 0x00, 0x41, 0x42, 0x43, 0x41, 0x42, 0x43, 0x41, 0, 0] := by
    decide!
  have e : encode_refill (c_max_pat_length + 2)
      (block_state (0x41 :: 0x42 :: 0x43 :: 0x41 :: rest) false 5 3
        [0x80, 0x00, 0x41, 0x42, 0x43, 0x43, 0x41, 0x42, 0x43, 0, 0]
        [0x41, 0x42, 0x43] (0x80, 0x00) 0 0)
      = block_state rest false 9 3 [0x80, 0x00, 0x41, 0x42, 0x43, 0x41, 0x42, 0x43, 0x41, 0, 0]
          [0x41, 0x42, 0x43] (0x80, 0x00) 0 0 := by
    rw [encode_refill_fill [0x41, 0x42, 0x43, 0x41] rest _
      (block_state (0x41 :: 0x42 :: 0x43 :: 0x41 :: rest) false 5 3
        [0x80, 0x00, 0x41, 0x42, 0x43, 0x43, 0x41, 0x42, 0x43, 0, 0]
        [0x41, 0x42, 0x43] (0x80, 0x00) 0 0)
      rfl rfl rfl (by show 3 + 9 < 4092; decide) (by decide)]
    simp only [block_state, w]
  have c1 : ¬ (block_state rest false 9 3
      [0x80, 0x00, 0x41, 0x42, 0x43, 0x41, 0x42, 0x43, 0x41, 0, 0]
      [0x41, 0x42, 0x43] (0x80, 0x00) 0 0).num = 0 := by
    show ¬ 9 = 0
    decide
  have c2 : ¬ ((block_state rest false 9 3
      [0x80, 0x00, 0x41, 0x42, 0x43, 0x41, 0x42, 0x43, 0x41, 0, 0]
      [0x41, 0x42, 0x43] (0x80, 0x00) 0 0).num < c_min_pat_length
      ∨ (block_state rest false 9 3
      [0x80, 0x00, 0x41, 0x42, 0x43, 0x41, 0x42, 0x43, 0x41, 0, 0]
      [0x41, 0x42, 0x43] (0x80, 0x00) 0 0).output_offset < c_min_pat_length) := by
    show ¬ (9 < c_min_pat_length ∨ 3 < c_min_pat_length)
    decide
  have f := find_back_ref_abc_marker (block_state rest false 9 3
      [0x80, 0x00, 0x41, 0x42, 0x43, 0x41, 0x42, 0x43, 0x41, 0, 0]
      [0x41, 0x42, 0x43] (0x80, 0x00) 0 0) rfl rfl rfl rfl
  have c4 : ((2, 0) : Nat × Nat).1 < c_min_pat_length := by decide
  have o : wr_range [0x41, 0x42, 0x43] 3
      (rd_range [0x80, 0x00, 0x41, 0x42, 0x43, 0x41, 0x42, 0x43, 0x41, 0, 0] 0 2)
      = [0x41, 0x42, 0x43, 0x80, 0x00] := by decide!
  have m : memmove [0x80, 0x00, 0x41, 0x42, 0x43, 0x41, 0x42, 0x43, 0x41, 0, 0] 0 2 (9 - 2)
      = [0x41, 0x42, 0x43, 0x41, 0x42, 0x43, 0x41, 0x43, 0x41, 0, 0] := by decide!
  have ss : size_sub 9 2 = 7 := by decide!
  have c5 : (9 : Nat) > 2 := by decide
  have h0 : (rd [0x80, 0x00, 0x41, 0x42, 0x43, 0x41, 0x42, 0x43, 0x41, 0, 0] 0 &&& c_high_bit_value)
      = c_high_bit_value := by decide!
  have n := encode_no_match_back_ref (block_state rest false 9 3
      [0x80, 0x00, 0x41, 0x42, 0x43, 0x41, 0x42, 0x43, 0x41, 0, 0]
      [0x41, 0x42, 0x43] (0x80, 0x00) 0 0) 2 h0 (by show 3 + 2 ≤ 7; decide)
  have n2 : encode_no_match (block_state rest false 9 3
      [0x80, 0x00, 0x41, 0x42, 0x43, 0x41, 0x42, 0x43, 0x41, 0, 0]
      [0x41, 0x42, 0x43] (0x80, 0x00) 0 0) 2
      = some (block_state rest false 7 5 [0x41, 0x42, 0x43, 0x41, 0x42, 0x43, 0x41, 0x43, 0x41, 0, 0]
          [0x41, 0x42, 0x43, 0x80, 0x00] (0x80, 0x00) 0 3) := by
    rw [n]
    simp only [block_state, o, m, ss, c5, if_true]
  have e3 := encode_search_steps _ _ _ _ f (by rw [if_pos c4]; exact n2)
    (encode_flush_small _ (by show 5 < 4095; decide))
  rw [encode_round, e, if_neg c1, if_neg c2, e3]
  rfl

/-- The third round on the repetitions of `ABC`: the first repeat of the back-ref. -/
theorem encode_round_abc_third (rest : List Nat) :
    encode_round (block_state (0x42 :: 0x43 :: rest) false 7 5
        [0x41, 0x42, 0x43, 0x41, 0x42, 0x43, 0x41, 0x43, 0x41, 0, 0]
        [0x41, 0x42, 0x43, 0x80, 0x00] (0x80, 0x00) 0 3)
      = some (chain_state rest false 6 1, false) := by
  have w : wr_range [0x41, 0x42, 0x43, 0x41, 0x42, 0x43, 0x41, 0x43, 0x41, 0, 0] 7 [0x42, 0x43]
      = abc_buffer := by decide!
  have e : encode_refill (c_max_pat_length + 2)
      (block_state (0x42 :: 0x43 :: rest) false 7 5
        [0x41, 0x42, 0x43, 0x41, 0x42, 0x43, 0x41, 0x43, 0x41, 0, 0]
        [0x41, 0x42, 0x43, 0x80, 0x00] (0x80, 0x00) 0 3)
      = chain_state rest false 9 0 := by
    rw [encode_refill_fill [0x42, 0x43] rest _
      (block_state (0x42 :: 0x43 :: rest) false 7 5
        [0x41, 0x42, 0x43, 0x41, 0x42, 0x43, 0x41, 0x43, 0x41, 0, 0]
        [0x41, 0x42, 0x43, 0x80, 0x00] (0x80, 0x00) 0 3)
      rfl rfl rfl (by show 5 + 9 < 4092; decide) (by decide)]
    simp only [chain_state, block_state, w]
  have c1 : ¬ (chain_state rest false 9 0).num = 0 := by
    show ¬ 9 = 0
    decide
  have c2 : ¬ ((chain_state rest false 9 0).num < c_min_pat_length
      ∨ (chain_state rest false 9 0).output_offset < c_min_pat_length) := by
    show ¬ (9 < c_min_pat_length ∨ 5 < c_min_pat_length)
    decide
  rw [encode_round, e, if_neg c1, if_neg c2,
    encode_search_chain _ _ _ _ (Or.inl rfl) (by decide)]
  rfl

/-- The first call of `replace_meta_pattern` in a block whose only back-ref is the pair
`0x80, 0x00` at offset 3: the pair and the new bytes are recorded as a meta pattern and
nothing is replaced. -/
theorem replace_meta_pattern_first (p_buffer : Buf) (rb1 rb2 end_offset lpo : Nat)
    (h1 : rd p_buffer 3 = 0x80) (h2 : rd p_buffer (3 + 1) = 0x00) (h3 : rb1 ≠ 0x80) :
    replace_meta_pattern meta_pattern_info.empty p_buffer 3 rb1 rb2 end_offset lpo
      = some ⟨meta_pattern_info.empty.add_pattern ⟨0x80, 0x00, rb1, rb2⟩ 3, p_buffer, rb1, rb2,
          end_offset, 3, false⟩ := by
  have c0 : (3 : Nat) ≥ c_min_pat_length := by decide
  have c1 : ¬ ((0x80 &&& c_nibble_one) ≠ c_nibble_one ∧ 0x80 = rb1 ∧ 0x00 = rb2) := by
    intro h
    exact h3 h.2.1.symm
  have c2 : (0x80 &&& c_nibble_one) ≠ c_nibble_one := by decide
  have c3 : meta_pattern_info.empty.remove_offsets_from 3 = some meta_pattern_info.empty := by
    decide!
  rw [replace_meta_pattern, if_pos c0]
  simp only [h1, h2, decide_eq_false c1, Bool.false_eq_true, if_false, meta_pattern_info.has_pattern,
    meta_pattern_info.empty, map_count, List.any_nil, c2, ne_eq, not_false_eq_true, if_true]
  simp only [meta_pattern_info.empty] at c3
  have c4 : decide (True ∧ 128 = rb1 ∧ 0 = rb2) = false :=
    decide_eq_false (fun h => h3 h.2.1.symm)
  simp only [c3, c4, Bool.false_eq_true, if_false, Option.map_some']

/-- The last output block of the encoder on the repetitions of `ABC`, before the shrink
pass: the pending repeats of the back-ref are flushed as one back-ref repeat. -/
theorem encode_last_block_chain (s : encode_state) (r : Nat) (h1 : s.last_pair_repeats = r)
    (hr1 : 1 ≤ r) (hr2 : r ≤ 2048) (h2 : s.meta_patterns = meta_pattern_info.empty)
    (h3 : s.output_buffer = [0x41, 0x42, 0x43, 0x80, 0x00]) (h4 : s.last_back_ref_offset = 3)
    (h5 : s.output_offset = 5) :
    encode_last_block s
      = some ([0x41, 0x42, 0x43, 0x80, 0x00, repeat_byte1 (r - 1), repeat_byte2 (r - 1)], 7) := by
  have t := repeat_marker_table
  rw [List.all_eq_true] at t
  have t1 := of_decide_eq_true (t (r - 1) (List.mem_range.mpr (by omega)))
  have hb : repeat_byte1 (r - 1) ≠ 0x80 := by omega
  have c0 : s.last_pair_repeats ≠ 0 := by omega
  have key := replace_meta_pattern_first [0x41, 0x42, 0x43, 0x80, 0x00] (repeat_byte1 (r - 1))
    (repeat_byte2 (r - 1)) 5 s.last_pattern_offset (by decide) (by decide) hb
  rw [encode_last_block, if_pos c0, emit_pair_repeat]
  simp only [h1, h2, h3, h4, h5, size_sub_one r hr1 hr2, key, Option.map_some',
    Bool.false_eq_true, if_false]
  have c1 : (5 : Nat) + 2 ≠ 0 := by decide
  rw [if_pos c1, combine_small _ (by show 5 + 2 ≤ 7; decide)]
  simp [wr]

theorem chain_block_table_0 :
    ((List.range 256).all fun k => chain_block_ok (k + 256 * 0)) = true := by
  decide!

theorem chain_block_table_1 :
    ((List.range 256).all fun k => chain_block_ok (k + 256 * 1)) = true := by
  decide!

theorem chain_block_table_2 :
    ((List.range 256).all fun k => chain_block_ok (k + 256 * 2)) = true := by
  decide!

theorem chain_block_table_3 :
    ((List.range 256).all fun k => chain_block_ok (k + 256 * 3)) = true := by
  decide!

theorem chain_block_table_4 :
    ((List.range 256).all fun k => chain_block_ok (k + 256 * 4)) = true := by
  decide!

theorem chain_block_table_5 :
    ((List.range 256).all fun k => chain_block_ok (k + 256 * 5)) = true := by
  decide!

theorem chain_block_table_6 :
    ((List.range 256).all fun k => chain_block_ok (k + 256 * 6)) = true := by
  decide!

theorem chain_block_table_7 :
    ((List.range 256).all fun k => chain_block_ok (k + 256 * 7)) = true := by
  decide!

/-- The last block of the pair-repeat chain for every value of the decremented repeat
counter: the repeat bytes are `0xf0 | (k >> 8)` and `k & 0xff`, and the shrink pass
leaves the block as it is. -/
theorem chain_block_table (k : Nat) (hk : k < 2048) :
    repeat_byte1 k = 0xf0 ||| (k >>> 8) ∧ repeat_byte2 k = k &&& 0xff
      ∧ shrink_output [0x41, 0x42, 0x43, 0x80, 0x00, repeat_byte1 k, repeat_byte2 k] 7
        = ([0x41, 0x42, 0x43, 0x80, 0x00, repeat_byte1 k, repeat_byte2 k], 7) := by
  have e : k % 256 + 256 * (k / 256) = k := Nat.mod_add_div k 256
  have hm : k % 256 < 256 := Nat.mod_lt k (by decide)
  have hd : k / 256 < 8 := by omega
  have key : chain_block_ok (k % 256 + 256 * (k / 256)) = true := by
    have t0 := chain_block_table_0
    have t1 := chain_block_table_1
    have t2 := chain_block_table_2
    have t3 := chain_block_table_3
    have t4 := chain_block_table_4
    have t5 := chain_block_table_5
    have t6 := chain_block_table_6
    have t7 := chain_block_table_7
    rw [List.all_eq_true] at t0 t1 t2 t3 t4 t5 t6 t7
    have m := List.mem_range.mpr hm
    generalize k / 256 = d at hd
    interval_cases d
    · exact t0 _ m
    · exact t1 _ m
    · exact t2 _ m
    · exact t3 _ m
    · exact t4 _ m
    · exact t5 _ m
    · exact t6 _ m
    · exact t7 _ m
  rw [e] at key
  exact of_decide_eq_true key

/-- The statements after the main loop on the repetitions of `ABC`. -/
theorem encode_finish_chain (r : Nat) (hr1 : 1 ≤ r) (hr2 : r ≤ 2048) :
    encode_finish (chain_state [] true 0 r)
      = some [0x41, 0x42, 0x43, 0x80, 0x00, 0xf0 ||| ((r - 1) >>> 8), (r - 1) &&& 0xff] := by
  obtain ⟨t1, t2, t3⟩ := chain_block_table (r - 1) (by omega)
  have c : ((([0x41, 0x42, 0x43, 0x80, 0x00, repeat_byte1 (r - 1), repeat_byte2 (r - 1)], 7) :
      Buf × Nat)).2 ≠ 0 := by
    show (7 : Nat) ≠ 0
    decide
  have os : (chain_state [] true 0 r).os = [] := rfl
  rw [encode_finish, encode_last_block_chain _ r rfl hr1 hr2 rfl rfl rfl rfl, Option.map_some',
    if_pos c]
  simp only [t3, os, List.nil_append]
  rw [t1, t2]
  simp [rd_range, rd, List.range_succ]

theorem abc_succ (n : Nat) : abc (n + 1) = 0x41 :: 0x42 :: 0x43 :: abc n := by
  simp [abc, List.replicate_succ]

theorem abc_length (n : Nat) : (abc n).length = 3 * n := by
  induction n with
  | zero => rfl
  | succ n ih =>
    rw [abc_succ]
    simp only [List.length_cons, ih]
    omega

/-- The main loop on `ABC` repeated five times or more: it ends with all repetitions
after the first two counted as pending repeats of the back-ref. -/
theorem encode_loop_abc (j : Nat) (h : j + 3 ≤ 2048) :
    encode_loop (encode_fuel (abc (j + 5))) (encode_init (abc (j + 5)))
      = some (chain_state [] true 0 (j + 3)) := by
  have e : abc (j + 5) = 0x41 :: 0x42 :: 0x43 :: 0x41 :: 0x42 :: 0x43 :: 0x41 :: 0x42 :: 0x43
      :: 0x41 :: 0x42 :: 0x43 :: 0x41 :: 0x42 :: 0x43 :: abc j := by
    simp only [abc_succ]
  have f : encode_fuel (abc (j + 5)) = (3 * j + 14) + 1 + 1 + 1 := by
    rw [encode_fuel, abc_length]
    omega
  rw [f, e, encode_loop, encode_round_abc_first]
  dsimp only
  rw [encode_loop, encode_round_abc_second]
  dsimp only
  rw [encode_loop, encode_round_abc_third]
  dsimp only
  rw [encode_loop_chain j 1 (3 * j + 14) (by omega) (by omega)]
  have : 1 + j + 2 = j + 3 := by omega
  rw [this]

/-- C4: for every `n` with `3 ≤ n ≤ 2050`, `encode_clz_data` on the ASCII string `ABC`
repeated `n` times outputs exactly the seven bytes `A`, `B`, `C`, `0x80`, `0x00`,
`0xF0 | ((n-3) >> 8)`, `(n-3) & 0xFF`. -/
theorem C4_pair_repeat_chain (n : Nat) (h1 : 3 ≤ n) (h2 : n ≤ 2050) :
    encode_clz_data (abc n)
      = some [0x41, 0x42, 0x43, 0x80, 0x00, 0xf0 ||| ((n - 3) >>> 8), (n - 3) &&& 0xff] := by
  by_cases h3 : n = 3
  · subst h3
    decide!
  by_cases h4 : n = 4
  · subst h4
    decide!
  obtain ⟨j, rfl⟩ : ∃ j, n = j + 5 := ⟨n - 5, by omega⟩
  rw [encode_clz_data, encode_loop_abc j (by omega)]
  dsimp only
  rw [encode_finish_chain (j + 3) (by omega) (by omega)]
  have : j + 3 - 1 = j + 5 - 3 := by omega
  rw [this]

/-- Witness of C4 at `n = 100`: the output is `41 42 43 80 00 F0 61`. -/
theorem C4_witness :
    3 ≤ 100 ∧ 100 ≤ 2050
      ∧ encode_clz_data (abc 100) = some [0x41, 0x42, 0x43, 0x80, 0x00, 0xf0, 0x61] :=
  ⟨by decide, by decide, C4_pair_repeat_chain 100 (by decide) (by decide)⟩

/-! ## Further scenarios evaluated on the model -/

/-- C8 (as stated, refuted): in the first block the pair `80 00` occurs eight times and
no other pair occurs, yet `shrink_output` does not leave one byte per occurrence: two
adjacent markers occur four times and each two are replaced by the one byte `0xfe` of an
extra special, and the table `80 00` is followed by `f8` and the pair of the two markers.
In the second block the five occurrences are apart and each is replaced by one byte, but
the byte is `0x00` and not `0xff`: the pair is numbered `2 ^ 64 - 1` in `special_nums`. -/
theorem C8_counterexample :
    shrink_block [0x80, 0x00, 0x80, 0x00, 0x41, 0x80, 0x00, 0x80, 0x00, 0x42,
        0x80, 0x00, 0x80, 0x00, 0x43, 0x80, 0x00, 0x80, 0x00]
      = [0xfe, 0x41, 0xfe, 0x42, 0xfe, 0x43, 0xfe, 0x80, 0x00, 0xf8, 0x00, 0x00]
      ∧ shrink_block
          [0x80, 0x00, 0x41, 0x80, 0x00, 0x42, 0x80, 0x00, 0x43, 0x80, 0x00, 0x44, 0x80, 0x00]
        = [0x00, 0x41, 0x00, 0x42, 0x00, 0x43, 0x00, 0x44, 0x00, 0x80, 0x00]
      ∧ number_specials [(0x80, 0x00)] = [((0x80, 0x00), 18446744073709551615)] := by
  decide!

theorem specials_table_0 :
    ((List.range 64).all fun q => specials_ok (q + 64 * 0)) = true := by
  decide!

theorem specials_table_1 :
    ((List.range 64).all fun q => specials_ok (q + 64 * 1)) = true := by
  decide!

theorem specials_table_2 :
    ((List.range 64).all fun q => specials_ok (q + 64 * 2)) = true := by
  decide!

theorem specials_table_3 :
    ((List.range 64).all fun q => specials_ok (q + 64 * 3)) = true := by
  decide!

/-- The specials scenario for every second byte `q` of the pair. -/
theorem specials_table (q : Nat) (hq : q < 256) : specials_ok q = true := by
  have e : q % 64 + 64 * (q / 64) = q := Nat.mod_add_div q 64
  have hm : q % 64 < 64 := Nat.mod_lt q (by decide)
  have hd : q / 64 < 4 := by omega
  have key : specials_ok (q % 64 + 64 * (q / 64)) = true := by
    have t0 := specials_table_0
    have t1 := specials_table_1
    have t2 := specials_table_2
    have t3 := specials_table_3
    rw [List.all_eq_true] at t0 t1 t2 t3
    have m := List.mem_range.mpr hm
    generalize q / 64 = d at hd
    interval_cases d
    · exact t0 _ m
    · exact t1 _ m
    · exact t2 _ m
    · exact t3 _ m
  rw [e] at key
  exact key

/-- The block of the specials scenario after the shrink pass, for every second byte `q`
of the pair: the marker byte of the only special is `0x00`. -/
theorem shrink_block_separated (q : Nat) (hq : q < 256) :
    select_specials
        (count_pairs [0x80, q, 0x41, 0x80, q, 0x42, 0x80, q, 0x43, 0x80, q, 0x44, 0x80, q]
          14 14 0 []) = [(0x80, q)]
      ∧ shrink_block [0x80, q, 0x41, 0x80, q, 0x42, 0x80, q, 0x43, 0x80, q, 0x44, 0x80, q]
        = [0x00, 0x41, 0x00, 0x42, 0x00, 0x43, 0x00, 0x44, 0x00, 0x80, q] :=
  of_decide_eq_true (specials_table q hq)

/-- C8 (amended): for every second byte `q`, in the block in which the back-ref pair
`80 q` occurs five times, separated by the literals `41`, `42`, `43`, `44`, the pair is
the only special, `shrink_output` replaces every occurrence of the pair by one byte, the
same byte at the five places, and appends the two bytes of the pair at the end of the
block as the only table entry: fourteen bytes become eleven. -/
theorem C8_separated_specials (q : Nat) (hq : q < 256) :
    select_specials
        (count_pairs [0x80, q, 0x41, 0x80, q, 0x42, 0x80, q, 0x43, 0x80, q, 0x44, 0x80, q]
          14 14 0 []) = [(0x80, q)]
      ∧ ∃ m, m < 256
        ∧ shrink_block [0x80, q, 0x41, 0x80, q, 0x42, 0x80, q, 0x43, 0x80, q, 0x44, 0x80, q]
          = [m, 0x41, m, 0x42, m, 0x43, m, 0x44, m, 0x80, q] :=
  ⟨(shrink_block_separated q hq).1, 0x00, by decide, (shrink_block_separated q hq).2⟩

/-- Witness of C8 (amended) at the pair `80 00`. -/
theorem C8_witness :
    0 < 256 ∧ ∃ m, m < 256 ∧ shrink_block
        [0x80, 0x00, 0x41, 0x80, 0x00, 0x42, 0x80, 0x00, 0x43, 0x80, 0x00, 0x44, 0x80, 0x00]
      = [m, 0x41, m, 0x42, m, 0x43, m, 0x44, m, 0x80, 0x00] :=
  ⟨by decide, (C8_separated_specials 0 (by decide)).2⟩

/-- C13 (code bug): the block `41 42 43 44 45` is shrunk to the stepping run
`41 42 f9 13`, and `expand_input` turns these four bytes into the five bytes
`41 42 00 43 01`: every byte of the run is stored one cell after the end of the data (the
last one, `44`, in the cell behind the five), so that every second byte is computed from
a cell that was never written.  The descending block `45 44 43 42 41` is shrunk to
`45 44 f9 13` and comes back as `45 44 00 45 01`: the step is added where the run
descends. -/
theorem C13_stepping_run_not_restored :
    shrink_block [0x41, 0x42, 0x43, 0x44, 0x45] = [0x41, 0x42, 0xf9, 0x13]
      ∧ expand_input [0x41, 0x42, 0xf9, 0x13] c_max_encoded_chunk_size
        = ([0x41, 0x42, 0x00, 0x43, 0x01, 0x44], 5, [])
      ∧ shrink_block [0x45, 0x44, 0x43, 0x42, 0x41] = [0x45, 0x44, 0xf9, 0x13]
      ∧ expand_input [0x45, 0x44, 0xf9, 0x13] c_max_encoded_chunk_size
        = ([0x45, 0x44, 0x00, 0x45, 0x01, 0x46], 5, []) := by
  decide!

/-- C18 (code bug): on the input of seven zero bytes the first round copies three
zeros to the output block, and the back-ref search that follows, with
`output_offset = 3`, returns length 4 at offset 0: the comparison of the inner loop
reads the cell `output_buffer[ 3 ]`, which is not part of the output yet, before the
test `start + i >= output_offset` ends the loop. -/
theorem C18_search_reads_past_output :
    (encode_short (encode_refill (c_max_pat_length + 2) (encode_init [0, 0, 0, 0, 0, 0, 0]))).map
        (fun r => (r.1.output_buffer, r.1.output_offset, r.1.num, find_back_ref r.1))
      = some ([0, 0, 0], 3, 4, (4, 0)) := by
  decide!

/-- C20 (code bug): on the input `BBABBAABAB` the block before the shrink pass ends
with the literals `A B` followed by the back-ref repeat `f0 00`: the pattern repeat of
`combine_meta_patterns` has taken the literals `ABAB` for a repeated marker pair. -/
theorem C20_repeat_marker_after_literals :
    encode_unshrunk [0x42, 0x42, 0x41, 0x42, 0x42, 0x41, 0x41, 0x42, 0x41, 0x42]
      = some [0x42, 0x42, 0x41, 0x80, 0x00, 0x41, 0x42, 0xf0, 0x00] := by
  decide!

/-- C11 (code bug): `decode_block` on the block `ABCD` from the state that a block with
one marker at offset 3 and the output `ABC` has left behind, against the same block
from the empty state.  The stale offset 3 is visited again, so `D` and the zero cell
after it are read as a pair, and the stale output is written once more. -/
theorem C11_second_block_sees_first_block :
    decode_block [0x41, 0x42, 0x43, 0x44] 4 ⟨[[0x41, 0x42, 0x43]], [3], []⟩
        = some ⟨[[0x44, 0x00], [0x41, 0x42, 0x43]], [3],
            [0x41, 0x42, 0x43, 0x44, 0x00, 0x41, 0x42, 0x43]⟩
      ∧ decode_block [0x41, 0x42, 0x43, 0x44] 4 ⟨[], [], []⟩
        = some ⟨[], [], [0x41, 0x42, 0x43, 0x44]⟩ := by
  decide!

/-! ## The commit of the shrink pass and the block flush -/

theorem shrink_output_length_le (p_buffer : Buf) (length : Nat) :
    (shrink_output p_buffer length).2 ≤ length := by
  unfold shrink_output
  by_cases h1 : length ≤ c_max_encoded_chunk_size
  · simp only [if_pos h1]
    by_cases h2 : (shrink_scratch p_buffer length).2 < length
    · simp only [if_pos h2]
      exact Nat.le_of_lt h2
    · simp only [if_neg h2]
      exact Nat.le_refl _
  · simp only [if_neg h1]
    exact Nat.le_refl _

/-- C17: for every block of length `n ≤ c_max_encoded_chunk_size`, after
`shrink_output` the block length is at most `n`; when the rewritten form is not
strictly shorter than `n` the block bytes and the length are left exactly unchanged,
and otherwise the rewritten bytes are copied to the front of the block. -/
theorem C17_shrink_never_lengthens (p_buffer : Buf) (n : Nat)
    (h : n ≤ c_max_encoded_chunk_size) :
    (shrink_output p_buffer n).2 ≤ n
      ∧ (¬ (shrink_scratch p_buffer n).2 < n → shrink_output p_buffer n = (p_buffer, n))
      ∧ ((shrink_scratch p_buffer n).2 < n →
          shrink_output p_buffer n
            = (wr_range p_buffer 0
                (rd_range (shrink_scratch p_buffer n).1 0 (shrink_scratch p_buffer n).2),
              (shrink_scratch p_buffer n).2)) := by
  refine ⟨shrink_output_length_le p_buffer n, ?_, ?_⟩
  · intro h2
    unfold shrink_output
    simp only [if_pos h, if_neg h2]
  · intro h2
    unfold shrink_output
    simp only [if_pos h, if_pos h2]

/-- Witness of C17 at the block `41 41 41`, which is rewritten as `41 f1`, and so at a
block for which the rewritten form is shorter. -/
theorem C17_witness :
    3 ≤ c_max_encoded_chunk_size
      ∧ (shrink_output [0x41, 0x41, 0x41] 3).2 ≤ 3
      ∧ (¬ (shrink_scratch [0x41, 0x41, 0x41] 3).2 < 3 →
          shrink_output [0x41, 0x41, 0x41] 3 = ([0x41, 0x41, 0x41], 3))
      ∧ ((shrink_scratch [0x41, 0x41, 0x41] 3).2 < 3 →
          shrink_output [0x41, 0x41, 0x41] 3
            = (wr_range [0x41, 0x41, 0x41] 0
                (rd_range (shrink_scratch [0x41, 0x41, 0x41] 3).1 0
                  (shrink_scratch [0x41, 0x41, 0x41] 3).2),
              (shrink_scratch [0x41, 0x41, 0x41] 3).2)) :=
  ⟨by decide, C17_shrink_never_lengthens [0x41, 0x41, 0x41] 3 (by decide)⟩

theorem rd_range_length (b : Buf) (i n : Nat) : (rd_range b i n).length = n := by
  simp [rd_range]

/-- The block flush at a state whose block stays full after the combining: the block
is shrunk and written with one further byte, and the block state is reset. -/
theorem encode_flush_full (s : encode_state) (c : combine_state)
    (h1 : s.output_offset ≥ c_max_offset)
    (h2 : perform_meta_combines ⟨s.meta_patterns, s.output_buffer, s.output_offset,
      s.last_back_ref_offset⟩ = some c)
    (h3 : c.offset ≥ c_max_offset) :
    ∃ t, encode_flush s = some t
      ∧ t.os = s.os ++ rd_range (shrink_output c.p_buffer c.offset).1 0
          ((shrink_output c.p_buffer c.offset).2 + 1)
      ∧ t.output_offset = 0 := by
  unfold encode_flush
  simp only [if_pos h1, h2, Option.map_some', if_pos h3]
  exact ⟨_, rfl, rfl, rfl⟩

/-- Combining does nothing while no meta pattern is recorded and the last four bytes of
the block are neither a repeated pair nor start with a repeat or a meta-pattern marker. -/
theorem combine_idle (c : combine_state) (h0 : c.meta_patterns = meta_pattern_info.empty)
    (h1 : (rd c.p_buffer (c.offset - 4) &&& c_nibble_one) ≠ c_nibble_one)
    (h2 : ¬ (rd c.p_buffer (c.offset - 4) = rd c.p_buffer (c.offset - 2)
      ∧ rd c.p_buffer (c.offset - 3) = rd c.p_buffer (c.offset - 1)))
    (h3 : (rd c.p_buffer (c.offset - 4) &&& c_nibble_one) ≠ 0x90) :
    perform_meta_combines c = some c := by
  have e : combine_meta_patterns c = some (c, false) := by
    unfold combine_meta_patterns
    by_cases h : c.offset > c_min_pat_length + c_meta_pat_length
    · simp only [if_pos h, h0, ne_eq, h1, not_false_eq_true, if_true,
        meta_pattern_info.has_pattern, meta_pattern_info.has_offset, meta_pattern_info.empty,
        map_count, List.any_nil, Bool.false_eq_true, false_and, and_false, if_false, h2, h3]
    · simp only [if_neg h]
  unfold perform_meta_combines c_max_combines perform_combines_loop
  simp only [e]

set_option maxRecDepth 20000 in
theorem flush_state_combine :
    perform_meta_combines ⟨flush_state.meta_patterns, flush_state.output_buffer,
        flush_state.output_offset, flush_state.last_back_ref_offset⟩
      = some flush_combined := by
  have r1 : rd full_literal_block (4095 - 4) = 0x01 := by decide!
  have r2 : rd full_literal_block (4095 - 3) = 0x02 := by decide!
  have r3 : rd full_literal_block (4095 - 2) = 0x03 := by decide!
  have r4 : rd full_literal_block (4095 - 1) = 0x04 := by decide!
  exact combine_idle ⟨meta_pattern_info.empty, full_literal_block, 4095, 0⟩ rfl
    (by show (rd full_literal_block (4095 - 4) &&& c_nibble_one) ≠ c_nibble_one
        rw [r1]
        decide)
    (by show ¬ (rd full_literal_block (4095 - 4) = rd full_literal_block (4095 - 2)
          ∧ rd full_literal_block (4095 - 3) = rd full_literal_block (4095 - 1))
        rw [r1, r2, r3, r4]
        decide)
    (by show (rd full_literal_block (4095 - 4) &&& c_nibble_one) ≠ 0x90
        rw [r1]
        decide)

theorem flush_state_offset : flush_state.output_offset ≥ c_max_offset := by decide

theorem flush_combined_offset : flush_combined.offset ≥ c_max_offset := by decide

/-- C12 (as stated, refuted): the block flush at a state whose block holds 4095
literals writes a block of at most 4096 bytes, not of `c_max_encoded_chunk_size`
(4100) or of 4098 bytes. -/
theorem C12_counterexample :
    ∃ t, encode_flush flush_state = some t ∧ t.os.length ≤ 4096 := by
  obtain ⟨t, h1, h2, _⟩ := encode_flush_full flush_state flush_combined flush_state_offset
    flush_state_combine flush_combined_offset
  refine ⟨t, h1, ?_⟩
  have b : (shrink_output flush_combined.p_buffer flush_combined.offset).2
      ≤ flush_combined.offset := shrink_output_length_le _ _
  have o : flush_combined.offset = 4095 := rfl
  have e : flush_state.os = [] := rfl
  rw [h2, List.length_append, rd_range_length, e, List.length_nil]
  omega

/-- C12 (amended): a state whose block is shorter than `c_max_offset` is not flushed;
and when the block is at least `c_max_offset` bytes long, also after the combining, the
flush writes the block as `shrink_output` leaves it and one further byte, so that the
length on the wire is the shrunk length plus one, at most the length before the shrink
pass plus one, and the next block starts empty. -/
theorem C12_flushed_block_length (s : encode_state) :
    (s.output_offset < c_max_offset → encode_flush s = some s)
      ∧ ∀ c : combine_state, s.output_offset ≥ c_max_offset →
          perform_meta_combines ⟨s.meta_patterns, s.output_buffer, s.output_offset,
            s.last_back_ref_offset⟩ = some c →
          c.offset ≥ c_max_offset →
          ∃ t, encode_flush s = some t
            ∧ t.os.length = s.os.length + ((shrink_output c.p_buffer c.offset).2 + 1)
            ∧ (shrink_output c.p_buffer c.offset).2 ≤ c.offset
            ∧ t.output_offset = 0 := by
  constructor
  · intro h
    exact encode_flush_small s h
  · intro c h1 h2 h3
    obtain ⟨t, e1, e2, e3⟩ := encode_flush_full s c h1 h2 h3
    refine ⟨t, e1, ?_, shrink_output_length_le _ _, e3⟩
    rw [e2, List.length_append, rd_range_length]

/-- Witness of C12 (amended) at the state whose block holds 4095 literals. -/
theorem C12_witness :
    flush_state.output_offset ≥ c_max_offset
      ∧ perform_meta_combines ⟨flush_state.meta_patterns, flush_state.output_buffer,
          flush_state.output_offset, flush_state.last_back_ref_offset⟩
        = some flush_combined
      ∧ flush_combined.offset ≥ c_max_offset
      ∧ ∃ t, encode_flush flush_state = some t
          ∧ t.os.length = flush_state.os.length
              + ((shrink_output flush_combined.p_buffer flush_combined.offset).2 + 1)
          ∧ (shrink_output flush_combined.p_buffer flush_combined.offset).2
              ≤ flush_combined.offset
          ∧ t.output_offset = 0 :=
  ⟨flush_state_offset, flush_state_combine, flush_combined_offset,
    (C12_flushed_block_length flush_state).2 flush_combined flush_state_offset
      flush_state_combine flush_combined_offset⟩

/-! ## A block that ends with the first byte of a marker -/

/-- The body of the reading loop of `expand_input` on the byte `0x80` when no back-ref
has been recorded: the offset is recorded and the byte is stored. -/
theorem expand_byte_back_ref (s : expand_state) (h1 : s.process_steps = false)
    (h2 : s.had_marker = false) (h3 : s.back_refs = []) :
    expand_byte s 0x80
      = ({ s with back_refs := [s.length], last_ch := 0x80
                  p_buffer := wr s.p_buffer s.length 0x80 }, true) := by
  have f1 : ¬ ((0x80 &&& c_high_five_bits) = c_high_five_bits
      ∧ ¬ size_sub s.length 1 ∈ s.back_refs) := by
    have : (0x80 &&& c_high_five_bits) ≠ c_high_five_bits := by decide
    tauto
  have f2 : (0x80 &&& c_high_bit_value) ≠ 0
      ∧ ¬ size_sub s.length 1 ∈ s.back_refs
      ∧ ((0x80 &&& c_nibble_one) ≠ c_nibble_one
        ∨ size_sub s.length 2 ∈ s.back_refs
        ∨ map_count s.specials (size_sub s.length 2) = true) := by
    refine ⟨by decide, ?_, Or.inl (by decide)⟩
    rw [h3]
    exact List.not_mem_nil _
  have f3 : ¬ ((0x80 &&& c_nibble_one) = c_nibble_one
      ∧ ¬ size_sub s.length 1 ∈ set_insert nat_lt s.back_refs s.length
      ∧ ¬ size_sub s.length 2 ∈ set_insert nat_lt s.back_refs s.length
      ∧ map_count s.specials (size_sub s.length 2) = false) := by
    have : (0x80 &&& c_nibble_one) ≠ c_nibble_one := by decide
    tauto
  unfold expand_byte
  simp only [h1, h2, Bool.false_eq_true, if_false, if_neg f1, if_pos f2, if_neg f3]
  simp only [h3, set_insert]

theorem expand_input_lone_marker (a b c d : Nat) (ha : a < 128) (hb : b < 128) (hc : c < 128)
    (hd : d < 128) :
    expand_input [a, b, c, d, 0x80] c_max_encoded_chunk_size = ([a, b, c, d, 0x80], 5, []) := by
  unfold expand_input
  dsimp only
  rw [expand_read_literal _ a _ _ ha rfl rfl (by decide)]
  rw [expand_read_literal _ b _ _ hb rfl rfl (by show 0 + 1 + 1 < c_max_encoded_chunk_size; decide)]
  rw [expand_read_literal _ c _ _ hc rfl rfl
    (by show 0 + 1 + 1 + 1 < c_max_encoded_chunk_size; decide)]
  rw [expand_read_literal _ d _ _ hd rfl rfl
    (by show 0 + 1 + 1 + 1 + 1 < c_max_encoded_chunk_size; decide)]
  rw [expand_read, expand_byte_back_ref _ rfl rfl rfl]
  simp [expand_read, expand_specials, wr, c_max_encoded_chunk_size, c_max_offset,
    c_min_pat_length]

theorem scan_lone_marker (a b c d : Nat) (ha : a < 128) (hb : b < 128) (hc : c < 128)
    (hd : d < 128) :
    scan_meta_offsets [a, b, c, d, 0x80] 5 5 0 [] = [4] := by
  have h1 := (seven_bit a ha).1
  have h2 := (seven_bit b hb).1
  have h3 := (seven_bit c hc).1
  have h4 := (seven_bit d hd).1
  have s : size_sub 5 1 = 4 := by decide
  simp [scan_meta_offsets, rd, c_high_bit_value, h1, h2, h3, h4, s, set_insert]

theorem expand_meta_pattern_literals (a b c d : Nat) (ha : a < 128) :
    expand_meta_pattern [a, b, c, d, 0x80] expand_meta_fuel [0x80, 0x00] = some [a, b, c] := by
  have h1 := (seven_bit a ha).1
  have f : expand_meta_fuel = 32768 + 1 := rfl
  have l : marker_pat_length 0x80 = 3 := by decide
  have o : marker_pat_offset 0x80 0x00 = 0 := by decide
  rw [f, expand_meta_pattern]
  simp [l, o, rd_range, rd, List.range_succ, c_high_bit_value, h1]

theorem decode_block_lone_marker (a b c d : Nat) (ha : a < 128) (hb : b < 128) (hc : c < 128)
    (hd : d < 128) :
    decode_block [a, b, c, d, 0x80] 5 ⟨[], [], []⟩
      = some ⟨[[a, b, c]], [4], [a, b, c, d, a, b, c]⟩ := by
  have c0 : ¬ (5 ≤ c_min_pat_length) := by decide
  have s2 : size_sub 5 2 = 3 := by decide
  have p : rd_range [a, b, c, d, 0x80] 4 2 = [0x80, 0x00] := by
    simp [rd_range, rd, List.range_succ]
  have n : ¬ ((0x80 &&& c_nibble_one) = c_nibble_one) := by decide
  unfold decode_block
  simp only [if_neg c0, scan_lone_marker a b c d ha hb hc hd, List.reverse_singleton, s2]
  simp [walk_meta, walk_pair, p, n, expand_meta_pattern_literals a b c d ha, rd_range, rd,
    List.range_succ]

/-- C15 (as stated, refuted): the block `41 42 43 44 80` ends with the first byte of a
marker; the decoder does not report a failure but reads the zero cell after the block
as the second byte and writes `ABCD` followed by the three bytes at offset 0. -/
theorem C15_counterexample :
    decode_clz_data [0x41, 0x42, 0x43, 0x44, 0x80]
      = some [0x41, 0x42, 0x43, 0x44, 0x41, 0x42, 0x43] := by
  decide!

/-- C15 (amended): `decode_clz_data` has no failure report; when the last byte of a
block is the first byte of a marker, the missing second byte is read from the zero
filled cell after the block.  For all 7-bit bytes `a b c d` the block `a b c d 80` is
decoded as `a b c d` followed by the back-ref `80 00`, that is by `a b c`. -/
theorem C15_lone_marker_is_decoded (a b c d : Nat) (ha : a < 128) (hb : b < 128)
    (hc : c < 128) (hd : d < 128) :
    decode_clz_data [a, b, c, d, 0x80] = some [a, b, c, d, a, b, c] := by
  have c0 : ¬ ((5 : Nat) = 0) := by decide
  have c1 : (5 : Nat) < c_max_encoded_chunk_size := by decide
  unfold decode_clz_data
  rw [decode_loop]
  simp only [expand_input_lone_marker a b c d ha hb hc hd, if_neg c0,
    decode_block_lone_marker a b c d ha hb hc hd, if_pos c1, Option.map_some']

/-- Witness of C15 (amended) at the block `41 42 43 44 80`. -/
theorem C15_witness :
    (0x41 < 128 ∧ 0x42 < 128 ∧ 0x43 < 128 ∧ 0x44 < 128)
      ∧ decode_clz_data [0x41, 0x42, 0x43, 0x44, 0x80]
        = some [0x41, 0x42, 0x43, 0x44, 0x41, 0x42, 0x43] :=
  ⟨by decide, C15_lone_marker_is_decoded 0x41 0x42 0x43 0x44 (by decide) (by decide)
    (by decide) (by decide)⟩

/-! ## The number of special slots -/

theorem shrink_scratch_tables (p_buffer : Buf) (length : Nat) :
    shrink_scratch p_buffer length
      = append_specials (shrink_tables p_buffer length).1 (shrink_tables p_buffer length).2 :=
  rfl

theorem set_insert_length_le (l : List byte_pair) (k : byte_pair) :
    (set_insert pair_lt l k).length ≤ l.length + 1 := by
  induction l with
  | nil => simp [set_insert]
  | cons a l ih =>
    rw [set_insert]
    split_ifs
    · simp
    · simp
    · simp only [List.length_cons]
      omega

theorem mem_set_insert (l : List byte_pair) (k b : byte_pair) (h : b ∈ set_insert pair_lt l k) :
    b = k ∨ b ∈ l := by
  induction l with
  | nil =>
    simp only [set_insert, List.mem_singleton] at h
    exact Or.inl h
  | cons a l ih =>
    rw [set_insert] at h
    split_ifs at h with h1 h2
    · exact Or.inr h
    · rcases List.mem_cons.mp h with h | h
      · exact Or.inl h
      · exact Or.inr h
    · rcases List.mem_cons.mp h with h | h
      · exact Or.inr (h ▸ List.mem_cons_self _ _)
      · rcases ih h with h | h
        · exact Or.inl h
        · exact Or.inr (List.mem_cons_of_mem _ h)

theorem foldl_set_insert_length_le (xs : List (Nat × byte_pair)) (init : List byte_pair) :
    (xs.foldl (fun (s : List byte_pair) e => set_insert pair_lt s e.2) init).length
      ≤ init.length + xs.length := by
  induction xs generalizing init with
  | nil => simp
  | cons x xs ih =>
    simp only [List.foldl_cons, List.length_cons]
    have h1 := ih (set_insert pair_lt init x.2)
    have h2 := set_insert_length_le init x.2
    omega

theorem drop_length_le {A : Type} (l : List A) (n : Nat) : (l.drop (l.length - n)).length ≤ n := by
  rw [List.length_drop]
  omega

theorem select_specials_length (pairs : List (byte_pair × Nat)) :
    (select_specials pairs).length ≤ c_max_specials := by
  unfold select_specials
  dsimp only
  refine Nat.le_trans (foldl_set_insert_length_le _ _) ?_
  simp only [List.length_nil, Nat.zero_add]
  exact drop_length_le _ _

theorem pair_lt_irrefl (a : byte_pair) : pair_lt a a = false := by
  simp [pair_lt]

theorem pair_lt_trans (a b c : byte_pair) (h1 : pair_lt a b = true) (h2 : pair_lt b c = true) :
    pair_lt a c = true := by
  simp only [pair_lt, decide_eq_true_eq] at *
  omega

theorem pair_lt_total (a b : byte_pair) (h1 : a ≠ b) (h2 : pair_lt a b = false) :
    pair_lt b a = true := by
  have h3 : a.1 ≠ b.1 ∨ a.2 ≠ b.2 := by
    by_contra h
    push_neg at h
    exact h1 (Prod.ext h.1 h.2)
  simp only [pair_lt, decide_eq_true_eq, decide_eq_false_iff_not] at *
  omega

theorem set_insert_pairwise (l : List byte_pair) (k : byte_pair)
    (h : l.Pairwise (fun a b => pair_lt a b = true)) :
    (set_insert pair_lt l k).Pairwise (fun a b => pair_lt a b = true) := by
  induction l with
  | nil => simp [set_insert]
  | cons a l ih =>
    rw [List.pairwise_cons] at h
    rw [set_insert]
    split_ifs with h1 h2
    · exact List.pairwise_cons.mpr h
    · refine List.pairwise_cons.mpr ⟨?_, List.pairwise_cons.mpr h⟩
      intro b hb
      rcases List.mem_cons.mp hb with hb | hb
      · rw [hb]
        exact h2
      · exact pair_lt_trans k a b h2 (h.1 b hb)
    · refine List.pairwise_cons.mpr ⟨?_, ih h.2⟩
      intro b hb
      rcases mem_set_insert l k b hb with hb | hb
      · rw [hb]
        exact pair_lt_total k a (fun e => h1 e.symm) (by simpa using h2)
      · exact h.1 b hb

theorem foldl_set_insert_pairwise (xs : List (Nat × byte_pair)) (init : List byte_pair)
    (h : init.Pairwise (fun a b => pair_lt a b = true)) :
    (xs.foldl (fun (s : List byte_pair) e => set_insert pair_lt s e.2) init).Pairwise
      (fun a b => pair_lt a b = true) := by
  induction xs generalizing init with
  | nil => exact h
  | cons x xs ih =>
    simp only [List.foldl_cons]
    exact ih _ (set_insert_pairwise init x.2 h)

theorem select_specials_nodup (pairs : List (byte_pair × Nat)) :
    (select_specials pairs).Nodup := by
  have h : (select_specials pairs).Pairwise (fun a b => pair_lt a b = true) := by
    unfold select_specials
    dsimp only
    exact foldl_set_insert_pairwise _ _ List.Pairwise.nil
  refine List.Pairwise.imp ?_ h
  intro a b hab e
  rw [e, pair_lt_irrefl] at hab
  exact Bool.false_ne_true hab

theorem map_count_cons_false {V : Type} (a : byte_pair × V) (m : List (byte_pair × V))
    (k : byte_pair) (h : map_count (a :: m) k = false) : a.1 ≠ k ∧ map_count m k = false := by
  simp only [map_count, List.any_cons, Bool.or_eq_false_iff, decide_eq_false_iff_not] at h
  exact ⟨h.1, h.2⟩

theorem map_insert_length_new {V : Type} (m : List (byte_pair × V)) (k : byte_pair) (v : V)
    (h : map_count m k = false) : (map_insert pair_lt m k v).length = m.length + 1 := by
  induction m with
  | nil => simp [map_insert]
  | cons a m ih =>
    obtain ⟨h1, h2⟩ := map_count_cons_false a m k h
    obtain ⟨a1, a2⟩ := a
    rw [map_insert, if_neg h1]
    split_ifs
    · simp
    · simp only [List.length_cons, ih h2]

theorem mem_map_insert {V : Type} (m : List (byte_pair × V)) (k : byte_pair) (v : V)
    (e : byte_pair × V) (h : e ∈ map_insert pair_lt m k v) : e = (k, v) ∨ e ∈ m := by
  induction m with
  | nil =>
    simp only [map_insert, List.mem_singleton] at h
    exact Or.inl h
  | cons a m ih =>
    obtain ⟨a1, a2⟩ := a
    rw [map_insert] at h
    split_ifs at h with h1 h2
    · rcases List.mem_cons.mp h with h | h
      · exact Or.inl h
      · exact Or.inr (List.mem_cons_of_mem _ h)
    · rcases List.mem_cons.mp h with h | h
      · exact Or.inl h
      · exact Or.inr h
    · rcases List.mem_cons.mp h with h | h
      · exact Or.inr (h ▸ List.mem_cons_self _ _)
      · rcases ih h with h | h
        · exact Or.inl h
        · exact Or.inr (List.mem_cons_of_mem _ h)

theorem map_count_map_insert {V : Type} (m : List (byte_pair × V)) (k : byte_pair) (v : V)
    (q : byte_pair) :
    map_count (map_insert pair_lt m k v) q = true ↔ k = q ∨ map_count m q = true := by
  induction m with
  | nil => simp [map_insert, map_count]
  | cons a m ih =>
    obtain ⟨a1, a2⟩ := a
    rw [map_insert]
    split_ifs with h1 h2
    · simp only [map_count, List.any_cons, Bool.or_eq_true, decide_eq_true_eq, h1]
      tauto
    · simp only [map_count, List.any_cons, Bool.or_eq_true, decide_eq_true_eq]
    · have ih2 := ih
      simp only [map_count] at ih2
      simp only [map_count, List.any_cons, Bool.or_eq_true, decide_eq_true_eq, ih2]
      tauto

/-- The numbering of the specials, started from a map `m` that holds none of them: every
special gets a new entry; the number of the entry made in the empty map is `2 ^ 64 - 1`,
and every other number is below the number of entries minus one. -/
theorem number_specials_from (xs : List byte_pair) :
    ∀ m : List (byte_pair × Nat), xs.Nodup → (∀ p ∈ xs, map_count m p = false) →
      m.length + xs.length ≤ c_max_specials →
      (∀ e ∈ m, e.2 = 18446744073709551615 ∨ e.2 + 1 < m.length) →
      (xs.foldl (fun (m : List (byte_pair × Nat)) p =>
          map_insert pair_lt m p (size_sub m.length 1)) m).length = m.length + xs.length
        ∧ ∀ e ∈ xs.foldl (fun (m : List (byte_pair × Nat)) p =>
            map_insert pair_lt m p (size_sub m.length 1)) m,
          e.2 = 18446744073709551615 ∨ e.2 + 1 < m.length + xs.length := by
  induction xs with
  | nil =>
    intro m _ _ _ h4
    simpa using h4
  | cons x xs ih =>
    intro m h1 h2 h3 h4
    rw [List.nodup_cons] at h1
    simp only [List.length_cons, c_max_specials] at h3
    have hx : map_count m x = false := h2 x (List.mem_cons_self _ _)
    have hs : size_sub m.length 1 = 18446744073709551615
        ∨ size_sub m.length 1 + 1 < m.length + 1 := by
      unfold size_sub
      omega
    have hl := map_insert_length_new m x (size_sub m.length 1) hx
    have key := ih (map_insert pair_lt m x (size_sub m.length 1)) h1.2
      (by
        intro p hp
        have hne : x ≠ p := fun e => h1.1 (e ▸ hp)
        have hm := h2 p (List.mem_cons_of_mem _ hp)
        cases hc : map_count (map_insert pair_lt m x (size_sub m.length 1)) p with
        | false => rfl
        | true =>
          rcases (map_count_map_insert m x _ p).mp hc with h | h
          · exact absurd h hne
          · rw [hm] at h
            exact absurd h Bool.false_ne_true)
      (by
        rw [hl]
        simp only [c_max_specials]
        omega)
      (by
        intro e he
        rw [hl]
        rcases mem_map_insert m x _ e he with h | h
        · rw [h]
          exact hs
        · rcases h4 e h with h5 | h5
          · exact Or.inl h5
          · exact Or.inr (Nat.lt_succ_of_lt h5))
    simp only [List.foldl_cons, List.length_cons]
    rw [hl] at key
    have e : m.length + 1 + xs.length = m.length + (xs.length + 1) := by omega
    rw [e] at key
    exact key

theorem number_specials_length (pairs : List (byte_pair × Nat)) :
    (number_specials (select_specials pairs)).length = (select_specials pairs).length
      ∧ ∀ e ∈ number_specials (select_specials pairs),
          e.2 = 18446744073709551615 ∨ e.2 + 1 < (select_specials pairs).length := by
  have h := number_specials_from (select_specials pairs) [] (select_specials_nodup pairs)
    (by intro p _; rfl)
    (by simpa using select_specials_length pairs)
    (by intro e he; exact absurd he (List.not_mem_nil _))
  simpa [number_specials] using h

theorem extra_step_ok (num_specials : Nat) (repeated_specials : List byte_pair)
    (e : extra_state) (entry : Nat × byte_pair)
    (h : extras_ok num_specials repeated_specials e) :
    extras_ok num_specials repeated_specials
      (extra_step num_specials repeated_specials e entry) := by
  obtain ⟨h1, h2, h3, h4⟩ := h
  unfold extra_step
  by_cases hm : entry.2 ∈ repeated_specials
  · simp only [if_pos hm]
    cases hu : map_count e.repeated_specials_used entry.2 with
    | true =>
      simp only [if_true]
      exact ⟨h1, h2, h3, h4⟩
    | false =>
      simp only [Bool.false_eq_true, if_false]
      have hn : entry.2 ∉ e.extra_specials := by
        intro hc
        have := (h3 entry.2).mpr hc
        rw [hu] at this
        exact Bool.false_ne_true this
      refine ⟨?_, ?_, ?_, ?_⟩
      · exact List.Nodup.append h1 (List.nodup_singleton _)
          (by
            intro a ha hb
            rw [List.mem_singleton] at hb
            exact hn (hb ▸ ha))
      · intro p hp
        rcases List.mem_append.mp hp with hp | hp
        · exact h2 p hp
        · rw [List.mem_singleton] at hp
          rw [hp]
          exact hm
      · intro p
        rw [map_count_map_insert, List.mem_append, List.mem_singleton, h3 p]
        constructor
        · rintro (hp | hp)
          · exact Or.inr hp.symm
          · exact Or.inl hp
        · rintro (hp | hp)
          · exact Or.inr hp
          · exact Or.inl hp.symm
      · intro x hx
        simp only [List.length_append, List.length_singleton]
        rcases mem_map_insert _ _ _ x hx with hx | hx
        · rw [hx]
          omega
        · have := h4 x hx
          omega
  · simp only [if_neg hm]
    exact ⟨h1, h2, h3, h4⟩

theorem foldl_extra_step_ok (num_specials : Nat) (repeated_specials : List byte_pair)
    (entries : List (Nat × byte_pair)) (e : extra_state)
    (h : extras_ok num_specials repeated_specials e) :
    extras_ok num_specials repeated_specials
      (entries.foldl (extra_step num_specials repeated_specials) e) := by
  induction entries generalizing e with
  | nil => exact h
  | cons x xs ih =>
    simp only [List.foldl_cons]
    exact ih _ (extra_step_ok num_specials repeated_specials e x h)

theorem extras_ok_length (num_specials : Nat) (repeated_specials : List byte_pair)
    (e : extra_state) (h : extras_ok num_specials repeated_specials e) :
    e.extra_specials.length ≤ repeated_specials.length :=
  (List.Nodup.subperm h.1 h.2.1).length_le

/-- The extra specials: at most `available_specials` of them are installed, and the
numbers used for their markers are below `num_specials` plus their count. -/
theorem shrink_extras_bound (num_specials available_specials : Nat) (s : shrink_state) :
    (shrink_extras num_specials available_specials s).extra_specials.length
        ≤ available_specials
      ∧ ∀ x ∈ (shrink_extras num_specials available_specials s).repeated_specials_used,
          x.2 < num_specials
            + (shrink_extras num_specials available_specials s).extra_specials.length := by
  have e0 : ∀ rs : List byte_pair,
      extras_ok num_specials rs (⟨s.shrunken, s.num, 0, [], []⟩ : extra_state) := by
    intro rs
    refine ⟨List.nodup_nil, ?_, ?_, ?_⟩
    · intro p hp
      exact absurd hp (List.not_mem_nil _)
    · intro p
      simp [map_count]
    · intro x hx
      exact absurd hx (List.not_mem_nil _)
  unfold shrink_extras
  dsimp only
  by_cases hemp : s.repeated_special_counts.isEmpty = true
  · simp only [hemp, if_true]
    exact ⟨Nat.zero_le _, fun x hx => absurd hx (List.not_mem_nil _)⟩
  · simp only [hemp, Bool.false_eq_true, if_false]
    generalize hord : (List.drop _ _ : List (Nat × byte_pair)) = ordered
    have hlen : ordered.length ≤ available_specials := by
      rw [← hord]
      exact drop_length_le _ _
    generalize hmar : (match ordered with
      | [e] => decide (e.1 = 3)
      | _ => false) = marginal
    have hlen2 : (if marginal = true then [] else ordered).length ≤ available_specials := by
      split_ifs
      · exact Nat.zero_le _
      · exact hlen
    generalize (if marginal = true then [] else ordered) = ordered2 at hlen2
    have hrs := foldl_set_insert_length_le ordered2 []
    simp only [List.length_nil, Nat.zero_add] at hrs
    have hok := foldl_extra_step_ok num_specials
      (ordered2.foldl (fun (r : List byte_pair) e => set_insert pair_lt r e.2) [])
      (if marginal = true then [] else s.repeated_special_offsets) _ (e0 _)
    exact ⟨Nat.le_trans (extras_ok_length _ _ _ hok) (Nat.le_trans hrs hlen2), hok.2.2.2⟩

theorem special_marker_range (k : Nat) (h : k < c_max_specials) :
    0xfa ≤ to_byte (size_sub c_special_maxval k)
      ∧ to_byte (size_sub c_special_maxval k) ≤ 0xff := by
  unfold c_max_specials at h
  unfold to_byte size_sub c_special_maxval
  omega

/-- The special slots of `shrink_output`, for every block: the ordinary specials and
the extra specials together are at most `c_max_specials = 6`; every number used for an
extra special is below that total, so that its marker byte `0xff - number` lies in
`0xfa..0xff`; a number in the map `special_nums` is either below the number of specials
minus one, with a marker byte in `0xfa..0xff`, or it is `2 ^ 64 - 1`, the number of the
first special, whose marker byte is `0x00`. -/
theorem special_slots_bound (p_buffer : Buf) (length : Nat) :
    (shrink_tables p_buffer length).1.length
        + (shrink_tables p_buffer length).2.extra_specials.length ≤ c_max_specials
      ∧ (∀ e ∈ number_specials (shrink_tables p_buffer length).1,
          (e.2 = 18446744073709551615 ∧ to_byte (size_sub c_special_maxval e.2) = 0x00)
            ∨ (0xfa ≤ to_byte (size_sub c_special_maxval e.2)
              ∧ to_byte (size_sub c_special_maxval e.2) ≤ 0xff))
      ∧ (∀ x ∈ (shrink_tables p_buffer length).2.repeated_specials_used,
          0xfa ≤ to_byte (size_sub c_special_maxval x.2)
            ∧ to_byte (size_sub c_special_maxval x.2) ≤ 0xff) := by
  have hl := select_specials_length (count_pairs p_buffer length length 0 [])
  obtain ⟨hn1, hn2⟩ := number_specials_length (count_pairs p_buffer length length 0 [])
  obtain ⟨s, hs⟩ : ∃ s : shrink_state, shrink_tables p_buffer length
      = (select_specials (count_pairs p_buffer length length 0 []),
        shrink_extras (select_specials (count_pairs p_buffer length length 0 [])).length
          (c_max_specials
            - (number_specials (select_specials (count_pairs p_buffer length length 0 []))).length)
          s) := ⟨_, rfl⟩
  rw [hs]
  dsimp only
  obtain ⟨hb1, hb2⟩ := shrink_extras_bound
    (select_specials (count_pairs p_buffer length length 0 [])).length
    (c_max_specials
      - (number_specials (select_specials (count_pairs p_buffer length length 0 []))).length) s
  rw [hn1] at hb1 hb2
  have total : (select_specials (count_pairs p_buffer length length 0 [])).length
      + (shrink_extras (select_specials (count_pairs p_buffer length length 0 [])).length
          (c_max_specials
            - (select_specials (count_pairs p_buffer length length 0 [])).length)
          s).extra_specials.length ≤ c_max_specials := by
    omega
  rw [hn1]
  refine ⟨total, ?_, ?_⟩
  · intro e he
    rcases hn2 e he with h | h
    · left
      refine ⟨h, ?_⟩
      rw [h]
      decide
    · right
      exact special_marker_range e.2 (by omega)
  · intro x hx
    exact special_marker_range x.2 (Nat.lt_of_lt_of_le (hb2 x hx) total)

/-- C16 (code bug): in the block `80 00 41 80 01 42 80 00 43 80 01 44 80 00 45 80 01` the
pairs `80 00` and `80 01` occur three times each and are the two specials.  The number of
`80 00` in `special_nums` is `2 ^ 64 - 1` and its marker byte is `0x00`, outside
`0xfa..0xff`; `80 01` has the number 0 and the marker `0xff`.  On the 7-bit input
`ABC1ABC2ABC3ABC4` the block of the encoder holds the back-ref `80 00` three times; the
output has the byte `00` in its place three times, and the decoder does not return the
input. -/
theorem C16_first_special_marker_is_zero :
    (shrink_tables [0x80, 0x00, 0x41, 0x80, 0x01, 0x42, 0x80, 0x00, 0x43, 0x80, 0x01, 0x44,
        0x80, 0x00, 0x45, 0x80, 0x01] 17).1 = [(0x80, 0x00), (0x80, 0x01)]
      ∧ number_specials [(0x80, 0x00), (0x80, 0x01)]
        = [((0x80, 0x00), 18446744073709551615), ((0x80, 0x01), 0)]
      ∧ shrink_block [0x80, 0x00, 0x41, 0x80, 0x01, 0x42, 0x80, 0x00, 0x43, 0x80, 0x01, 0x44,
          0x80, 0x00, 0x45, 0x80, 0x01]
        = [0x00, 0x41, 0xff, 0x42, 0x00, 0x43, 0xff, 0x44, 0x00, 0x45, 0xff,
            0x80, 0x00, 0x80, 0x01]
      ∧ encode_unshrunk [0x41, 0x42, 0x43, 0x31, 0x41, 0x42, 0x43, 0x32, 0x41, 0x42, 0x43, 0x33,
          0x41, 0x42, 0x43, 0x34]
        = some [0x41, 0x42, 0x43, 0x31, 0x80, 0x00, 0x32, 0x80, 0x00, 0x33, 0x80, 0x00, 0x34]
      ∧ encode_clz_data [0x41, 0x42, 0x43, 0x31, 0x41, 0x42, 0x43, 0x32, 0x41, 0x42, 0x43, 0x33,
          0x41, 0x42, 0x43, 0x34]
        = some [0x41, 0x42, 0x43, 0x31, 0x00, 0x32, 0x00, 0x33, 0x00, 0x34, 0x80, 0x00]
      ∧ decode_clz_data [0x41, 0x42, 0x43, 0x31, 0x00, 0x32, 0x00, 0x33, 0x00, 0x34, 0x80, 0x00]
        = some [0x41, 0x42, 0x43, 0x31, 0x00, 0x32, 0x00, 0x33, 0x00, 0x34, 0x41, 0x42, 0x43] := by
  decide!

/-! ## The bound on `output_offset` -/

theorem combine_meta_patterns_offset_le (c c' : combine_state) (b : Bool)
    (h : combine_meta_patterns c = some (c', b)) : c'.offset ≤ c.offset := by
  unfold combine_meta_patterns at h
  dsimp only at h
  split_ifs at h
  all_goals
    first
      | (rw [← (Prod.mk.inj (Option.some.inj h)).1])
      | (simp only [Option.map_eq_some'] at h
         obtain ⟨m, -, hm⟩ := h
         rw [← (Prod.mk.inj hm).1]
         try exact Nat.sub_le _ _)

theorem perform_combines_loop_offset_le (n : Nat) (c c' : combine_state)
    (h : perform_combines_loop n c = some c') : c'.offset ≤ c.offset := by
  induction n generalizing c with
  | zero =>
    rw [perform_combines_loop] at h
    rw [← Option.some.inj h]
  | succ n ih =>
    rw [perform_combines_loop] at h
    split at h
    · exact absurd h (by simp)
    · rename_i u hu
      exact Nat.le_trans (ih u h) (combine_meta_patterns_offset_le _ _ _ hu)
    · rename_i u hu
      rw [← Option.some.inj h]
      exact combine_meta_patterns_offset_le _ _ _ hu

theorem perform_meta_combines_offset_le (c c' : combine_state)
    (h : perform_meta_combines c = some c') : c'.offset ≤ c.offset :=
  perform_combines_loop_offset_le _ _ _ h

theorem replace_meta_pattern_end_offset_le (meta_patterns : meta_pattern_info) (p_buffer : Buf)
    (offset new_byte1 new_byte2 end_offset last_pattern_offset : Nat) (r : replace_result)
    (h : replace_meta_pattern meta_patterns p_buffer offset new_byte1 new_byte2 end_offset
      last_pattern_offset = some r) : r.end_offset ≤ end_offset := by
  unfold replace_meta_pattern at h
  dsimp only at h
  split_ifs at h
  all_goals
    first
      | (rw [← Option.some.inj h])
      | (simp only [Option.map_eq_some'] at h
         obtain ⟨m, -, hm⟩ := h
         rw [← hm])
      | (split at h
         · exact absurd h (by simp)
         · split at h
           · exact absurd h (by simp)
           · rename_i c hc
             rw [← Option.some.inj h]
             exact perform_meta_combines_offset_le _ _ hc)

theorem replace_extra_pattern_offset_le (extra_patterns : List (List Nat × Nat))
    (pattern : List Nat) (p_buffer : Buf) (output_offset : Nat) :
    (replace_extra_pattern extra_patterns pattern p_buffer output_offset).2.2.1
      ≤ output_offset := by
  unfold replace_extra_pattern
  dsimp only
  split_ifs
  all_goals first
    | exact Nat.le_refl _
    | exact Nat.sub_le _ _

theorem emit_pair_repeat_output_offset (s t : encode_state) (h : emit_pair_repeat s = some t) :
    t.output_offset ≤ s.output_offset + 2 := by
  unfold emit_pair_repeat at h
  simp only [Option.map_eq_some'] at h
  obtain ⟨r, hr, hrt⟩ := h
  have hle := replace_meta_pattern_end_offset_le _ _ _ _ _ _ _ _ hr
  rw [← hrt]
  split_ifs
  · exact Nat.le_trans hle (Nat.le_add_right _ _)
  · exact Nat.add_le_add_right hle 2

theorem emit_literals_output_offset (s : encode_state) (guard : Bool)
    (pattern_bytes count : Nat) :
    (emit_literals s guard pattern_bytes count).output_offset ≤ s.output_offset + count := by
  unfold emit_literals
  dsimp only
  split_ifs
  · exact Nat.le_trans (replace_extra_pattern_offset_le _ _ _ _) (Nat.le_add_right _ _)
  · exact Nat.add_le_add_right (replace_extra_pattern_offset_le _ _ _ _) _
  · exact absurd ‹_› (by simp)
  · exact Nat.le_refl _

theorem encode_read_output_offset (s : encode_state) :
    (encode_read s).output_offset = s.output_offset := by
  unfold encode_read
  split <;> rfl

theorem encode_refill_output_offset (fuel : Nat) (s : encode_state) :
    (encode_refill fuel s).output_offset = s.output_offset := by
  induction fuel generalizing s with
  | zero => rfl
  | succ n ih =>
    unfold encode_refill
    dsimp only
    split_ifs <;>
      first
        | rfl
        | exact encode_read_output_offset s
        | (rw [ih]; exact encode_read_output_offset s)

/-- The short branch adds at most the two bytes of a pair repeat and the literals; it
leaves the main loop exactly when fewer than `c_min_pat_length` bytes are in the input
buffer. -/
theorem encode_short_output_offset (s t : encode_state) (b : Bool)
    (h : encode_short s = some (t, b)) :
    t.output_offset ≤ s.output_offset + 2 + min s.num c_min_pat_length
      ∧ (b = true ↔ s.num < c_min_pat_length) := by
  unfold encode_short at h
  simp only [Option.map_eq_some'] at h
  obtain ⟨u, hu, hut⟩ := h
  have h1 : u.output_offset ≤ s.output_offset + 2 ∧ u.num = s.num := by
    split_ifs at hu
    · constructor
      · exact emit_pair_repeat_output_offset _ _ hu
      · unfold emit_pair_repeat at hu
        simp only [Option.map_eq_some'] at hu
        obtain ⟨r, -, hr⟩ := hu
        rw [← hr]
        split_ifs <;> rfl
    · rw [← Option.some.inj hu]
      exact ⟨Nat.le_add_right _ _, rfl⟩
  have h2 : ∀ g pb cnt, (emit_literals { u with last_pair := (0, 0), last_pair_repeats := 0 }
      g pb cnt).num = u.num := by
    intro g pb cnt
    unfold emit_literals
    dsimp only
    split_ifs <;> rfl
  have h3 := emit_literals_output_offset { u with last_pair := (0, 0), last_pair_repeats := 0 }
    (decide (u.num < c_min_pat_length)) u.num (min u.num c_min_pat_length)
  dsimp only at hut h3
  rw [h2] at hut
  split_ifs at hut with hn
  · obtain ⟨e1, e2⟩ := Prod.mk.inj hut
    rw [← e1, ← e2, ← h1.2]
    refine ⟨?_, by simp [hn]⟩
    have := h1.1
    omega
  · obtain ⟨e1, e2⟩ := Prod.mk.inj hut
    rw [← e1, ← e2, ← h1.2]
    refine ⟨?_, by simp [hn]⟩
    have := h1.1
    show (emit_literals _ _ _ _).output_offset ≤ _
    omega

theorem encode_no_match_output_offset (s t : encode_state) (length : Nat)
    (h : encode_no_match s length = some t) :
    t.output_offset ≤ s.output_offset + 2 + length := by
  unfold encode_no_match at h
  dsimp only at h
  split at h
  · exact absurd h (by simp)
  · rename_i u hu
    simp only [Option.map_eq_some'] at h
    obtain ⟨c, hc, hct⟩ := h
    have hle := perform_meta_combines_offset_le _ _ hc
    have hl := emit_literals_output_offset u (decide (length < c_min_pat_length)) length length
    have e : t.output_offset = c.offset := by
      rw [← hct]
    have hu2 : u.output_offset ≤ s.output_offset + 2 := by
      split_ifs at hu
      · rw [← Option.some.inj hu]
        exact Nat.le_add_right _ _
      · simp only [Option.map_eq_some'] at hu
        obtain ⟨v, hv, hvu⟩ := hu
        have hv2 := emit_pair_repeat_output_offset _ _ hv
        rw [← hvu]
        exact hv2
      · simp only [Option.map_some', Option.some.injEq] at hu
        rw [← hu]
        exact Nat.le_add_right _ _
    rw [e]
    simp only [encode_consume] at hle
    omega

theorem encode_chain_output_offset (s t : encode_state) (length byte1 byte2 : Nat)
    (h : encode_chain s length byte1 byte2 = some t) : t.output_offset ≤ s.output_offset := by
  unfold encode_chain at h
  simp only [Option.map_eq_some'] at h
  obtain ⟨r, hr, hrt⟩ := h
  have hle : r.end_offset ≤ s.output_offset := by
    split_ifs at hr
    · exact replace_meta_pattern_end_offset_le _ _ _ _ _ _ _ _ hr
    · rw [← Option.some.inj hr]
  rw [← hrt]
  split_ifs <;> exact hle

theorem encode_back_ref_output_offset (s t : encode_state) (length byte1 byte2 : Nat)
    (same : Bool) (h : encode_back_ref s length byte1 byte2 same = some t) :
    t.output_offset ≤ s.output_offset + 2 := by
  unfold encode_back_ref at h
  dsimp only at h
  split_ifs at h
  all_goals
    first
      | (rw [← Option.some.inj h]
         done)
      | (rw [← Option.some.inj h]
         exact Nat.le_add_right _ _)
      | exact Nat.le_trans (encode_chain_output_offset _ _ _ _ _ h) (Nat.le_add_right _ _)

theorem encode_match_output_offset (s t : encode_state) (length offset : Nat)
    (h : encode_match s length offset = some t) : t.output_offset ≤ s.output_offset + 4 := by
  unfold encode_match at h
  dsimp only at h
  split_ifs at h
  · split at h
    · exact absurd h (by simp)
    · rename_i u hu
      have h1 := emit_pair_repeat_output_offset _ _ hu
      have h2 := encode_back_ref_output_offset _ _ _ _ _ _ h
      dsimp only at h2
      omega
  · have h2 := encode_back_ref_output_offset _ _ _ _ _ _ h
    omega

/-- The end of a round leaves the block shorter than `c_max_offset`. -/
theorem encode_flush_output_offset (s t : encode_state) (h : encode_flush s = some t) :
    t.output_offset < c_max_offset := by
  unfold encode_flush at h
  simp only [Option.map_eq_some'] at h
  obtain ⟨u, -, hut⟩ := h
  rw [← hut]
  split_ifs with hc
  · show 0 < c_max_offset
    decide
  · exact Nat.lt_of_not_le hc

/-- The step of a round between the back-ref search and the flush adds at most four
bytes to the block. -/
theorem encode_step_output_offset (s u : encode_state)
    (h : (if (find_back_ref s).1 < c_min_pat_length then encode_no_match s (find_back_ref s).1
      else encode_match s (find_back_ref s).1 (find_back_ref s).2) = some u) :
    u.output_offset ≤ s.output_offset + 4 := by
  split_ifs at h with hl
  · have := encode_no_match_output_offset _ _ _ h
    unfold c_min_pat_length at hl
    omega
  · exact encode_match_output_offset _ _ _ _ h

theorem encode_search_output_offset (s t : encode_state) (h : encode_search s = some t) :
    t.output_offset < c_max_offset := by
  unfold encode_search at h
  dsimp only at h
  split at h
  · exact absurd h (by simp)
  · exact encode_flush_output_offset _ _ h

/-- One round of the main loop from a block shorter than `c_max_offset`: a round that
stays in the loop leaves the block shorter than `c_max_offset`, and a round that leaves
the loop leaves it so or at most three bytes longer with no pair repeat pending. -/
theorem encode_round_output_offset (s t : encode_state) (b : Bool)
    (hs : s.output_offset < c_max_offset) (h : encode_round s = some (t, b)) :
    (b = false → t.output_offset < c_max_offset)
      ∧ (t.output_offset < c_max_offset
        ∨ (t.output_offset ≤ c_max_offset + 3 ∧ t.last_pair_repeats = 0)) := by
  unfold encode_round at h
  dsimp only at h
  have hr := encode_refill_output_offset (c_max_pat_length + 2) s
  split_ifs at h
  · obtain ⟨e1, e2⟩ := Prod.mk.inj (Option.some.inj h)
    rw [← e1, ← e2, hr]
    exact ⟨fun _ => hs, Or.inl hs⟩
  · split at h
    · exact absurd h (by simp)
    · rename_i u hu
      obtain ⟨e1, e2⟩ := Prod.mk.inj (Option.some.inj h)
      obtain ⟨h1, h2⟩ := encode_short_output_offset _ _ _ hu
      have h3 := encode_short_last_pair_repeats _ _ _ hu
      have h4 := h2.mp rfl
      rw [← e1, ← e2]
      refine ⟨fun hb => absurd hb (by simp), Or.inr ⟨?_, h3⟩⟩
      rw [hr] at h1
      unfold c_min_pat_length at h1 h4
      omega
    · rename_i u hu
      simp only [Option.map_eq_some'] at h
      obtain ⟨w, hw, hwt⟩ := h
      rw [← (Prod.mk.inj hwt).1]
      have := encode_search_output_offset _ _ hw
      exact ⟨fun _ => this, Or.inl this⟩
  · simp only [Option.map_eq_some'] at h
    obtain ⟨w, hw, hwt⟩ := h
    rw [← (Prod.mk.inj hwt).1]
    have := encode_search_output_offset _ _ hw
    exact ⟨fun _ => this, Or.inl this⟩

theorem encode_rounds_output_offset (n : Nat) (s t : encode_state)
    (hs : s.output_offset < c_max_offset) (h : encode_rounds n s = some t) :
    t.output_offset < c_max_offset
      ∨ (t.output_offset ≤ c_max_offset + 3 ∧ t.last_pair_repeats = 0) := by
  induction n generalizing s with
  | zero =>
    rw [← Option.some.inj h]
    exact Or.inl hs
  | succ n ih =>
    unfold encode_rounds at h
    split at h
    · exact absurd h (by simp)
    · rename_i u hu
      rw [← Option.some.inj h]
      exact (encode_round_output_offset _ _ _ hs hu).2
    · rename_i u hu
      exact ih u ((encode_round_output_offset _ _ _ hs hu).1 rfl) h

theorem encode_last_block_offset (s : encode_state) (b : Buf × Nat)
    (hs : s.output_offset < c_max_offset
      ∨ (s.output_offset ≤ c_max_offset + 3 ∧ s.last_pair_repeats = 0))
    (h : encode_last_block s = some b) : b.2 ≤ c_max_offset + 3 := by
  unfold encode_last_block at h
  dsimp only at h
  split at h
  · exact absurd h (by simp)
  · rename_i u hu
    have hu2 : u.output_offset ≤ c_max_offset + 3 := by
      split_ifs at hu with hp
      · have := emit_pair_repeat_output_offset _ _ hu
        rcases hs with hs | hs
        · omega
        · exact absurd hs.2 hp
      · rw [← Option.some.inj hu]
        rcases hs with hs | hs
        · omega
        · exact hs.1
    split_ifs at h
    · simp only [Option.map_eq_some'] at h
      obtain ⟨c, hc, hcb⟩ := h
      have := perform_meta_combines_offset_le _ _ hc
      rw [← hcb]
      exact Nat.le_trans this hu2
    · rw [← Option.some.inj h]
      exact Nat.zero_le _

/-- C19: `output_offset` never exceeds 4098.  After any number of rounds of the main
loop, on any input, it is at most 4098, and so is the length of the last block after
the closing pair-repeat flush and combining.  Within a round that starts below
`c_max_offset = 4095` (as every round does), the short branch and the step between the
back-ref search and the flush leave it at most 4098, and a round that stays in the loop
ends below `c_max_offset`. -/
theorem C19_output_offset_bound :
    (∀ (is : List Nat) (n : Nat) (s : encode_state),
        encode_rounds n (encode_init is) = some s →
          s.output_offset ≤ 4098 ∧ ∀ b, encode_last_block s = some b → b.2 ≤ 4098)
      ∧ ∀ s : encode_state, s.output_offset < c_max_offset →
          (∀ u b, ((encode_refill (c_max_pat_length + 2) s).num < c_min_pat_length
              ∨ s.output_offset < c_min_pat_length) →
            encode_short (encode_refill (c_max_pat_length + 2) s) = some (u, b) →
            u.output_offset ≤ 4098 ∧ (b = false → u.output_offset < c_max_offset))
          ∧ (∀ s1 u, s1.output_offset < c_max_offset →
              (if (find_back_ref s1).1 < c_min_pat_length
                then encode_no_match s1 (find_back_ref s1).1
                else encode_match s1 (find_back_ref s1).1 (find_back_ref s1).2) = some u →
              u.output_offset ≤ 4098)
          ∧ ∀ t b, encode_round s = some (t, b) →
              t.output_offset ≤ 4098 ∧ (b = false → t.output_offset < c_max_offset) := by
  have c : c_max_offset = 4095 := rfl
  have m : c_min_pat_length = 3 := rfl
  refine ⟨?_, ?_⟩
  · intro is n s h
    have hj := encode_rounds_output_offset n (encode_init is) s
      (by show 0 < c_max_offset; decide) h
    refine ⟨?_, ?_⟩
    · rcases hj with hj | hj
      · omega
      · have := hj.1
        omega
    · intro b hb
      have := encode_last_block_offset s b hj hb
      omega
  · intro s hs
    have hr := encode_refill_output_offset (c_max_pat_length + 2) s
    refine ⟨?_, ?_, ?_⟩
    · intro u b hc hu
      obtain ⟨h1, h2⟩ := encode_short_output_offset _ _ _ hu
      rw [hr] at h1
      constructor
      · rcases hc with hc | hc
        · omega
        · omega
      · intro hb
        have h3 : ¬ (encode_refill (c_max_pat_length + 2) s).num < c_min_pat_length := by
          intro hlt
          have := h2.mpr hlt
          rw [hb] at this
          exact Bool.false_ne_true this
        rcases hc with hc | hc
        · exact absurd hc h3
        · omega
    · intro s1 u h1 hu
      have := encode_step_output_offset s1 u hu
      omega
    · intro t b h
      obtain ⟨h1, h2⟩ := encode_round_output_offset s t b hs h
      refine ⟨?_, h1⟩
      rcases h2 with h2 | h2
      · omega
      · have := h2.1
        omega

/-- C19 at the state of the encoder four rounds into the input `ABC` repeated five
times: the block holds the five bytes `41 42 43 80 00`. -/
theorem C19_witness :
    (encode_rounds 4 (encode_init (List.replicate 5 [0x41, 0x42, 0x43]).flatten)).map
        (fun s => s.output_offset) = some 5
      ∧ ∀ s : encode_state,
          encode_rounds 4 (encode_init (List.replicate 5 [0x41, 0x42, 0x43]).flatten) = some s →
            s.output_offset ≤ 4098 ∧ ∀ b, encode_last_block s = some b → b.2 ≤ 4098 :=
  ⟨by decide!, fun s h => C19_output_offset_bound.1 _ 4 s h⟩

/-! ## The meta-pattern dictionary -/

theorem map_count_eq_isSome {K V : Type} [DecidableEq K] (m : List (K × V)) (k : K) :
    map_count m k = (map_find m k).isSome := by
  unfold map_count map_find
  induction m with
  | nil => rfl
  | cons a m ih =>
    by_cases h : a.1 = k
    · simp [List.find?, h]
    · simp only [List.any_cons, List.find?, h, decide_False, Bool.false_or]
      exact ih

theorem map_get_eq_getD {K V : Type} [DecidableEq K] (m : List (K × V)) (k : K) (d : V) :
    map_get m k d = (map_find m k).getD d := by
  unfold map_get map_find
  cases h : m.find? (fun e => decide (e.1 = k)) <;> rfl

theorem map_find_cons {K V : Type} [DecidableEq K] (a : K × V) (m : List (K × V)) (k : K) :
    map_find (a :: m) k = if a.1 = k then some a.2 else map_find m k := by
  unfold map_find
  by_cases h : a.1 = k
  · simp [List.find?, h]
  · simp [List.find?, h]

theorem map_find_nil {K V : Type} [DecidableEq K] (k : K) :
    map_find ([] : List (K × V)) k = none := rfl

theorem map_find_insert {K V : Type} [DecidableEq K] (lt : K → K → Bool) (m : List (K × V))
    (k : K) (v : V) (k' : K) :
    map_find (map_insert lt m k v) k' = if k' = k then some v else map_find m k' := by
  induction m with
  | nil =>
    rw [map_insert, map_find_cons, map_find_nil]
    by_cases h : k' = k
    · rw [if_pos h, if_pos h.symm]
    · rw [if_neg h, if_neg (fun e => h e.symm)]
  | cons a m ih =>
    obtain ⟨ka, va⟩ := a
    rw [map_insert]
    by_cases h1 : ka = k
    · rw [if_pos h1, map_find_cons, map_find_cons]
      by_cases h : k' = k
      · rw [if_pos h, if_pos h.symm]
      · rw [if_neg h, if_neg (fun e => h e.symm), if_neg (fun e => h (e.symm.trans h1))]
    · rw [if_neg h1]
      by_cases h2 : lt k ka = true
      · rw [if_pos h2, map_find_cons]
        by_cases h : k' = k
        · rw [if_pos h, if_pos h.symm]
        · rw [if_neg h, if_neg (fun e => h e.symm)]
      · rw [if_neg h2, map_find_cons, map_find_cons, ih]
        by_cases h : k' = k
        · rw [if_pos h, if_neg (fun e => h1 (e.trans h)), if_pos h]
        · rw [if_neg h, if_neg h]

theorem map_find_erase {K V : Type} [DecidableEq K] (m : List (K × V)) (k k' : K) :
    map_find (map_erase m k) k' = if k' = k then none else map_find m k' := by
  unfold map_erase
  induction m with
  | nil =>
    rw [List.filter_nil, map_find_nil, ite_self]
  | cons a m ih =>
    by_cases h1 : a.1 = k
    · have e : List.filter (fun e => !decide (e.1 = k)) (a :: m)
          = List.filter (fun e => !decide (e.1 = k)) m := by
        simp [List.filter, h1]
      rw [e, ih, map_find_cons]
      by_cases h : k' = k
      · rw [if_pos h, if_pos h]
      · rw [if_neg h, if_neg h, if_neg (fun e => h (e.symm.trans h1))]
    · have e : List.filter (fun e => !decide (e.1 = k)) (a :: m)
          = a :: List.filter (fun e => !decide (e.1 = k)) m := by
        simp [List.filter, h1]
      rw [e, map_find_cons, map_find_cons, ih]
      by_cases h : k' = k
      · rw [if_pos h, if_pos h, if_neg (fun e => h1 (e.trans h))]
      · rw [if_neg h, if_neg h]

/-- The pair of `add_pattern` on every 12 bit offset: the bytes are the ones built from
the offset shifted right, and the formula of the decoder reads the offset back. -/
theorem pattern_pair_table :
    ((List.range 4096).all fun o =>
      decide (pattern_pair o = (0x90 ||| ((o >>> 8) &&& 0x0f), o &&& 0xff)
        ∧ (((pattern_pair o).1 &&& 0x0f) <<< 8) + (pattern_pair o).2 = o)) = true := by
  decide!

theorem pattern_pair_spec (o : Nat) (ho : o ≤ 4095) :
    pattern_pair o = (0x90 ||| ((o >>> 8) &&& 0x0f), o &&& 0xff)
      ∧ (((pattern_pair o).1 &&& 0x0f) <<< 8) + (pattern_pair o).2 = o := by
  have h := pattern_pair_table
  rw [List.all_eq_true] at h
  exact of_decide_eq_true (h o (List.mem_range.mpr (by omega)))

theorem pattern_pair_mod (o : Nat) : pattern_pair o = pattern_pair (o % 4096) := by
  have h1 : o &&& 0x0f00 = (o % 4096) &&& 0x0f00 := by
    have e := Nat.and_pow_two_sub_one_eq_mod o 12
    rw [show (4096 : Nat) = 2 ^ 12 from rfl, ← e, Nat.land_assoc]
    rfl
  have h2 : o &&& 0x00ff = (o % 4096) &&& 0x00ff := by
    have e := Nat.and_pow_two_sub_one_eq_mod o 12
    rw [show (4096 : Nat) = 2 ^ 12 from rfl, ← e, Nat.land_assoc]
    rfl
  unfold pattern_pair
  rw [h1, h2]

/-- The offset read back from the pair of `add_pattern` is the offset modulo 4096. -/
theorem pattern_pair_offset (o : Nat) :
    (((pattern_pair o).1 &&& 0x0f) <<< 8) + (pattern_pair o).2 = o % 4096 := by
  rw [pattern_pair_mod]
  exact (pattern_pair_spec (o % 4096) (by omega)).2

theorem has_offset_iff (m : meta_pattern_info) (o : Nat) :
    m.has_offset o = true ↔ ∃ p, map_find m.offsets o = some p := by
  unfold meta_pattern_info.has_offset
  rw [map_count_eq_isSome, Option.isSome_iff_exists]

theorem has_pattern_iff (m : meta_pattern_info) (p : meta_pattern) :
    m.has_pattern p = true ↔ ∃ v, map_find m.patterns p = some v := by
  unfold meta_pattern_info.has_pattern
  rw [map_count_eq_isSome, Option.isSome_iff_exists]

theorem has_offset_false_iff (m : meta_pattern_info) (o : Nat) :
    m.has_offset o = false ↔ map_find m.offsets o = none := by
  unfold meta_pattern_info.has_offset
  rw [map_count_eq_isSome]
  cases map_find m.offsets o <;> simp

theorem has_pattern_false_iff (m : meta_pattern_info) (p : meta_pattern) :
    m.has_pattern p = false ↔ map_find m.patterns p = none := by
  unfold meta_pattern_info.has_pattern
  rw [map_count_eq_isSome]
  cases map_find m.patterns p <;> simp

theorem find_offsets_add (m : meta_pattern_info) (p : meta_pattern) (o o' : Nat) :
    map_find (m.add_pattern p o).offsets o' = if o' = o then some p else map_find m.offsets o' := by
  unfold meta_pattern_info.add_pattern
  exact map_find_insert _ _ _ _ _

theorem find_patterns_add (m : meta_pattern_info) (p p' : meta_pattern) (o : Nat) :
    map_find (m.add_pattern p o).patterns p'
      = if p' = p then some (pattern_pair o) else map_find m.patterns p' := by
  unfold meta_pattern_info.add_pattern
  exact map_find_insert _ _ _ _ _

theorem find_offsets_remove (m : meta_pattern_info) (o o' : Nat) :
    map_find (m.remove_at_offset o).offsets o' = if o' = o then none else map_find m.offsets o' := by
  unfold meta_pattern_info.remove_at_offset
  by_cases h : m.has_offset o = true
  · rw [if_pos h]
    exact map_find_erase _ _ _
  · rw [if_neg h]
    by_cases e : o' = o
    · rw [if_pos e, e]
      exact (has_offset_false_iff m o).mp (by simpa using h)
    · rw [if_neg e]

theorem find_patterns_remove (m : meta_pattern_info) (o : Nat) (p' : meta_pattern) :
    map_find (m.remove_at_offset o).patterns p'
      = if map_find m.offsets o = some p' then none else map_find m.patterns p' := by
  unfold meta_pattern_info.remove_at_offset
  by_cases h : m.has_offset o = true
  · rw [if_pos h]
    obtain ⟨p, hp⟩ := (has_offset_iff m o).mp h
    show map_find (map_erase m.patterns (map_get m.offsets o ⟨0, 0, 0, 0⟩)) p' = _
    rw [map_get_eq_getD, hp, map_find_erase]
    show (if p' = p then none else map_find m.patterns p') = _
    by_cases e : p' = p
    · rw [if_pos e, if_pos (by rw [e])]
    · rw [if_neg e, if_neg (fun c => e (Option.some.inj c).symm)]
  · rw [if_neg h]
    have hn := (has_offset_false_iff m o).mp (by simpa using h)
    rw [hn, if_neg (by simp)]

theorem synchronized_empty : synchronized meta_pattern_info.empty :=
  ⟨fun _ _ h => (by cases h), fun _ _ h => (by cases h), fun _ _ _ h => (by cases h)⟩

theorem synchronized_add (m : meta_pattern_info) (hs : synchronized m) (p : meta_pattern) (o : Nat)
    (hp : m.has_pattern p = false) (ho : m.has_offset o = false) :
    synchronized (m.add_pattern p o) := by
  have hp' := (has_pattern_false_iff m p).mp hp
  have ho' := (has_offset_false_iff m o).mp ho
  refine ⟨?_, ?_, ?_⟩
  · intro o1 p1 h
    rw [find_offsets_add] at h
    rw [find_patterns_add]
    by_cases e : o1 = o
    · rw [if_pos e] at h
      rw [if_pos (Option.some.inj h).symm, e]
    · rw [if_neg e] at h
      have h2 := hs.pattern_of_offset o1 p1 h
      by_cases e2 : p1 = p
      · rw [e2, hp'] at h2
        cases h2
      · rw [if_neg e2]
        exact h2
  · intro p1 v h
    rw [find_patterns_add] at h
    by_cases e2 : p1 = p
    · refine ⟨o, ?_⟩
      rw [find_offsets_add, if_pos rfl, e2]
    · rw [if_neg e2] at h
      obtain ⟨o1, h1⟩ := hs.offset_of_pattern p1 v h
      refine ⟨o1, ?_⟩
      rw [find_offsets_add]
      by_cases e : o1 = o
      · rw [e, ho'] at h1
        cases h1
      · rw [if_neg e]
        exact h1
  · intro o1 o2 p1 h1 h2
    rw [find_offsets_add] at h1 h2
    by_cases e1 : o1 = o
    · by_cases e2 : o2 = o
      · rw [e1, e2]
      · rw [if_pos e1] at h1
        rw [if_neg e2] at h2
        have h3 := hs.pattern_of_offset o2 p1 h2
        rw [← Option.some.inj h1, hp'] at h3
        cases h3
    · by_cases e2 : o2 = o
      · rw [if_neg e1] at h1
        rw [if_pos e2] at h2
        have h3 := hs.pattern_of_offset o1 p1 h1
        rw [← Option.some.inj h2, hp'] at h3
        cases h3
      · rw [if_neg e1] at h1
        rw [if_neg e2] at h2
        exact hs.one_offset o1 o2 p1 h1 h2

theorem synchronized_remove (m : meta_pattern_info) (hs : synchronized m) (o : Nat) :
    synchronized (m.remove_at_offset o) := by
  refine ⟨?_, ?_, ?_⟩
  · intro o1 p1 h
    rw [find_offsets_remove] at h
    rw [find_patterns_remove]
    by_cases e : o1 = o
    · rw [if_pos e] at h
      cases h
    · rw [if_neg e] at h
      rw [if_neg (fun c => e (hs.one_offset o1 o p1 h c))]
      exact hs.pattern_of_offset o1 p1 h
  · intro p1 v h
    rw [find_patterns_remove] at h
    by_cases c : map_find m.offsets o = some p1
    · rw [if_pos c] at h
      cases h
    · rw [if_neg c] at h
      obtain ⟨o1, h1⟩ := hs.offset_of_pattern p1 v h
      refine ⟨o1, ?_⟩
      rw [find_offsets_remove, if_neg (fun e => c (by rw [← e]; exact h1))]
      exact h1
  · intro o1 o2 p1 h1 h2
    rw [find_offsets_remove] at h1 h2
    by_cases e1 : o1 = o
    · rw [if_pos e1] at h1
      cases h1
    · by_cases e2 : o2 = o
      · rw [if_pos e2] at h2
        cases h2
      · rw [if_neg e1] at h1
        rw [if_neg e2] at h2
        exact hs.one_offset o1 o2 p1 h1 h2

theorem synchronized_remove_loop (start : Nat) (fuel : Nat) (m m' : meta_pattern_info)
    (hs : synchronized m)
    (h : meta_pattern_info.remove_offsets_loop start fuel m = some m') : synchronized m' := by
  induction fuel generalizing m with
  | zero => cases h
  | succ n ih =>
    rw [meta_pattern_info.remove_offsets_loop] at h
    by_cases c : m.last_offset < start
    · simp only [if_pos c] at h
      rw [← Option.some.inj h]
      exact hs
    · simp only [if_neg c] at h
      exact ih _ (synchronized_remove m hs _) h

theorem synchronized_step (m m' : meta_pattern_info) (c : dict_call) (hs : synchronized m)
    (h : dict_step m c = some m') : synchronized m' := by
  cases c with
  | add_pattern pat offset =>
    rw [dict_step] at h
    by_cases e : m.has_pattern pat = false ∧ m.has_offset offset = false
    · rw [if_pos e] at h
      rw [← Option.some.inj h]
      exact synchronized_add m hs pat offset e.1 e.2
    · rw [if_neg e] at h
      cases h
  | remove_at_offset offset =>
    rw [dict_step] at h
    rw [← Option.some.inj h]
    exact synchronized_remove m hs offset
  | remove_offsets_from start =>
    rw [dict_step] at h
    exact synchronized_remove_loop start _ m m' hs h

theorem synchronized_run (calls : List dict_call) (m m' : meta_pattern_info) (hs : synchronized m)
    (h : dict_run m calls = some m') : synchronized m' := by
  induction calls generalizing m with
  | nil =>
    rw [dict_run] at h
    rw [← Option.some.inj h]
    exact hs
  | cons c cs ih =>
    rw [dict_run] at h
    cases e : dict_step m c with
    | none =>
      rw [e] at h
      cases h
    | some m1 =>
      rw [e] at h
      exact ih m1 (synchronized_step m m1 c hs e) h

/-- C22: starting from the empty dictionary, after any sequence of `add_pattern` calls on
a pattern and an offset that are both not bound, `remove_at_offset` calls and returning
`remove_offsets_from` calls, `has_pattern( p )` holds exactly when some offset `o` has
`has_offset( o )` and `offsets[ o ] = p`, and then `patterns[ p ]` is the pair that
`add_pattern` builds from that offset; the offset read back from the pair,
`((first & 0x0F) << 8) + second`, is the offset modulo 4096, which is the offset itself
when it is at most 4095. -/
theorem C22_synchronized_maps (calls : List dict_call) (m : meta_pattern_info)
    (h : dict_run meta_pattern_info.empty calls = some m) (p : meta_pattern) :
    (m.has_pattern p = true
        ↔ ∃ o, m.has_offset o = true ∧ map_get m.offsets o ⟨0, 0, 0, 0⟩ = p)
      ∧ ∀ o, m.has_offset o = true → map_get m.offsets o ⟨0, 0, 0, 0⟩ = p →
          map_get m.patterns p (0, 0) = pattern_pair o
            ∧ (((map_get m.patterns p (0, 0)).1 &&& 0x0f) <<< 8)
                + (map_get m.patterns p (0, 0)).2 = o % 4096 := by
  have hs := synchronized_run calls _ m synchronized_empty h
  have key : ∀ o, m.has_offset o = true → map_get m.offsets o ⟨0, 0, 0, 0⟩ = p →
      map_find m.offsets o = some p := by
    intro o ho hg
    obtain ⟨q, hq⟩ := (has_offset_iff m o).mp ho
    rw [map_get_eq_getD, hq] at hg
    rw [hq]
    exact congrArg some hg
  refine ⟨⟨?_, ?_⟩, ?_⟩
  · intro hp
    obtain ⟨v, hv⟩ := (has_pattern_iff m p).mp hp
    obtain ⟨o, ho⟩ := hs.offset_of_pattern p v hv
    refine ⟨o, (has_offset_iff m o).mpr ⟨p, ho⟩, ?_⟩
    rw [map_get_eq_getD, ho]
    rfl
  · rintro ⟨o, ho, hg⟩
    exact (has_pattern_iff m p).mpr ⟨_, hs.pattern_of_offset o p (key o ho hg)⟩
  · intro o ho hg
    have e : map_get m.patterns p (0, 0) = pattern_pair o := by
      rw [map_get_eq_getD, hs.pattern_of_offset o p (key o ho hg)]
      rfl
    rw [e]
    exact ⟨rfl, pattern_pair_offset o⟩

/-- C22 on six calls: two of the four added bindings are left, at the offsets 7 and 9. -/
theorem C22_witness :
    dict_run meta_pattern_info.empty sample_calls = some sample_dict
      ∧ (sample_dict.has_pattern ⟨0x90, 7, 0xf0, 0⟩ = true
        ↔ ∃ o, sample_dict.has_offset o = true
          ∧ map_get sample_dict.offsets o ⟨0, 0, 0, 0⟩ = ⟨0x90, 7, 0xf0, 0⟩) :=
  ⟨by decide, (C22_synchronized_maps sample_calls sample_dict (by decide) ⟨0x90, 7, 0xf0, 0⟩).1⟩

theorem mem_of_map_find {K V : Type} [DecidableEq K] (m : List (K × V)) (k : K) (v : V)
    (h : map_find m k = some v) : (k, v) ∈ m := by
  unfold map_find at h
  rw [Option.map_eq_some'] at h
  obtain ⟨e, he, hv⟩ := h
  have h1 := List.mem_of_find?_eq_some he
  have h2 := List.find?_some he
  have h3 : e.1 = k := of_decide_eq_true h2
  rw [← h3, ← hv]
  exact h1

theorem map_count_of_mem {K V : Type} [DecidableEq K] (m : List (K × V)) (e : K × V)
    (h : e ∈ m) : map_count m e.1 = true := by
  unfold map_count
  rw [List.any_eq_true]
  exact ⟨e, h, decide_eq_true rfl⟩

theorem map_erase_length_lt {K V : Type} [DecidableEq K] (m : List (K × V)) (e : K × V)
    (h : e ∈ m) : (map_erase m e.1).length < m.length := by
  unfold map_erase
  induction m with
  | nil => cases h
  | cons a m ih =>
    by_cases c : a.1 = e.1
    · have e1 : List.filter (fun x => !decide (x.1 = e.1)) (a :: m)
          = List.filter (fun x => !decide (x.1 = e.1)) m := by
        simp [List.filter, c]
      rw [e1]
      exact Nat.lt_succ_of_le (List.length_filter_le _ _)
    · have e1 : List.filter (fun x => !decide (x.1 = e.1)) (a :: m)
          = a :: List.filter (fun x => !decide (x.1 = e.1)) m := by
        simp [List.filter, c]
      rw [e1]
      rcases List.mem_cons.mp h with h1 | h1
      · exact absurd (by rw [h1]) c
      · exact Nat.succ_lt_succ (ih h1)

theorem le_getLast_of_pairwise {V : Type} (m : List (Nat × V))
    (hs : m.Pairwise (fun a b => a.1 < b.1)) (e l : Nat × V) (he : e ∈ m)
    (hl : m.getLast? = some l) : e.1 ≤ l.1 := by
  induction m with
  | nil => cases he
  | cons a m ih =>
    cases m with
    | nil =>
      rw [List.getLast?_singleton] at hl
      rw [List.mem_singleton] at he
      rw [he, Option.some.inj hl]
    | cons b m =>
      rw [List.getLast?_cons_cons] at hl
      rw [List.pairwise_cons] at hs
      have hlm : l ∈ b :: m := List.mem_of_getLast?_eq_some hl
      rcases List.mem_cons.mp he with h1 | h1
      · rw [h1]
        exact Nat.le_of_lt (hs.1 l hlm)
      · exact ih hs.2 h1 hl

theorem key_le_last_offset (m : meta_pattern_info)
    (hs : m.offsets.Pairwise (fun a b => a.1 < b.1)) (o : Nat) (p : meta_pattern)
    (h : map_find m.offsets o = some p) : o ≤ m.last_offset := by
  have hm := mem_of_map_find _ _ _ h
  unfold meta_pattern_info.last_offset
  cases hl : m.offsets.getLast? with
  | none =>
    rw [List.getLast?_eq_none_iff] at hl
    rw [hl] at hm
    cases hm
  | some l => exact le_getLast_of_pairwise m.offsets hs (o, p) l hm hl

theorem has_last_offset (m : meta_pattern_info) (h : 1 ≤ m.last_offset) :
    ∃ e, e ∈ m.offsets ∧ e.1 = m.last_offset := by
  unfold meta_pattern_info.last_offset at h ⊢
  cases hl : m.offsets.getLast? with
  | none =>
    rw [hl] at h
    exact absurd h (by decide)
  | some l => exact ⟨l, List.mem_of_getLast?_eq_some hl, rfl⟩

theorem remove_at_offset_sorted (m : meta_pattern_info) (o : Nat)
    (hs : m.offsets.Pairwise (fun a b => a.1 < b.1)) :
    (m.remove_at_offset o).offsets.Pairwise (fun a b => a.1 < b.1) := by
  unfold meta_pattern_info.remove_at_offset
  by_cases h : m.has_offset o = true
  · rw [if_pos h]
    exact List.Pairwise.filter _ hs
  · rw [if_neg h]
    exact hs

theorem remove_at_offset_length (m : meta_pattern_info) (e : Nat × meta_pattern)
    (h : e ∈ m.offsets) : (m.remove_at_offset e.1).offsets.length < m.offsets.length := by
  unfold meta_pattern_info.remove_at_offset
  have hc : m.has_offset e.1 = true := map_count_of_mem m.offsets e h
  rw [if_pos hc]
  exact map_erase_length_lt m.offsets e h

/-- The loop of `remove_offsets_from` on a dictionary that binds no pattern twice: with
`start ≥ 1` and more fuel than bindings it returns, no binding at or above `start` is
left, and the bindings below `start` keep their two entries. -/
theorem remove_offsets_loop_spec (start : Nat) (hstart : 1 ≤ start) (fuel : Nat)
    (m : meta_pattern_info) (hs : m.offsets.Pairwise (fun a b => a.1 < b.1))
    (hinj : ∀ o o' p, map_find m.offsets o = some p → map_find m.offsets o' = some p → o = o')
    (hf : m.offsets.length < fuel) :
    ∃ m', meta_pattern_info.remove_offsets_loop start fuel m = some m'
      ∧ (∀ o, start ≤ o → map_find m'.offsets o = none)
      ∧ (∀ o, o < start → map_find m'.offsets o = map_find m.offsets o)
      ∧ (∀ o p, o < start → map_find m.offsets o = some p →
          map_find m'.patterns p = map_find m.patterns p) := by
  induction fuel generalizing m with
  | zero => exact absurd hf (Nat.not_lt_zero _)
  | succ n ih =>
    rw [meta_pattern_info.remove_offsets_loop]
    by_cases c : m.last_offset < start
    · simp only [if_pos c]
      refine ⟨m, rfl, ?_, fun _ _ => rfl, fun _ _ _ _ => rfl⟩
      intro o ho
      cases hq : map_find m.offsets o with
      | none => rfl
      | some p =>
        have := key_le_last_offset m hs o p hq
        omega
    · simp only [if_neg c]
      obtain ⟨e, he, hel⟩ := has_last_offset m (by omega)
      have hlen := remove_at_offset_length m e he
      rw [hel] at hlen
      have hinj1 : ∀ o o' p, map_find (m.remove_at_offset m.last_offset).offsets o = some p →
          map_find (m.remove_at_offset m.last_offset).offsets o' = some p → o = o' := by
        intro o o' p h1 h2
        rw [find_offsets_remove] at h1 h2
        by_cases e1 : o = m.last_offset
        · rw [if_pos e1] at h1
          cases h1
        · by_cases e2 : o' = m.last_offset
          · rw [if_pos e2] at h2
            cases h2
          · rw [if_neg e1] at h1
            rw [if_neg e2] at h2
            exact hinj o o' p h1 h2
      obtain ⟨m', h1, h2, h3, h4⟩ := ih (m.remove_at_offset m.last_offset)
        (remove_at_offset_sorted m _ hs) hinj1 (by omega)
      have hkeep : ∀ o, o < start →
          map_find (m.remove_at_offset m.last_offset).offsets o = map_find m.offsets o := by
        intro o ho
        rw [find_offsets_remove, if_neg (by omega)]
      refine ⟨m', h1, h2, ?_, ?_⟩
      · intro o ho
        rw [h3 o ho, hkeep o ho]
      · intro o p ho hp
        rw [h4 o p ho (by rw [hkeep o ho]; exact hp), find_patterns_remove]
        rw [if_neg]
        intro hc
        have := hinj _ _ p hc hp
        omega

/-- C24, counterexample: in the dictionary that binds one pattern at the offsets 1 and 5,
`remove_offsets_from( 3 )` keeps the binding at offset 1 and erases its pattern entry. -/
theorem C24_counterexample :
    twice_bound.has_offset 1 = true ∧ twice_bound.has_pattern ⟨0x80, 0, 0x80, 3⟩ = true
      ∧ ∃ m', twice_bound.remove_offsets_from 3 = some m'
        ∧ m'.has_offset 1 = true ∧ map_get m'.offsets 1 ⟨0, 0, 0, 0⟩ = ⟨0x80, 0, 0x80, 3⟩
        ∧ m'.has_pattern ⟨0x80, 0, 0x80, 3⟩ = false :=
  ⟨by decide, by decide, _, rfl, by decide, by decide, by decide⟩

/-- C24 (amended): for every dictionary state that binds no pattern at two offsets and
every `start ≥ 1`, `remove_offsets_from( start )` returns, afterwards no binding with an
offset at or above `start` is left, and every binding with an offset below `start` and
its pattern entry are unchanged. -/
theorem C24_remove_offsets_from (m : meta_pattern_info) (start : Nat)
    (hs : m.offsets.Pairwise (fun a b => a.1 < b.1))
    (hinj : ∀ o o' p, map_find m.offsets o = some p → map_find m.offsets o' = some p → o = o')
    (hstart : 1 ≤ start) :
    ∃ m', m.remove_offsets_from start = some m'
      ∧ (∀ o, start ≤ o → m'.has_offset o = false)
      ∧ (∀ o, o < start → map_find m'.offsets o = map_find m.offsets o)
      ∧ (∀ o p, o < start → map_find m.offsets o = some p →
          map_find m'.patterns p = map_find m.patterns p) := by
  obtain ⟨m', h1, h2, h3, h4⟩ :=
    remove_offsets_loop_spec start hstart (m.offsets.length + 2) m hs hinj (by omega)
  exact ⟨m', h1, fun o ho => (has_offset_false_iff m' o).mpr (h2 o ho), h3, h4⟩

/-- C24 (amended) on the dictionary with bindings at 7 and 9 and `start = 8`. -/
theorem C24_witness :
    (sample_dict.offsets.Pairwise (fun a b => a.1 < b.1) ∧ 1 ≤ 8)
      ∧ ∃ m', sample_dict.remove_offsets_from 8 = some m'
        ∧ (∀ o, 8 ≤ o → m'.has_offset o = false)
        ∧ (∀ o, o < 8 → map_find m'.offsets o = map_find sample_dict.offsets o)
        ∧ (∀ o p, o < 8 → map_find sample_dict.offsets o = some p →
            map_find m'.patterns p = map_find sample_dict.patterns p) :=
  ⟨⟨by decide, by decide⟩,
    C24_remove_offsets_from sample_dict 8 (by decide)
      (synchronized_run sample_calls _ _ synchronized_empty (by decide)).one_offset (by decide)⟩

/-- C23: for every dictionary, pattern `p` and offset `o` in 0..4095, after
`add_pattern( p, o )` the dictionary has `has_pattern( p )` and `has_offset( o )`,
`offsets[ o ] = p`, and the pair stored for `p` is
`(0x90 | ((o >> 8) & 0x0F), o & 0xFF)`, from which `((first & 0x0F) << 8) + second`
gives `o` back. -/
theorem C23_add_pattern_result (m : meta_pattern_info) (p : meta_pattern) (o : Nat)
    (ho : o ≤ 4095) :
    (m.add_pattern p o).has_pattern p = true ∧ (m.add_pattern p o).has_offset o = true
      ∧ map_get (m.add_pattern p o).offsets o ⟨0, 0, 0, 0⟩ = p
      ∧ map_get (m.add_pattern p o).patterns p (0, 0)
          = (0x90 ||| ((o >>> 8) &&& 0x0f), o &&& 0xff)
      ∧ (((map_get (m.add_pattern p o).patterns p (0, 0)).1 &&& 0x0f) <<< 8)
          + (map_get (m.add_pattern p o).patterns p (0, 0)).2 = o := by
  have h1 : map_find (m.add_pattern p o).offsets o = some p := by
    rw [find_offsets_add, if_pos rfl]
  have h2 : map_find (m.add_pattern p o).patterns p = some (pattern_pair o) := by
    rw [find_patterns_add, if_pos rfl]
  have h3 : map_get (m.add_pattern p o).patterns p (0, 0) = pattern_pair o := by
    rw [map_get_eq_getD, h2]
    rfl
  refine ⟨(has_pattern_iff _ p).mpr ⟨_, h2⟩, (has_offset_iff _ o).mpr ⟨_, h1⟩, ?_, ?_, ?_⟩
  · rw [map_get_eq_getD, h1]
    rfl
  · rw [h3]
    exact (pattern_pair_spec o ho).1
  · rw [h3]
    exact (pattern_pair_spec o ho).2

/-- C23 on the dictionary with bindings at 7 and 9, for a pattern added at offset
`0x123`: the pair is `0x91, 0x23`. -/
theorem C23_witness :
    (0x123 ≤ 4095)
      ∧ map_get (sample_dict.add_pattern ⟨0x80, 0, 0x90, 7⟩ 0x123).patterns ⟨0x80, 0, 0x90, 7⟩ (0, 0)
          = (0x91, 0x23)
      ∧ (sample_dict.add_pattern ⟨0x80, 0, 0x90, 7⟩ 0x123).has_pattern ⟨0x80, 0, 0x90, 7⟩ = true :=
  ⟨by decide, by decide,
    (C23_add_pattern_result sample_dict ⟨0x80, 0, 0x90, 7⟩ 0x123 (by decide)).1⟩

/-! ## Steps of `combine_meta_patterns` -/

theorem rd_wr (b : Buf) (i v j : Nat) : rd (wr b i v) j = if j = i then v else rd b j := by
  unfold rd wr
  by_cases h : i < b.length
  · rw [if_pos h]
    by_cases e : j = i
    · rw [if_pos e, e, List.getD_eq_getElem?_getD, List.getElem?_set_self h]
      rfl
    · rw [if_neg e, List.getD_eq_getElem?_getD, List.getD_eq_getElem?_getD,
        List.getElem?_set_ne (fun c => e c.symm)]
  · rw [if_neg h]
    by_cases e : j = i
    · rw [if_pos e, e, List.getD_eq_getElem?_getD]
      rw [List.getElem?_append_right (by simp; omega)]
      have e2 : i - (b ++ List.replicate (i - b.length) 0).length = 0 := by
        simp
        omega
      rw [e2]
      rfl
    · rw [if_neg e, List.getD_eq_getElem?_getD, List.getD_eq_getElem?_getD]
      by_cases c1 : j < b.length
      · rw [List.append_assoc, List.getElem?_append_left c1]
      · rw [List.getElem?_eq_none (by omega : b.length ≤ j)]
        by_cases c2 : j < i
        · rw [List.getElem?_append_left (by simp; omega),
            List.getElem?_append_right (by omega), List.getElem?_replicate]
          split_ifs <;> rfl
        · rw [List.getElem?_eq_none (by simp; omega)]

theorem rd_wr_same (b : Buf) (i v : Nat) : rd (wr b i v) i = v := by
  rw [rd_wr, if_pos rfl]

theorem rd_wr_ne (b : Buf) (i v j : Nat) (h : j ≠ i) : rd (wr b i v) j = rd b j := by
  rw [rd_wr, if_neg h]

/-- With `start = 0` the test `next < start` of `remove_offsets_from` never holds: the
loop does not end, whatever the fuel. -/
theorem remove_offsets_loop_zero (fuel : Nat) (m : meta_pattern_info) :
    meta_pattern_info.remove_offsets_loop 0 fuel m = none := by
  induction fuel generalizing m with
  | zero => rfl
  | succ n ih =>
    rw [meta_pattern_info.remove_offsets_loop]
    simp only [Nat.not_lt_zero, if_false]
    exact ih _

theorem remove_offsets_loop_returns (start : Nat) (hstart : 1 ≤ start) (fuel : Nat)
    (m : meta_pattern_info) (hf : m.offsets.length < fuel) :
    ∃ m', meta_pattern_info.remove_offsets_loop start fuel m = some m' := by
  induction fuel generalizing m with
  | zero => exact absurd hf (Nat.not_lt_zero _)
  | succ n ih =>
    rw [meta_pattern_info.remove_offsets_loop]
    by_cases c : m.last_offset < start
    · simp only [if_pos c]
      exact ⟨m, rfl⟩
    · simp only [if_neg c]
      obtain ⟨e, he, hel⟩ := has_last_offset m (by omega)
      have hlen := remove_at_offset_length m e he
      rw [hel] at hlen
      exact ih _ (by omega)

/-- For `start ≥ 1` the call `remove_offsets_from( start )` returns on every dictionary. -/
theorem remove_offsets_from_returns (m : meta_pattern_info) (start : Nat) (hstart : 1 ≤ start) :
    ∃ m', m.remove_offsets_from start = some m' :=
  remove_offsets_loop_returns start hstart _ m (by omega)

theorem remove_offsets_loop_patterns (start fuel : Nat) (m m' : meta_pattern_info)
    (h : meta_pattern_info.remove_offsets_loop start fuel m = some m') (p : meta_pattern)
    (hp : map_find m.patterns p = none) : map_find m'.patterns p = none := by
  induction fuel generalizing m with
  | zero => cases h
  | succ n ih =>
    rw [meta_pattern_info.remove_offsets_loop] at h
    by_cases c : m.last_offset < start
    · simp only [if_pos c] at h
      rw [← Option.some.inj h]
      exact hp
    · simp only [if_neg c] at h
      refine ih _ h ?_
      rw [find_patterns_remove, hp, ite_self]

/-- A pattern that is not known before `remove_offsets_from` is not known after it. -/
theorem remove_offsets_from_has_pattern (m m' : meta_pattern_info) (start : Nat)
    (h : m.remove_offsets_from start = some m') (p : meta_pattern)
    (hp : m.has_pattern p = false) : m'.has_pattern p = false :=
  (has_pattern_false_iff m' p).mpr
    (remove_offsets_loop_patterns start _ m m' h p ((has_pattern_false_iff m p).mp hp))

/-- In a synchronized dictionary the loop of `remove_offsets_from` keeps a binding below
`start` and its pattern entry. -/
theorem remove_offsets_loop_keeps (start fuel : Nat) (m m' : meta_pattern_info)
    (hs : synchronized m)
    (h : meta_pattern_info.remove_offsets_loop start fuel m = some m') (o : Nat)
    (p : meta_pattern) (ho : o < start) (hp : map_find m.offsets o = some p) :
    map_find m'.offsets o = some p ∧ map_find m'.patterns p = some (pattern_pair o) := by
  induction fuel generalizing m with
  | zero => cases h
  | succ n ih =>
    rw [meta_pattern_info.remove_offsets_loop] at h
    by_cases c : m.last_offset < start
    · simp only [if_pos c] at h
      rw [← Option.some.inj h]
      exact ⟨hp, hs.pattern_of_offset o p hp⟩
    · simp only [if_neg c] at h
      refine ih _ (synchronized_remove m hs _) h ?_
      rw [find_offsets_remove, if_neg (by omega)]
      exact hp

/-- C26: when `offset > 7`, the last four bytes are `(b1, b2, b1, b2)` with the high
nibble of `b1` not 0xF, and the simple replace does not apply, `combine_meta_patterns`
returns `true`, stores `(0xF0, 0x00)` over the trailing pair and nothing else, leaves
`offset` unchanged, and afterwards the dictionary knows the pattern
`(b1, b2, 0xF0, 0x00)`; when the pattern was not known before the call it is bound at
`offset - 4`. -/
theorem C26_pattern_repeat (c : combine_state) (h7 : c.offset > 7)
    (h1 : rd c.p_buffer (c.offset - 4) = rd c.p_buffer (c.offset - 2))
    (h2 : rd c.p_buffer (c.offset - 3) = rd c.p_buffer (c.offset - 1))
    (hn : (rd c.p_buffer (c.offset - 4) &&& 0xf0) ≠ 0xf0)
    (hs : ¬ (c.meta_patterns.has_pattern
          ⟨rd c.p_buffer (c.offset - 4), rd c.p_buffer (c.offset - 3),
           rd c.p_buffer (c.offset - 2), rd c.p_buffer (c.offset - 1)⟩ = true
        ∧ c.meta_patterns.pattern_offset
          ⟨rd c.p_buffer (c.offset - 4), rd c.p_buffer (c.offset - 3),
           rd c.p_buffer (c.offset - 2), rd c.p_buffer (c.offset - 1)⟩ < c.offset - 4)) :
    ∃ c', combine_meta_patterns c = some (c', true)
      ∧ c'.offset = c.offset
      ∧ rd c'.p_buffer (c.offset - 2) = 0xf0 ∧ rd c'.p_buffer (c.offset - 1) = 0x00
      ∧ (∀ i, i ≠ c.offset - 2 → i ≠ c.offset - 1 → rd c'.p_buffer i = rd c.p_buffer i)
      ∧ c'.meta_patterns.has_pattern
          ⟨rd c.p_buffer (c.offset - 4), rd c.p_buffer (c.offset - 3), 0xf0, 0x00⟩ = true
      ∧ (c.meta_patterns.has_pattern
            ⟨rd c.p_buffer (c.offset - 4), rd c.p_buffer (c.offset - 3), 0xf0, 0x00⟩ = false →
          c'.meta_patterns.has_offset (c.offset - 4) = true
            ∧ map_get c'.meta_patterns.offsets (c.offset - 4) ⟨0, 0, 0, 0⟩
              = ⟨rd c.p_buffer (c.offset - 4), rd c.p_buffer (c.offset - 3), 0xf0, 0x00⟩
            ∧ map_get c'.meta_patterns.patterns
                ⟨rd c.p_buffer (c.offset - 4), rd c.p_buffer (c.offset - 3), 0xf0, 0x00⟩ (0, 0)
              = pattern_pair (c.offset - 4)) := by
  obtain ⟨m, hm⟩ := remove_offsets_from_returns c.meta_patterns (c.offset - 4) (by omega)
  have hnk := remove_offsets_from_has_pattern c.meta_patterns m (c.offset - 4) hm
    ⟨rd c.p_buffer (c.offset - 4), rd c.p_buffer (c.offset - 3), 0xf0, 0x00⟩
  unfold combine_meta_patterns
  dsimp only
  rw [if_pos (show c.offset > c_min_pat_length + c_meta_pat_length from h7),
    if_pos (show (rd c.p_buffer (c.offset - 4) &&& c_nibble_one) ≠ c_nibble_one from hn),
    if_neg hs, if_pos ⟨h1, h2⟩, hm]
  refine ⟨_, rfl, rfl, ?_, ?_, ?_, ?_, ?_⟩
  · show rd (wr (wr c.p_buffer (c.offset - 2) c_nibble_one) (c.offset - 1) 0) (c.offset - 2) = 0xf0
    rw [rd_wr_ne _ _ _ _ (by omega), rd_wr_same]
    rfl
  · show rd (wr (wr c.p_buffer (c.offset - 2) c_nibble_one) (c.offset - 1) 0) (c.offset - 1) = 0
    rw [rd_wr_same]
  · intro i hi1 hi2
    show rd (wr (wr c.p_buffer (c.offset - 2) c_nibble_one) (c.offset - 1) 0) i = rd c.p_buffer i
    rw [rd_wr_ne _ _ _ _ hi2, rd_wr_ne _ _ _ _ hi1]
  · show meta_pattern_info.has_pattern
      (if m.has_pattern ⟨rd c.p_buffer (c.offset - 4), rd c.p_buffer (c.offset - 3), 0xf0, 0x00⟩
          = true then m
        else m.add_pattern ⟨rd c.p_buffer (c.offset - 4), rd c.p_buffer (c.offset - 3), 0xf0, 0x00⟩
          (c.offset - 4)) _ = true
    by_cases hk : m.has_pattern
        ⟨rd c.p_buffer (c.offset - 4), rd c.p_buffer (c.offset - 3), 0xf0, 0x00⟩ = true
    · rw [if_pos hk]
      exact hk
    · rw [if_neg hk, has_pattern_iff, find_patterns_add, if_pos rfl]
      exact ⟨_, rfl⟩
  · intro hk0
    have hk : ¬ m.has_pattern
        ⟨rd c.p_buffer (c.offset - 4), rd c.p_buffer (c.offset - 3), 0xf0, 0x00⟩ = true := by
      rw [hnk hk0]
      decide
    show meta_pattern_info.has_offset
        (if m.has_pattern ⟨rd c.p_buffer (c.offset - 4), rd c.p_buffer (c.offset - 3), 0xf0, 0x00⟩
            = true then m
          else m.add_pattern ⟨rd c.p_buffer (c.offset - 4), rd c.p_buffer (c.offset - 3), 0xf0, 0x00⟩
            (c.offset - 4)) (c.offset - 4) = true
      ∧ map_get (meta_pattern_info.offsets
        (if m.has_pattern ⟨rd c.p_buffer (c.offset - 4), rd c.p_buffer (c.offset - 3), 0xf0, 0x00⟩
            = true then m
          else m.add_pattern ⟨rd c.p_buffer (c.offset - 4), rd c.p_buffer (c.offset - 3), 0xf0, 0x00⟩
            (c.offset - 4))) (c.offset - 4) ⟨0, 0, 0, 0⟩ = _
      ∧ map_get (meta_pattern_info.patterns
        (if m.has_pattern ⟨rd c.p_buffer (c.offset - 4), rd c.p_buffer (c.offset - 3), 0xf0, 0x00⟩
            = true then m
          else m.add_pattern ⟨rd c.p_buffer (c.offset - 4), rd c.p_buffer (c.offset - 3), 0xf0, 0x00⟩
            (c.offset - 4))) _ (0, 0) = _
    rw [if_neg hk, has_offset_iff, map_get_eq_getD, map_get_eq_getD, find_offsets_add,
      find_patterns_add, if_pos rfl, if_pos rfl]
    exact ⟨⟨_, rfl⟩, rfl, rfl⟩

/-- C26 on `01 02 03 04 41 42 41 42`: the block becomes `01 02 03 04 41 42 F0 00` and
the pattern `41 42 F0 00` is bound at offset 4. -/
theorem C26_witness :
    combine_meta_patterns abab_state
        = some (⟨⟨[(4, ⟨0x41, 0x42, 0xf0, 0⟩)], [(⟨0x41, 0x42, 0xf0, 0⟩, (0x90, 4))]⟩,
            [1, 2, 3, 4, 0x41, 0x42, 0xf0, 0], 8, 4⟩, true)
      ∧ ∃ c', combine_meta_patterns abab_state = some (c', true) ∧ c'.offset = abab_state.offset
        ∧ rd c'.p_buffer 6 = 0xf0 ∧ rd c'.p_buffer 7 = 0 :=
  ⟨by decide,
    (C26_pattern_repeat abab_state (by decide) (by decide) (by decide) (by decide)
      (by decide)).imp fun _ h => ⟨h.1, h.2.1, h.2.2.1, h.2.2.2.1⟩⟩

/-- The bytes of a repeat marker `F0..F7`: the high nibble, the low nibble and the
increment of the byte. -/
theorem repeat_byte_table :
    ((List.range 8).all fun k =>
      decide (((0xf0 + k) &&& c_nibble_one) = c_nibble_one ∧ ((0xf0 + k) &&& 0x0f) = k
        ∧ ((0xf0 + k + 1) &&& 0x0f) <<< 8 = ((k + 1) % 16) * 256
        ∧ ((0xf0 + k) &&& 0x0f) <<< 8 = k * 256)) = true := by
  decide

theorem repeat_byte_spec (rh : Nat) (hlo : 0xf0 ≤ rh) (hhi : rh ≤ 0xf7) :
    (rh &&& c_nibble_one) = c_nibble_one ∧ (rh &&& 0x0f) = rh - 0xf0
      ∧ ((rh + 1) &&& 0x0f) <<< 8 = ((rh - 0xf0 + 1) % 16) * 256
      ∧ (rh &&& 0x0f) <<< 8 = (rh - 0xf0) * 256 := by
  have h := repeat_byte_table
  rw [List.all_eq_true] at h
  have h1 := of_decide_eq_true (h (rh - 0xf0) (List.mem_range.mpr (by omega)))
  have e : 0xf0 + (rh - 0xf0) = rh := by omega
  rw [e] at h1
  exact h1

/-- The increment of a repeat marker below `F7 FF`: the count read from the two bytes
grows by one, and no other cell changes. -/
theorem increment_repeat_spec (b : Buf) (i : Nat) (hlo : 0xf0 ≤ rd b i) (hhi : rd b i ≤ 0xf7)
    (hrl : rd b (i + 1) ≤ 0xff) (hmax : rd b i ≠ c_max_repeats_hi ∨ rd b (i + 1) ≠ c_max_repeats_lo) :
    ((rd (increment_repeat b i) i &&& 0x0f) <<< 8) + rd (increment_repeat b i) (i + 1)
        = ((rd b i &&& 0x0f) <<< 8) + rd b (i + 1) + 1
      ∧ 0xf0 ≤ rd (increment_repeat b i) i ∧ rd (increment_repeat b i) i ≤ 0xf7
      ∧ rd (increment_repeat b i) (i + 1) ≤ 0xff
      ∧ ∀ j, j ≠ i → j ≠ i + 1 → rd (increment_repeat b i) j = rd b j := by
  unfold increment_repeat
  unfold c_max_repeats_hi c_max_repeats_lo at *
  by_cases c : rd b (i + 1) ≠ 0xff
  · rw [if_pos c]
    rw [rd_wr_same, rd_wr_ne _ _ _ _ (by omega)]
    refine ⟨?_, hlo, hhi, ?_, ?_⟩
    · unfold to_byte
      omega
    · unfold to_byte
      omega
    · intro j _ h2
      rw [rd_wr_ne _ _ _ _ h2]
  · rw [if_neg c]
    have c' : rd b (i + 1) = 0xff := by omega
    have hh : rd b i ≠ 0xf7 := by
      rcases hmax with h | h
      · exact h
      · exact absurd c' h
    dsimp only
    rw [rd_wr_same, rd_wr_ne _ _ _ _ (by omega : i ≠ i + 1), rd_wr_ne _ _ _ _ (by omega),
      rd_wr_same]
    have e : to_byte (rd b i + 1) = rd b i + 1 := by
      unfold to_byte
      omega
    obtain ⟨-, -, t3, t4⟩ := repeat_byte_spec (rd b i) hlo hhi
    rw [e, t3, t4, c']
    refine ⟨by omega, by omega, by omega, by omega, ?_⟩
    intro j h1 h2
    rw [rd_wr_ne _ _ _ _ h1, rd_wr_ne _ _ _ _ h2]

/-- C27: when `offset > 7`, the bytes at `offset - 4` and `offset - 3` are a repeat
marker `(rh, rl)` with `0xF0 ≤ rh ≤ 0xF7`, and the pair at `offset - 6` equals the pair
at `offset - 2`, then for `(rh, rl) ≠ (0xF7, 0xFF)` `combine_meta_patterns` returns
`true`, the count `((rh & 0x0F) << 8) + rl` read from the two marker bytes has grown by
exactly one, no other byte has changed and `offset` is lower by 2; for
`(rh, rl) = (0xF7, 0xFF)` it returns `false` and leaves the buffer and `offset` as they
are. -/
theorem C27_repeat_extension (c : combine_state) (h7 : c.offset > 7)
    (hlo : 0xf0 ≤ rd c.p_buffer (c.offset - 4)) (hhi : rd c.p_buffer (c.offset - 4) ≤ 0xf7)
    (hrl : rd c.p_buffer (c.offset - 3) ≤ 0xff)
    (h1 : rd c.p_buffer (c.offset - 6) = rd c.p_buffer (c.offset - 2))
    (h2 : rd c.p_buffer (c.offset - 5) = rd c.p_buffer (c.offset - 1)) :
    (¬ (rd c.p_buffer (c.offset - 4) = 0xf7 ∧ rd c.p_buffer (c.offset - 3) = 0xff) →
        ∃ c', combine_meta_patterns c = some (c', true) ∧ c'.offset = c.offset - 2
          ∧ ((rd c'.p_buffer (c.offset - 4) &&& 0x0f) <<< 8) + rd c'.p_buffer (c.offset - 3)
            = ((rd c.p_buffer (c.offset - 4) &&& 0x0f) <<< 8) + rd c.p_buffer (c.offset - 3) + 1
          ∧ 0xf0 ≤ rd c'.p_buffer (c.offset - 4) ∧ rd c'.p_buffer (c.offset - 4) ≤ 0xf7
          ∧ rd c'.p_buffer (c.offset - 3) ≤ 0xff
          ∧ ∀ j, j ≠ c.offset - 4 → j ≠ c.offset - 3 → rd c'.p_buffer j = rd c.p_buffer j)
      ∧ (rd c.p_buffer (c.offset - 4) = 0xf7 ∧ rd c.p_buffer (c.offset - 3) = 0xff →
        ∃ c', combine_meta_patterns c = some (c', false) ∧ c'.p_buffer = c.p_buffer
          ∧ c'.offset = c.offset) := by
  obtain ⟨m, hm⟩ := remove_offsets_from_returns c.meta_patterns (c.offset - 6) (by omega)
  have hF := (repeat_byte_spec _ hlo hhi).1
  have e3 : c.offset - 4 + 1 = c.offset - 3 := by omega
  have head : combine_meta_patterns c
      = (some m).map fun m =>
          if rd c.p_buffer (c.offset - 4) ≠ c_max_repeats_hi
              ∨ rd c.p_buffer (c.offset - 3) ≠ c_max_repeats_lo then
            (({ meta_patterns :=
                  if m.has_pattern
                      ⟨rd (increment_repeat c.p_buffer (c.offset - 4)) (c.offset - 6),
                       rd (increment_repeat c.p_buffer (c.offset - 4)) (c.offset - 5),
                       rd (increment_repeat c.p_buffer (c.offset - 4)) (c.offset - 4),
                       rd (increment_repeat c.p_buffer (c.offset - 4)) (c.offset - 3)⟩ = true
                  then m
                  else m.add_pattern
                      ⟨rd (increment_repeat c.p_buffer (c.offset - 4)) (c.offset - 6),
                       rd (increment_repeat c.p_buffer (c.offset - 4)) (c.offset - 5),
                       rd (increment_repeat c.p_buffer (c.offset - 4)) (c.offset - 4),
                       rd (increment_repeat c.p_buffer (c.offset - 4)) (c.offset - 3)⟩
                      (c.offset - 6)
                p_buffer := increment_repeat c.p_buffer (c.offset - 4)
                offset := c.offset - 2
                last_pattern_offset := size_sub (c.offset - 2) 4 } : combine_state), true)
          else ({ c with meta_patterns := m }, false) := by
    unfold combine_meta_patterns
    dsimp only
    rw [if_pos (show c.offset > c_min_pat_length + c_meta_pat_length from h7),
      if_neg (fun hc => hc hF), if_pos ⟨h1.symm, h2.symm⟩, hm]
  rw [head]
  constructor
  · intro hne
    have hmax : rd c.p_buffer (c.offset - 4) ≠ c_max_repeats_hi
        ∨ rd c.p_buffer (c.offset - 3) ≠ c_max_repeats_lo := by
      unfold c_max_repeats_hi c_max_repeats_lo
      omega
    have hmax' : rd c.p_buffer (c.offset - 4) ≠ c_max_repeats_hi
        ∨ rd c.p_buffer (c.offset - 4 + 1) ≠ c_max_repeats_lo := by
      rw [e3]
      exact hmax
    have sp := increment_repeat_spec c.p_buffer (c.offset - 4) hlo hhi (by rw [e3]; exact hrl) hmax'
    rw [e3] at sp
    rw [Option.map_some', if_pos hmax]
    exact ⟨_, rfl, rfl, sp.1, sp.2.1, sp.2.2.1, sp.2.2.2.1, sp.2.2.2.2⟩
  · intro heq
    have hmax : ¬ (rd c.p_buffer (c.offset - 4) ≠ c_max_repeats_hi
        ∨ rd c.p_buffer (c.offset - 3) ≠ c_max_repeats_lo) := by
      unfold c_max_repeats_hi c_max_repeats_lo
      omega
    rw [Option.map_some', if_neg hmax]
    exact ⟨_, rfl, rfl, rfl⟩

/-- C27 on `… 80 00 F0 FF 80 00`: the marker becomes `F1 00` (count 255 to 256) and
`offset` drops from 10 to 8. -/
theorem C27_witness :
    (combine_meta_patterns carry_state).map (fun r => (r.1.p_buffer, r.1.offset, r.2))
        = some ([1, 2, 3, 4, 0x80, 0x00, 0xf1, 0x00, 0x80, 0x00], 8, true)
      ∧ ∃ c', combine_meta_patterns carry_state = some (c', true)
        ∧ c'.offset = carry_state.offset - 2 :=
  ⟨by decide,
    ((C27_repeat_extension carry_state (by decide) (by decide) (by decide) (by decide)
      (by decide) (by decide)).1 (by decide)).imp fun _ h => ⟨h.1, h.2.1⟩⟩

theorem map_find_of_mem_sorted {V : Type} (m : List (Nat × V))
    (hs : m.Pairwise (fun a b => a.1 < b.1)) (k : Nat) (v : V) (h : (k, v) ∈ m) :
    map_find m k = some v := by
  induction m with
  | nil => cases h
  | cons a m ih =>
    rw [map_find_cons]
    rw [List.pairwise_cons] at hs
    rcases List.mem_cons.mp h with h1 | h1
    · rw [← h1, if_pos rfl]
    · have := hs.1 _ h1
      rw [if_neg (by intro e; simp only at this; omega)]
      exact ih hs.2 h1

/-- In a synchronized dictionary kept in key order `pattern_offset` returns the offset
at which a known pattern is bound. -/
theorem pattern_offset_spec (m : meta_pattern_info)
    (hsort : m.offsets.Pairwise (fun a b => a.1 < b.1)) (hs : synchronized m)
    (p : meta_pattern) (hp : m.has_pattern p = true) :
    map_find m.offsets (m.pattern_offset p) = some p := by
  obtain ⟨v, hv⟩ := (has_pattern_iff m p).mp hp
  obtain ⟨o, ho⟩ := hs.offset_of_pattern p v hv
  have hm := mem_of_map_find _ _ _ ho
  unfold meta_pattern_info.pattern_offset
  rw [if_pos hp]
  cases hf : m.offsets.find? (fun e => decide (e.2 = p)) with
  | none =>
    rw [List.find?_eq_none] at hf
    exact absurd (decide_eq_true (rfl : (o, p).2 = p)) (hf _ hm)
  | some e =>
    have h1 := List.mem_of_find?_eq_some hf
    have h0 := List.find?_some hf
    have h2 : e.2 = p := of_decide_eq_true h0
    show map_find m.offsets e.1 = some p
    rw [← h2]
    exact map_find_of_mem_sorted m.offsets hsort e.1 e.2 h1

/-- The simple replace of `combine_meta_patterns` on a synchronized dictionary, for a
pattern bound below `offset - 6`: the two bytes at `offset - 4` become the pair stored
for the pattern, `offset` drops by 2 and the result is `true`. -/
theorem combine_simple_replace (c : combine_state) (h7 : c.offset > 7)
    (hsort : c.meta_patterns.offsets.Pairwise (fun a b => a.1 < b.1))
    (hs : synchronized c.meta_patterns)
    (hn : (rd c.p_buffer (c.offset - 4) &&& 0xf0) ≠ 0xf0)
    (hp : c.meta_patterns.has_pattern
        ⟨rd c.p_buffer (c.offset - 4), rd c.p_buffer (c.offset - 3),
         rd c.p_buffer (c.offset - 2), rd c.p_buffer (c.offset - 1)⟩ = true)
    (ho : c.meta_patterns.pattern_offset
        ⟨rd c.p_buffer (c.offset - 4), rd c.p_buffer (c.offset - 3),
         rd c.p_buffer (c.offset - 2), rd c.p_buffer (c.offset - 1)⟩ < c.offset - 6) :
    ∃ c', combine_meta_patterns c = some (c', true) ∧ c'.offset = c.offset - 2
      ∧ (rd c'.p_buffer (c.offset - 4), rd c'.p_buffer (c.offset - 3))
        = map_get c.meta_patterns.patterns
            ⟨rd c.p_buffer (c.offset - 4), rd c.p_buffer (c.offset - 3),
             rd c.p_buffer (c.offset - 2), rd c.p_buffer (c.offset - 1)⟩ (0, 0)
      ∧ ∀ j, j ≠ c.offset - 4 → j ≠ c.offset - 3 → rd c'.p_buffer j = rd c.p_buffer j := by
  obtain ⟨m, hm⟩ := remove_offsets_from_returns c.meta_patterns (c.offset - 6) (by omega)
  have hb := pattern_offset_spec c.meta_patterns hsort hs _ hp
  have hk := remove_offsets_loop_keeps (c.offset - 6) _ c.meta_patterns m hs hm _ _ ho hb
  have hold := hs.pattern_of_offset _ _ hb
  have hidx : m.index_pattern
      ⟨rd c.p_buffer (c.offset - 4), rd c.p_buffer (c.offset - 3),
       rd c.p_buffer (c.offset - 2), rd c.p_buffer (c.offset - 1)⟩
      = (m, map_get c.meta_patterns.patterns
          ⟨rd c.p_buffer (c.offset - 4), rd c.p_buffer (c.offset - 3),
           rd c.p_buffer (c.offset - 2), rd c.p_buffer (c.offset - 1)⟩ (0, 0)) := by
    unfold meta_pattern_info.index_pattern
    have h1 : map_count m.patterns
        ⟨rd c.p_buffer (c.offset - 4), rd c.p_buffer (c.offset - 3),
         rd c.p_buffer (c.offset - 2), rd c.p_buffer (c.offset - 1)⟩ = true :=
      (has_pattern_iff m _).mpr ⟨_, hk.2⟩
    rw [if_pos h1, map_get_eq_getD, map_get_eq_getD, hk.2, hold]
  have e3 : c.offset - 4 + 1 = c.offset - 3 := by omega
  unfold combine_meta_patterns
  dsimp only
  rw [if_pos (show c.offset > c_min_pat_length + c_meta_pat_length from h7),
    if_pos (show (rd c.p_buffer (c.offset - 4) &&& c_nibble_one) ≠ c_nibble_one from hn),
    if_pos ⟨hp, by omega⟩, hm, Option.map_some']
  unfold store_pattern_pair
  dsimp only
  rw [hidx, e3]
  refine ⟨_, rfl, rfl, ?_, ?_⟩
  · dsimp only
    rw [rd_wr_ne _ _ _ _ (by omega), rd_wr_same, rd_wr_same]
  · intro j h1 h2
    dsimp only
    rw [rd_wr_ne _ _ _ _ h2, rd_wr_ne _ _ _ _ h1]

/-- C25, failing state: the last four bytes `80 00 80 00` are a pattern that the
dictionary binds at offset 4, which is below `offset - 4 = 6`, and the pair stored for
it is `90 04`; `combine_meta_patterns` erases the binding (`remove_offsets_from( 4 )`)
before it reads the pair, stores `00 00` at the offsets 6 and 7 and leaves the pattern
in the dictionary with the pair `00 00` and without an offset. -/
theorem C25_simple_replace_writes_zero_pair :
    window_state.offset > 7
      ∧ window_state.meta_patterns.has_pattern ⟨0x80, 0x00, 0x80, 0x00⟩ = true
      ∧ window_state.meta_patterns.pattern_offset ⟨0x80, 0x00, 0x80, 0x00⟩ = 4
      ∧ map_get window_state.meta_patterns.patterns ⟨0x80, 0x00, 0x80, 0x00⟩ (0, 0) = (0x90, 0x04)
      ∧ combine_meta_patterns window_state
        = some (⟨⟨[], [(⟨0x80, 0x00, 0x80, 0x00⟩, (0, 0))]⟩,
            [1, 2, 3, 4, 0x80, 0x00, 0x00, 0x00, 0x80, 0x00], 8, 6⟩, true) := by
  decide

theorem combine_meta_patterns_offset_ge (c c' : combine_state) (b : Bool)
    (h : combine_meta_patterns c = some (c', b)) : c.offset ≤ c'.offset + 2 := by
  unfold combine_meta_patterns at h
  dsimp only at h
  split_ifs at h
  all_goals
    first
      | (rw [← (Prod.mk.inj (Option.some.inj h)).1]
         exact Nat.le_add_right _ _)
      | (simp only [Option.map_eq_some'] at h
         obtain ⟨m, -, hm⟩ := h
         rw [← (Prod.mk.inj hm).1]
         first
           | exact Nat.le_add_right _ _
           | (show c.offset ≤ c.offset - 2 + 2
              omega))

theorem perform_combines_loop_offset_ge (n : Nat) (c c' : combine_state)
    (h : perform_combines_loop n c = some c') : c.offset ≤ c'.offset + 2 * n := by
  induction n generalizing c with
  | zero =>
    rw [perform_combines_loop] at h
    rw [← Option.some.inj h]
    exact Nat.le_add_right _ _
  | succ n ih =>
    rw [perform_combines_loop] at h
    split at h
    · exact absurd h (by simp)
    · rename_i u hu
      have h1 := ih u h
      have h2 := combine_meta_patterns_offset_ge _ _ _ hu
      omega
    · rename_i u hu
      rw [← Option.some.inj h]
      have h2 := combine_meta_patterns_offset_ge _ _ _ hu
      omega

/-- When `perform_meta_combines` returns, `offset` has not grown and is lower by at most
`2 * c_max_combines = 10`. -/
theorem perform_meta_combines_offset_bounds (c c' : combine_state)
    (h : perform_meta_combines c = some c') :
    c'.offset ≤ c.offset ∧ c.offset ≤ c'.offset + 10 :=
  ⟨perform_meta_combines_offset_le c c' h, perform_combines_loop_offset_ge _ c c' h⟩

/-- C28, failing state: at `offset = 8` with the bytes `41 42 F0 00` at the offsets 2..5,
another pair after them and the pattern `41 42 F0 00` bound at offset 0,
`combine_meta_patterns` takes the branch that calls `remove_offsets_from( offset - 8 )`,
which is `remove_offsets_from( 0 )`: its loop does not end for any amount of fuel, so the
first call of `combine_meta_patterns` made by `perform_meta_combines` does not return. -/
theorem C28_combine_does_not_return :
    endless_state.offset > 7
      ∧ endless_state.meta_patterns.has_pattern ⟨0x41, 0x42, 0xf0, 0x00⟩ = true
      ∧ endless_state.meta_patterns.pattern_offset ⟨0x41, 0x42, 0xf0, 0x00⟩ < endless_state.offset - 6
      ∧ (∀ fuel m, meta_pattern_info.remove_offsets_loop (endless_state.offset - 8) fuel m = none)
      ∧ combine_meta_patterns endless_state = none
      ∧ perform_meta_combines endless_state = none :=
  ⟨by decide, by decide, by decide, fun fuel m => remove_offsets_loop_zero fuel m, by decide,
    by decide⟩

/-! ## `expand_meta_pattern` -/

theorem rd_range_getD (b : Buf) (i n k : Nat) (h : k < n) :
    (rd_range b i n).getD k 0 = rd b (i + k) := by
  unfold rd_range
  rw [List.getD_eq_getElem?_getD, List.getElem?_map, List.getElem?_range h]
  rfl

theorem marker_pat_length_ge (byte1 : Nat) : 3 ≤ marker_pat_length byte1 := by
  unfold marker_pat_length c_min_pat_length
  omega

/-- A call of `expand_meta_pattern` on an input that starts with a marker: the bytes at
the offset of the marker are read, and they are the result unless the first of them has
its high bit set. -/
theorem expand_meta_pattern_marker (p_encoded : Buf) (fuel byte1 byte2 : Nat) (rest : List Nat)
    (h1 : (byte1 &&& c_high_bit_value) ≠ 0) :
    expand_meta_pattern p_encoded (fuel + 1) (byte1 :: byte2 :: rest)
      = if (rd p_encoded (marker_pat_offset byte1 byte2) &&& c_high_bit_value) ≠ 0 then
          match expand_meta_pattern p_encoded fuel
              ((rd_range p_encoded (marker_pat_offset byte1 byte2) (marker_pat_length byte1)).take 2) with
          | none => none
          | some first =>
            if (rd p_encoded (marker_pat_offset byte1 byte2 + 2) &&& c_nibble_one) = c_nibble_one then
              some (List.replicate
                (((rd p_encoded (marker_pat_offset byte1 byte2 + 2) &&& c_nibble_two) <<< 8)
                  + ((rd_range p_encoded (marker_pat_offset byte1 byte2)
                      (marker_pat_length byte1)).getD 3 0 + 1) + 1) first).flatten
            else
              (expand_meta_pattern p_encoded fuel
                ((rd_range p_encoded (marker_pat_offset byte1 byte2)
                  (marker_pat_length byte1)).drop 2)).map (fun second => first ++ second)
        else some (rd_range p_encoded (marker_pat_offset byte1 byte2) (marker_pat_length byte1)) := by
  have hl := marker_pat_length_ge byte1
  rw [expand_meta_pattern]
  have c1 : (byte1 :: byte2 :: rest).length ≥ 2
      ∧ ((byte1 :: byte2 :: rest).getD 0 0 &&& c_high_bit_value) ≠ 0 :=
    ⟨by simp, h1⟩
  rw [if_pos c1]
  simp only [List.getD_cons_zero, List.getD_cons_succ]
  have c2 : (rd_range p_encoded (marker_pat_offset byte1 byte2) (marker_pat_length byte1)).length
      ≥ c_meta_pat_length - 1 := by
    rw [rd_range_length]
    exact hl
  rw [if_pos c2, rd_range_getD _ _ _ 0 (by omega),
    show c_meta_pat_length - 2 = 2 from rfl, show c_meta_pat_length - 1 = 3 from rfl,
    rd_range_getD _ _ _ 2 (by omega)]
  rfl

/-- C29: for every encoded buffer and every marker `(byte1, byte2)` with the high bit of
`byte1` set, when the buffer byte at `pat_offset = ((byte1 & 0x0F) << 8) + byte2` has its
high bit clear, `expand_meta_pattern` returns (with any fuel) exactly the
`pat_length = ((byte1 & 0x70) >> 4) + 3` buffer bytes from `pat_offset` on; and an input
whose first byte has its high bit clear is returned unchanged. -/
theorem C29_plain_back_ref_expansion (p_encoded : Buf) (fuel byte1 byte2 : Nat)
    (h1 : (byte1 &&& 0x80) ≠ 0)
    (h2 : (rd p_encoded (((byte1 &&& 0x0f) <<< 8) + byte2) &&& 0x80) = 0) :
    expand_meta_pattern p_encoded (fuel + 1) [byte1, byte2]
        = some (rd_range p_encoded (((byte1 &&& 0x0f) <<< 8) + byte2)
            (((byte1 &&& 0x70) >>> 4) + 3))
      ∧ (rd_range p_encoded (((byte1 &&& 0x0f) <<< 8) + byte2)
            (((byte1 &&& 0x70) >>> 4) + 3)).length = ((byte1 &&& 0x70) >>> 4) + 3
      ∧ ∀ b rest, (b &&& 0x80) = 0 →
          expand_meta_pattern p_encoded (fuel + 1) (b :: rest) = some (b :: rest) := by
  refine ⟨?_, rd_range_length _ _ _, ?_⟩
  · rw [expand_meta_pattern_marker p_encoded fuel byte1 byte2 [] h1]
    have c : ¬ (rd p_encoded (marker_pat_offset byte1 byte2) &&& c_high_bit_value) ≠ 0 :=
      fun hc => hc h2
    rw [if_neg c]
    rfl
  · intro b rest hb
    rw [expand_meta_pattern]
    have c : ¬ ((b :: rest).length ≥ 2 ∧ ((b :: rest).getD 0 0 &&& c_high_bit_value) ≠ 0) :=
      fun hc => hc.2 hb
    rw [if_neg c]

/-- C29 on the buffer `41 42 43 44 45 A0 00`: the marker `A0 00` (length 5, offset 0)
expands to the five literals, and the literals `41 42` expand to themselves. -/
theorem C29_witness :
    ((0xa0 &&& 0x80) ≠ 0 ∧ (rd [0x41, 0x42, 0x43, 0x44, 0x45, 0xa0, 0x00] 0 &&& 0x80) = 0)
      ∧ expand_meta_pattern [0x41, 0x42, 0x43, 0x44, 0x45, 0xa0, 0x00] expand_meta_fuel [0xa0, 0x00]
        = some [0x41, 0x42, 0x43, 0x44, 0x45] :=
  ⟨⟨by decide, by decide⟩,
    (C29_plain_back_ref_expansion [0x41, 0x42, 0x43, 0x44, 0x45, 0xa0, 0x00] 32768 0xa0 0x00
      (by decide) (by decide)).1⟩

/-- More fuel does not change a result of `expand_meta_pattern`. -/
theorem expand_meta_pattern_succ (p_encoded : Buf) (fuel : Nat) (pat r : List Nat)
    (h : expand_meta_pattern p_encoded fuel pat = some r) :
    expand_meta_pattern p_encoded (fuel + 1) pat = some r := by
  induction fuel generalizing pat r with
  | zero =>
    rw [expand_meta_pattern] at h
    cases h
  | succ n ih =>
    rw [expand_meta_pattern] at h
    rw [expand_meta_pattern]
    by_cases c1 : pat.length ≥ 2 ∧ (pat.getD 0 0 &&& c_high_bit_value) ≠ 0
    · rw [if_pos c1] at h ⊢
      dsimp only at h ⊢
      by_cases c2 : ((rd_range p_encoded (marker_pat_offset (pat.getD 0 0) (pat.getD 1 0))
          (marker_pat_length (pat.getD 0 0))).getD 0 0 &&& c_high_bit_value) ≠ 0
      · rw [if_pos c2] at h ⊢
        by_cases c3 : (rd_range p_encoded (marker_pat_offset (pat.getD 0 0) (pat.getD 1 0))
            (marker_pat_length (pat.getD 0 0))).length ≥ c_meta_pat_length - 1
        · rw [if_pos c3] at h ⊢
          cases e1 : expand_meta_pattern p_encoded n
              ((rd_range p_encoded (marker_pat_offset (pat.getD 0 0) (pat.getD 1 0))
                (marker_pat_length (pat.getD 0 0))).take (c_meta_pat_length - 2)) with
          | none =>
            rw [e1] at h
            cases h
          | some first =>
            rw [e1] at h
            rw [ih _ _ e1]
            dsimp only at h ⊢
            by_cases c4 : ((rd_range p_encoded (marker_pat_offset (pat.getD 0 0) (pat.getD 1 0))
                (marker_pat_length (pat.getD 0 0))).getD (c_meta_pat_length - 2) 0
                  &&& c_nibble_one) = c_nibble_one
            · rw [if_pos c4] at h ⊢
              exact h
            · rw [if_neg c4] at h ⊢
              rw [Option.map_eq_some'] at h
              obtain ⟨second, e2, hr⟩ := h
              rw [ih _ _ e2, Option.map_some', hr]
        · rw [if_neg c3] at h ⊢
          exact h
      · rw [if_neg c2] at h ⊢
        exact h
    · rw [if_neg c1] at h ⊢
      exact h

theorem expand_meta_pattern_mono (p_encoded : Buf) (fuel fuel' : Nat) (pat r : List Nat)
    (hle : fuel ≤ fuel') (h : expand_meta_pattern p_encoded fuel pat = some r) :
    expand_meta_pattern p_encoded fuel' pat = some r := by
  induction hle with
  | refl => exact h
  | step _ ih => exact expand_meta_pattern_succ _ _ _ _ ih

/-- C30: for a marker `(byte1, byte2)` that reads four bytes `p` (length field 1) of
which the first has its high bit set, and with `first` the expansion of the pair
`p[0..2]`: if `p[2]` has high nibble 0xF, `expand_meta_pattern` returns `first`
concatenated `reps + 1` times, where `reps = ((p[2] & 0x0F) << 8) + p[3] + 1`;
otherwise, with `second` the expansion of `p[2..4]`, it returns `first` followed by
`second`.  The result is reached with one unit of fuel more than the expansions of the
pairs take, and with any larger fuel. -/
theorem C30_meta_pattern_expansion (p_encoded : Buf) (byte1 byte2 f1 : Nat) (first : List Nat)
    (h1 : (byte1 &&& 0x80) ≠ 0) (h4 : ((byte1 &&& 0x70) >>> 4) + 3 = 4)
    (hp : (rd p_encoded (((byte1 &&& 0x0f) <<< 8) + byte2) &&& 0x80) ≠ 0)
    (hf : expand_meta_pattern p_encoded f1
        [rd p_encoded (((byte1 &&& 0x0f) <<< 8) + byte2),
         rd p_encoded (((byte1 &&& 0x0f) <<< 8) + byte2 + 1)] = some first) :
    ((rd p_encoded (((byte1 &&& 0x0f) <<< 8) + byte2 + 2) &&& 0xf0) = 0xf0 →
        ∀ fuel, f1 + 1 ≤ fuel →
          expand_meta_pattern p_encoded fuel [byte1, byte2]
            = some (List.replicate
                (((rd p_encoded (((byte1 &&& 0x0f) <<< 8) + byte2 + 2) &&& 0x0f) <<< 8)
                  + rd p_encoded (((byte1 &&& 0x0f) <<< 8) + byte2 + 3) + 1 + 1) first).flatten)
      ∧ ((rd p_encoded (((byte1 &&& 0x0f) <<< 8) + byte2 + 2) &&& 0xf0) ≠ 0xf0 →
        ∀ f2 second,
          expand_meta_pattern p_encoded f2
            [rd p_encoded (((byte1 &&& 0x0f) <<< 8) + byte2 + 2),
             rd p_encoded (((byte1 &&& 0x0f) <<< 8) + byte2 + 3)] = some second →
          ∀ fuel, f1 + 1 ≤ fuel → f2 + 1 ≤ fuel →
            expand_meta_pattern p_encoded fuel [byte1, byte2] = some (first ++ second)) := by
  have hlen : marker_pat_length byte1 = 4 := h4
  have hrange : rd_range p_encoded (marker_pat_offset byte1 byte2) 4
      = [rd p_encoded (marker_pat_offset byte1 byte2),
         rd p_encoded (marker_pat_offset byte1 byte2 + 1),
         rd p_encoded (marker_pat_offset byte1 byte2 + 2),
         rd p_encoded (marker_pat_offset byte1 byte2 + 3)] := rfl
  have step : ∀ n, expand_meta_pattern p_encoded (n + 1) [byte1, byte2]
      = match expand_meta_pattern p_encoded n
            [rd p_encoded (marker_pat_offset byte1 byte2),
             rd p_encoded (marker_pat_offset byte1 byte2 + 1)] with
        | none => none
        | some first =>
          if (rd p_encoded (marker_pat_offset byte1 byte2 + 2) &&& c_nibble_one) = c_nibble_one then
            some (List.replicate
              (((rd p_encoded (marker_pat_offset byte1 byte2 + 2) &&& c_nibble_two) <<< 8)
                + (rd p_encoded (marker_pat_offset byte1 byte2 + 3) + 1) + 1) first).flatten
          else
            (expand_meta_pattern p_encoded n
              [rd p_encoded (marker_pat_offset byte1 byte2 + 2),
               rd p_encoded (marker_pat_offset byte1 byte2 + 3)]).map (fun second => first ++ second) := by
    intro n
    rw [expand_meta_pattern_marker p_encoded n byte1 byte2 [] h1, hlen, hrange]
    rw [if_pos (show (rd p_encoded (marker_pat_offset byte1 byte2) &&& c_high_bit_value) ≠ 0 from hp)]
    rfl
  constructor
  · intro hF fuel hfuel
    obtain ⟨n, rfl⟩ : ∃ n, fuel = n + 1 := ⟨fuel - 1, by omega⟩
    have e1 := expand_meta_pattern_mono p_encoded f1 n _ _ (by omega) hf
    rw [step n]
    have e1' : expand_meta_pattern p_encoded n
        [rd p_encoded (marker_pat_offset byte1 byte2),
         rd p_encoded (marker_pat_offset byte1 byte2 + 1)] = some first := e1
    rw [e1']
    dsimp only
    rw [if_pos (show (rd p_encoded (marker_pat_offset byte1 byte2 + 2) &&& c_nibble_one)
      = c_nibble_one from hF)]
    rfl
  · intro hF f2 second hs fuel hfuel1 hfuel2
    obtain ⟨n, rfl⟩ : ∃ n, fuel = n + 1 := ⟨fuel - 1, by omega⟩
    have e1 : expand_meta_pattern p_encoded n
        [rd p_encoded (marker_pat_offset byte1 byte2),
         rd p_encoded (marker_pat_offset byte1 byte2 + 1)] = some first :=
      expand_meta_pattern_mono p_encoded f1 n _ _ (by omega) hf
    have e2 : expand_meta_pattern p_encoded n
        [rd p_encoded (marker_pat_offset byte1 byte2 + 2),
         rd p_encoded (marker_pat_offset byte1 byte2 + 3)] = some second :=
      expand_meta_pattern_mono p_encoded f2 n _ _ (by omega) hs
    rw [step n, e1]
    dsimp only
    rw [if_neg (show ¬ (rd p_encoded (marker_pat_offset byte1 byte2 + 2) &&& c_nibble_one)
      = c_nibble_one from hF), e2]
    rfl

/-- C30 on `meta_buffer`: the marker `90 03` reads `80 00 F0 01` and expands to three
times `ABC`; the marker `90 07` reads `80 00 80 00` and expands to `ABC ABC`. -/
theorem C30_witness :
    expand_meta_pattern meta_buffer 1 [0x80, 0x00] = some [0x41, 0x42, 0x43]
      ∧ expand_meta_pattern meta_buffer expand_meta_fuel [0x90, 0x03]
        = some [0x41, 0x42, 0x43, 0x41, 0x42, 0x43, 0x41, 0x42, 0x43]
      ∧ expand_meta_pattern meta_buffer expand_meta_fuel [0x90, 0x07]
        = some [0x41, 0x42, 0x43, 0x41, 0x42, 0x43] :=
  ⟨by decide,
    (C30_meta_pattern_expansion meta_buffer 0x90 0x03 1 [0x41, 0x42, 0x43] (by decide) (by decide)
      (by decide) (by decide)).1 (by decide) expand_meta_fuel (by decide),
    (C30_meta_pattern_expansion meta_buffer 0x90 0x07 1 [0x41, 0x42, 0x43] (by decide) (by decide)
      (by decide) (by decide)).2 (by decide) 1 [0x41, 0x42, 0x43] (by decide) expand_meta_fuel
      (by decide) (by decide)⟩

/-! ## The binding added by `replace_meta_pattern` -/

theorem remove_offsets_loop_above (start fuel : Nat) (m m' : meta_pattern_info)
    (hs : m.offsets.Pairwise (fun a b => a.1 < b.1))
    (h : meta_pattern_info.remove_offsets_loop start fuel m = some m') (o : Nat)
    (ho : start ≤ o) : map_find m'.offsets o = none := by
  induction fuel generalizing m with
  | zero => cases h
  | succ n ih =>
    rw [meta_pattern_info.remove_offsets_loop] at h
    by_cases c : m.last_offset < start
    · simp only [if_pos c] at h
      rw [← Option.some.inj h]
      cases hq : map_find m.offsets o with
      | none => rfl
      | some p =>
        have := key_le_last_offset m hs o p hq
        omega
    · simp only [if_neg c] at h
      exact ih _ (remove_at_offset_sorted m _ hs) h

/-- C21, counterexample.  On the input `AAABAABAAA` the state after four rounds of the
main loop has `output_offset = 6` and the binding `4 -> 80 01 80 00`; the buffer holds
`80 01` at the offsets 4 and 5 and nothing at 6 and 7 yet (the pair `80 00` is still at
the front of the input buffer), so the bound four bytes do not lie before
`output_offset`.  On `stale_input` the state after twenty rounds has
`output_offset = 20` and the binding `16 -> 80 0A 90 06`, while the buffer holds
`80 0A 80 0D` at the offsets 16..19: `replace_extra_pattern` has stored `80 0D` over
`90 06` and the binding is still there.  In both states `check_meta_patterns` run up to
`output_offset` reports an invalid pattern. -/
theorem C21_counterexample :
    (encode_rounds 4
        (encode_init [0x41, 0x41, 0x41, 0x42, 0x41, 0x41, 0x42, 0x41, 0x41, 0x41])).map
      (discipline_view 4)
      = some (6, [(4, ⟨0x80, 0x01, 0x80, 0x00⟩)], [0x80, 0x01, 0, 0], [0x80, 0x00], false)
      ∧ (encode_rounds 20 (encode_init stale_input)).map (discipline_view 16)
        = some (20, [(6, ⟨0x80, 0x03, 0x80, 0x00⟩), (16, ⟨0x80, 0x0a, 0x90, 0x06⟩)],
            [0x80, 0x0a, 0x80, 0x0d], [0x69, 0x78], false) := by
  constructor
  · decide!
  · decide!

/-- C21 (amended): when `replace_meta_pattern` is called at `offset ≥ 3` with a pair
`(new_byte1, new_byte2)` that differs from the pair in the buffer at `offset`, the first
buffer byte there does not have high nibble 0xF, and the pattern made of the buffer pair
and the new pair is not known, it returns `false`, leaves the buffer and `end_offset`
unchanged and hands the new pair back; afterwards the dictionary binds `offset` to that
pattern, with the pair of `add_pattern`, and holds no binding above `offset`.  The last
two bytes of the bound pattern are thus not in the buffer: for
`offset = end_offset - 2` they belong at `end_offset` and `end_offset + 1`. -/
theorem C21_pending_binding (meta_patterns : meta_pattern_info) (p_buffer : Buf)
    (offset new_byte1 new_byte2 end_offset last_pattern_offset : Nat)
    (hsort : meta_patterns.offsets.Pairwise (fun a b => a.1 < b.1))
    (h3 : offset ≥ 3) (hn : (rd p_buffer offset &&& 0xf0) ≠ 0xf0)
    (hd : ¬ (rd p_buffer offset = new_byte1 ∧ rd p_buffer (offset + 1) = new_byte2))
    (hnew : meta_patterns.has_pattern
      ⟨rd p_buffer offset, rd p_buffer (offset + 1), new_byte1, new_byte2⟩ = false) :
    ∃ r, replace_meta_pattern meta_patterns p_buffer offset new_byte1 new_byte2 end_offset
          last_pattern_offset = some r
      ∧ r.was_replaced = false ∧ r.p_buffer = p_buffer ∧ r.end_offset = end_offset
      ∧ r.new_byte1 = new_byte1 ∧ r.new_byte2 = new_byte2
      ∧ r.meta_patterns.has_offset offset = true
      ∧ map_get r.meta_patterns.offsets offset ⟨0, 0, 0, 0⟩
        = ⟨rd p_buffer offset, rd p_buffer (offset + 1), new_byte1, new_byte2⟩
      ∧ map_get r.meta_patterns.patterns
          ⟨rd p_buffer offset, rd p_buffer (offset + 1), new_byte1, new_byte2⟩ (0, 0)
        = pattern_pair offset
      ∧ ∀ o, offset < o → r.meta_patterns.has_offset o = false := by
  obtain ⟨m, hm⟩ := remove_offsets_from_returns meta_patterns offset (by omega)
  have habove := remove_offsets_loop_above offset _ meta_patterns m hsort hm
  have hsame : decide ((rd p_buffer offset &&& c_nibble_one) ≠ c_nibble_one
      ∧ rd p_buffer offset = new_byte1 ∧ rd p_buffer (offset + 1) = new_byte2) = false :=
    decide_eq_false (fun hc => hd hc.2)
  unfold replace_meta_pattern
  dsimp only
  rw [if_pos (show offset ≥ c_min_pat_length from h3), hsame]
  simp only [Bool.false_eq_true, if_false]
  rw [if_neg (by rw [hnew]; decide),
    if_pos (show (rd p_buffer offset &&& c_nibble_one) ≠ c_nibble_one from hn), hm,
    Option.map_some']
  refine ⟨_, rfl, rfl, rfl, rfl, rfl, rfl, ?_, ?_, ?_, ?_⟩
  · show meta_pattern_info.has_offset (m.add_pattern _ offset) offset = true
    rw [has_offset_iff, find_offsets_add, if_pos rfl]
    exact ⟨_, rfl⟩
  · show map_get (m.add_pattern _ offset).offsets offset _ = _
    rw [map_get_eq_getD, find_offsets_add, if_pos rfl]
    rfl
  · show map_get (m.add_pattern _ offset).patterns _ _ = _
    rw [map_get_eq_getD, find_patterns_add, if_pos rfl]
    rfl
  · intro o ho
    show meta_pattern_info.has_offset (m.add_pattern _ offset) o = false
    rw [has_offset_false_iff, find_offsets_add, if_neg (by omega)]
    exact habove o (by omega)

/-- C21 (amended) at the call made in the fourth round on `AAABAABAAA`: the buffer is
`41 41 41 42 80 01`, `offset = 4`, `end_offset = 6`, and the new pair is `80 00`. -/
theorem C21_witness :
    (replace_meta_pattern meta_pattern_info.empty [0x41, 0x41, 0x41, 0x42, 0x80, 0x01] 4
        0x80 0x00 6 0).map (fun r => (r.meta_patterns.offsets, r.p_buffer, r.end_offset))
      = some ([(4, ⟨0x80, 0x01, 0x80, 0x00⟩)], [0x41, 0x41, 0x41, 0x42, 0x80, 0x01], 6)
      ∧ ∃ r, replace_meta_pattern meta_pattern_info.empty [0x41, 0x41, 0x41, 0x42, 0x80, 0x01]
            4 0x80 0x00 6 0 = some r
        ∧ r.was_replaced = false ∧ r.p_buffer = [0x41, 0x41, 0x41, 0x42, 0x80, 0x01]
        ∧ r.end_offset = 6 :=
  ⟨by decide,
    (C21_pending_binding meta_pattern_info.empty [0x41, 0x41, 0x41, 0x42, 0x80, 0x01] 4 0x80
      0x00 6 0 (by simp [meta_pattern_info.empty]) (by decide) (by decide) (by decide)
      (by decide)).imp fun _ h => ⟨h.1, h.2.1, h.2.2.1, h.2.2.2.1⟩⟩

/-! ## Runs of one literal in the shrink pass -/

theorem literal_run_table_0 : ((List.range 32).all fun j => literal_run_ok j) = true := by
  decide!

theorem literal_run_table_1 : ((List.range 32).all fun j => literal_run_ok (32 + j)) = true := by
  decide!

theorem literal_run_table_2 : ((List.range 32).all fun j => literal_run_ok (64 + j)) = true := by
  decide!

theorem literal_run_table_3 : ((List.range 32).all fun j => literal_run_ok (96 + j)) = true := by
  decide!

theorem literal_run_table (b : Nat) (hb : b < 128) : literal_run_ok b = true := by
  have h0 := literal_run_table_0
  have h1 := literal_run_table_1
  have h2 := literal_run_table_2
  have h3 := literal_run_table_3
  rw [List.all_eq_true] at h0 h1 h2 h3
  have e : b = 32 * (b / 32) + b % 32 := (Nat.div_add_mod b 32).symm
  have hm : b % 32 < 32 := Nat.mod_lt _ (by decide)
  have hd : b / 32 < 4 := by omega
  generalize b / 32 = d at e hd
  generalize b % 32 = r at e hm
  subst e
  interval_cases d
  · simpa using h0 r (List.mem_range.mpr hm)
  · exact h1 r (List.mem_range.mpr hm)
  · exact h2 r (List.mem_range.mpr hm)
  · exact h3 r (List.mem_range.mpr hm)

/-- C35: for every 7-bit byte `b` and every `n` with `3 ≤ n ≤ 8`, `shrink_output` on the
block of `n` copies of `b` leaves the two-byte block `b, 0xF0 | (n - 2)`. -/
theorem C35_literal_run_shrink (b n : Nat) (hb : b < 128) (h3 : 3 ≤ n) (h8 : n ≤ 8) :
    shrink_block (List.replicate n b) = [b, 0xf0 ||| (n - 2)]
      ∧ (shrink_output (List.replicate n b) n).2 = 2 := by
  have h := literal_run_table b hb
  unfold literal_run_ok at h
  rw [List.all_eq_true] at h
  have h1 := of_decide_eq_true (h (n - 3) (List.mem_range.mpr (by omega)))
  have e1 : n - 3 + 3 = n := by omega
  have e2 : n - 3 + 1 = n - 2 := by omega
  rw [e1, e2] at h1
  exact h1

/-- C35 on five copies of `A`: the block becomes `41 F3`. -/
theorem C35_witness :
    (0x41 < 128 ∧ 3 ≤ 5 ∧ 5 ≤ 8)
      ∧ shrink_block [0x41, 0x41, 0x41, 0x41, 0x41] = [0x41, 0xf3] :=
  ⟨by decide, (C35_literal_run_shrink 0x41 5 (by decide) (by decide) (by decide)).1⟩

/-! ## Defects in the stepping runs, the combining and the dictionary loop -/

/-- C34 (code bug): the block `10 12 14 16 18` is a run of five literals with step 2.
`found_stepping_nibbles` finds the two nibble run but returns its step as `bool`, so
`shrink_output` holds the step 1: it writes the header `10 12 F9 10` and then expects
`0x13`; the count stays 0, the scratch `10 12 F9 10 14 16 18` is longer than the block
and the block is left as it is, where the claim has `10 12 F9 13`.  The runs with step 1,
up and down, are rewritten as claimed. -/
theorem C34_step_two_run_not_shrunk :
    found_stepping_nibbles [0x10, 0x12, 0x14, 0x16, 0x18] 0 5 true = (true, 2, true)
      ∧ shrink_scratch [0x10, 0x12, 0x14, 0x16, 0x18] 5
        = ([0x10, 0x12, 0xf9, 0x10, 0x14, 0x16, 0x18], 7)
      ∧ shrink_block [0x10, 0x12, 0x14, 0x16, 0x18] = [0x10, 0x12, 0x14, 0x16, 0x18]
      ∧ shrink_block [0x18, 0x16, 0x14, 0x12, 0x10] = [0x18, 0x16, 0x14, 0x12, 0x10]
      ∧ shrink_block [0x10, 0x11, 0x12, 0x13, 0x14] = [0x10, 0x11, 0xf9, 0x13]
      ∧ shrink_block [0x14, 0x13, 0x12, 0x11, 0x10] = [0x14, 0x13, 0xf9, 0x13] := by
  decide!

/-- C33 (code bug): after the ascending pair `4E 50` the bytes `F9 13` make
`expand_input` return the five bytes `4E 50 00 52 02` where the progression is
`4E 50 52 54 56`: the length grows by three, but every byte of the run is stored one cell
after the end of the data (`54` ends in the cell behind the five bytes), so the first
appended cell is never written and the next byte is computed from it.  After the
descending pair `50 4E` the result is `50 4E 00 50 02`: the step `0x50 - 0x4E = 2` is
added, where the progression continues with `4C`.  The blocks `10 11 12 13 14` and
`14 13 12 11 10`, which `shrink_output` rewrites to runs, come back as `10 11 00 12 01`
and `14 13 00 14 01`. -/
theorem C33_stepping_run_not_continued :
    expand_input [0x4e, 0x50, 0xf9, 0x13] c_max_encoded_chunk_size
        = ([0x4e, 0x50, 0x00, 0x52, 0x02, 0x54], 5, [])
      ∧ expand_input [0x50, 0x4e, 0xf9, 0x13] c_max_encoded_chunk_size
        = ([0x50, 0x4e, 0x00, 0x50, 0x02, 0x52], 5, [])
      ∧ expand_input (shrink_block [0x10, 0x11, 0x12, 0x13, 0x14]) c_max_encoded_chunk_size
        = ([0x10, 0x11, 0x00, 0x12, 0x01, 0x13], 5, [])
      ∧ expand_input (shrink_block [0x14, 0x13, 0x12, 0x11, 0x10]) c_max_encoded_chunk_size
        = ([0x14, 0x13, 0x00, 0x14, 0x01, 0x15], 5, []) := by
  decide!

/-- C36 (code bug): the last four bytes of `01 02 03 04 41 42 41 42` are 7-bit literals
and the dictionary is empty; `combine_meta_patterns` takes them for a pattern written
twice, stores `F0 00` over the second pair and returns `true`.  `encode_clz_data` on
these eight bytes writes `01 02 03 04 41 42 F0 00`, which `decode_clz_data` turns into
`01 02 03 04 41 42 42 00`. -/
theorem C36_combine_rewrites_literals :
    rd_range abab_state.p_buffer (abab_state.offset - 4) 4 = [0x41, 0x42, 0x41, 0x42]
      ∧ (combine_meta_patterns abab_state).map (fun r => (r.1.p_buffer, r.1.offset, r.2))
        = some ([1, 2, 3, 4, 0x41, 0x42, 0xf0, 0x00], 8, true)
      ∧ encode_clz_data [1, 2, 3, 4, 0x41, 0x42, 0x41, 0x42]
        = some [1, 2, 3, 4, 0x41, 0x42, 0xf0, 0x00]
      ∧ decode_clz_data [1, 2, 3, 4, 0x41, 0x42, 0xf0, 0x00]
        = some [1, 2, 3, 4, 0x41, 0x42, 0x42, 0x00] := by
  decide!

/-- C37 (code bug): with `start = 0` the loop of `remove_offsets_from` does not end on
any dictionary, whatever the number of rounds: the test `next < start` cannot hold, and
once the map is empty `remove_at_offset( 0 )` changes nothing.  The model returns `none`
on the empty dictionary. -/
theorem C37_remove_offsets_from_zero_does_not_end :
    (∀ fuel m, meta_pattern_info.remove_offsets_loop 0 fuel m = none)
      ∧ meta_pattern_info.empty.remove_offsets_from 0 = none
      ∧ meta_pattern_info.empty.last_offset = 0
      ∧ meta_pattern_info.empty.remove_at_offset 0 = meta_pattern_info.empty :=
  ⟨remove_offsets_loop_zero, by decide, by decide, by decide⟩

/-! ## Termination of `expand_meta_pattern` -/

theorem rd_range_succ (b : Buf) (i n : Nat) :
    rd_range b i (n + 1) = rd b i :: rd_range b (i + 1) n := by
  unfold rd_range
  rw [List.range_succ_eq_map, List.map_cons, List.map_map]
  congr 1
  apply List.map_congr_left
  intro k _
  show rd b (i + (k + 1)) = rd b (i + 1 + k)
  rw [Nat.add_assoc, Nat.add_comm 1 k]

theorem expand_meta_pattern_low (p_encoded : Buf) (fuel : Nat) (pat : List Nat)
    (h : ¬ (pat.length ≥ 2 ∧ (pat.getD 0 0 &&& c_high_bit_value) ≠ 0)) :
    expand_meta_pattern p_encoded (fuel + 1) pat = some pat := by
  rw [expand_meta_pattern, if_neg h]

/-- A call of `expand_meta_pattern` on an input that starts with a marker looks at the
first two bytes only. -/
theorem expand_meta_pattern_two (p_encoded : Buf) (fuel byte1 byte2 : Nat) (rest : List Nat)
    (h1 : (byte1 &&& c_high_bit_value) ≠ 0) :
    expand_meta_pattern p_encoded fuel (byte1 :: byte2 :: rest)
      = expand_meta_pattern p_encoded fuel [byte1, byte2] := by
  cases fuel with
  | zero => rfl
  | succ n =>
    rw [expand_meta_pattern_marker p_encoded n byte1 byte2 rest h1,
      expand_meta_pattern_marker p_encoded n byte1 byte2 [] h1]

/-- The recursion of `expand_meta_pattern` on a buffer in which every back-ref refers to
bytes that end before it and do not start with a repeat marker: fuel above the position
of a back-ref is enough for its expansion. -/
theorem expand_meta_pattern_returns (p_encoded : Buf)
    (hb : ∀ p, (rd p_encoded p &&& c_high_bit_value) ≠ 0
      → (rd p_encoded p &&& c_nibble_one) ≠ c_nibble_one
      → marker_pat_offset (rd p_encoded p) (rd p_encoded (p + 1))
          + marker_pat_length (rd p_encoded p) ≤ p
        ∧ ((rd p_encoded (marker_pat_offset (rd p_encoded p) (rd p_encoded (p + 1)))
              &&& c_high_bit_value) ≠ 0
          → (rd p_encoded (marker_pat_offset (rd p_encoded p) (rd p_encoded (p + 1)))
              &&& c_nibble_one) ≠ c_nibble_one))
    (n : Nat) :
    ∀ p, p < n → (rd p_encoded p &&& c_high_bit_value) ≠ 0
      → (rd p_encoded p &&& c_nibble_one) ≠ c_nibble_one
      → ∃ r, expand_meta_pattern p_encoded n [rd p_encoded p, rd p_encoded (p + 1)] = some r := by
  induction n with
  | zero =>
    intro p hp
    exact absurd hp (Nat.not_lt_zero _)
  | succ n ih =>
    intro p hp h1 h2
    obtain ⟨hle, hrep⟩ := hb p h1 h2
    have h3 := marker_pat_length_ge (rd p_encoded p)
    obtain ⟨k, hk⟩ : ∃ k, marker_pat_length (rd p_encoded p) = k + 3 :=
      ⟨marker_pat_length (rd p_encoded p) - 3, by omega⟩
    obtain ⟨m, rfl⟩ : ∃ m, n = m + 1 := ⟨n - 1, by omega⟩
    rw [expand_meta_pattern_marker p_encoded (m + 1) _ _ [] h1]
    generalize marker_pat_offset (rd p_encoded p) (rd p_encoded (p + 1)) = o at hle hrep ⊢
    rw [hk] at hle ⊢
    by_cases c1 : (rd p_encoded o &&& c_high_bit_value) ≠ 0
    · rw [if_pos c1]
      have e1 : (rd_range p_encoded o (k + 3)).take 2 = [rd p_encoded o, rd p_encoded (o + 1)] := by
        rw [rd_range_succ, rd_range_succ]
        rfl
      have e2 : (rd_range p_encoded o (k + 3)).drop 2
          = rd p_encoded (o + 2) :: rd_range p_encoded (o + 3) k := by
        rw [rd_range_succ, rd_range_succ, rd_range_succ]
        rfl
      obtain ⟨first, hfirst⟩ := ih o (by omega) c1 (hrep c1)
      rw [e1, hfirst]
      dsimp only
      by_cases c2 : (rd p_encoded (o + 2) &&& c_nibble_one) = c_nibble_one
      · rw [if_pos c2]
        exact ⟨_, rfl⟩
      · rw [if_neg c2, e2]
        have key : ∃ second, expand_meta_pattern p_encoded (m + 1)
            (rd p_encoded (o + 2) :: rd_range p_encoded (o + 3) k) = some second := by
          by_cases c3 : (rd p_encoded (o + 2) &&& c_high_bit_value) ≠ 0
          · cases k with
            | zero =>
              refine ⟨_, expand_meta_pattern_low p_encoded m _ ?_⟩
              intro hc
              exact absurd hc.1 (by simp [rd_range])
            | succ j =>
              rw [rd_range_succ, expand_meta_pattern_two p_encoded (m + 1) _ _ _ c3]
              have hpos : o + 2 + 1 = o + 3 := by omega
              rw [← hpos]
              exact ih (o + 2) (by omega) c3 c2
          · refine ⟨_, expand_meta_pattern_low p_encoded m _ ?_⟩
            intro hc
            exact c3 hc.2
        obtain ⟨second, hsecond⟩ := key
        rw [hsecond]
        exact ⟨_, rfl⟩
    · rw [if_neg c1]
      exact ⟨_, rfl⟩

/-- C31, counterexample: in `loop_buffer` each marker refers to an offset strictly below
its position (the positions from 7 on hold no byte), and the expansion of the marker
`90 03` does not return for any fuel: the four bytes it refers to are `80 00 90 03`, so
the expansion of their second pair is the expansion of the marker itself. -/
theorem C31_counterexample :
    ((List.range 7).all fun p =>
        decide ((rd loop_buffer p &&& c_high_bit_value) = 0
          ∨ marker_pat_offset (rd loop_buffer p) (rd loop_buffer (p + 1)) < p)) = true
      ∧ rd_range loop_buffer 3 4 = [0x80, 0x00, 0x90, 0x03]
      ∧ ∀ fuel, expand_meta_pattern loop_buffer fuel [0x90, 0x03] = none := by
  refine ⟨by decide, by decide, ?_⟩
  intro fuel
  induction fuel with
  | zero => rfl
  | succ n ih =>
    rw [expand_meta_pattern_marker loop_buffer n 0x90 0x03 [] (by decide)]
    have e0 : marker_pat_offset 0x90 0x03 = 3 := by decide
    have e1 : marker_pat_length 0x90 = 4 := by decide
    rw [e0, e1,
      if_pos (show (rd loop_buffer 3 &&& c_high_bit_value) ≠ 0 by decide)]
    have e2 : (rd_range loop_buffer 3 4).take 2 = [0x80, 0x00] := by decide
    have e3 : (rd_range loop_buffer 3 4).drop 2 = [0x90, 0x03] := by decide
    rw [e2, e3, ih]
    cases expand_meta_pattern loop_buffer n [0x80, 0x00] with
    | none => rfl
    | some first =>
      dsimp only
      rw [if_neg (show ¬ (rd loop_buffer (3 + 2) &&& c_nibble_one) = c_nibble_one by decide)]
      rfl

/-- C31 (amended): for every encoded buffer in which each back-ref marker (high bit
set, high nibble not 0xF) located at a position `p` refers to bytes that end at or
before `p` (`pat_offset + pat_length ≤ p`) and do not start with a repeat marker,
`expand_meta_pattern` returns on every back-ref marker of the buffer: fuel `p + 1`, and
any larger fuel, gives a result. -/
theorem C31_expansion_terminates (p_encoded : Buf)
    (hb : ∀ p, (rd p_encoded p &&& 0x80) ≠ 0 → (rd p_encoded p &&& 0xf0) ≠ 0xf0
      → marker_pat_offset (rd p_encoded p) (rd p_encoded (p + 1))
          + marker_pat_length (rd p_encoded p) ≤ p
        ∧ ((rd p_encoded (marker_pat_offset (rd p_encoded p) (rd p_encoded (p + 1)))
              &&& 0x80) ≠ 0
          → (rd p_encoded (marker_pat_offset (rd p_encoded p) (rd p_encoded (p + 1)))
              &&& 0xf0) ≠ 0xf0))
    (p : Nat) (h1 : (rd p_encoded p &&& 0x80) ≠ 0) (h2 : (rd p_encoded p &&& 0xf0) ≠ 0xf0) :
    ∃ r, ∀ fuel, p + 1 ≤ fuel →
      expand_meta_pattern p_encoded fuel [rd p_encoded p, rd p_encoded (p + 1)] = some r := by
  obtain ⟨r, hr⟩ := expand_meta_pattern_returns p_encoded hb (p + 1) p (by omega) h1 h2
  exact ⟨r, fun fuel hf => expand_meta_pattern_mono p_encoded (p + 1) fuel _ r hf hr⟩

theorem nested_buffer_back_refs (p : Nat) (h1 : (rd nested_buffer p &&& 0x80) ≠ 0)
    (h2 : (rd nested_buffer p &&& 0xf0) ≠ 0xf0) :
    marker_pat_offset (rd nested_buffer p) (rd nested_buffer (p + 1))
        + marker_pat_length (rd nested_buffer p) ≤ p
      ∧ ((rd nested_buffer (marker_pat_offset (rd nested_buffer p) (rd nested_buffer (p + 1)))
            &&& 0x80) ≠ 0
        → (rd nested_buffer (marker_pat_offset (rd nested_buffer p) (rd nested_buffer (p + 1)))
            &&& 0xf0) ≠ 0xf0) := by
  by_cases hp : p < 9
  · interval_cases p <;> first | exact absurd rfl h1 | decide
  · have e : rd nested_buffer p = 0 := by
      unfold rd nested_buffer
      rw [List.getD_eq_getElem?_getD, List.getElem?_eq_none (by simp; omega)]
      rfl
    rw [e] at h1
    exact absurd rfl h1

/-- C31 (amended) on `nested_buffer`: the marker `90 03` at position 7 expands to
`ABC ABC`. -/
theorem C31_witness :
    expand_meta_pattern nested_buffer expand_meta_fuel [0x90, 0x03]
        = some [0x41, 0x42, 0x43, 0x41, 0x42, 0x43]
      ∧ ∃ r, ∀ fuel, 7 + 1 ≤ fuel →
        expand_meta_pattern nested_buffer fuel [rd nested_buffer 7, rd nested_buffer (7 + 1)]
          = some r :=
  ⟨by decide, C31_expansion_terminates nested_buffer nested_buffer_back_refs 7 (by decide)
    (by decide)⟩

/-! ## The literal repeat of the expand pass -/

theorem expand_repeat_spec (last_ch n : Nat) (b : Buf) (length : Nat) :
    (expand_repeat last_ch n b length).2 = length + n
      ∧ ∀ j, rd (expand_repeat last_ch n b length).1 j
          = if length ≤ j ∧ j < length + n then last_ch else rd b j := by
  induction n generalizing b length with
  | zero =>
    refine ⟨rfl, fun j => ?_⟩
    rw [expand_repeat, if_neg (by omega)]
  | succ n ih =>
    rw [expand_repeat]
    obtain ⟨h1, h2⟩ := ih (wr b length last_ch) (length + 1)
    refine ⟨by omega, fun j => ?_⟩
    rw [h2 j, rd_wr]
    by_cases c1 : length + 1 ≤ j ∧ j < length + 1 + n
    · rw [if_pos c1, if_pos (by omega)]
    · rw [if_neg c1]
      by_cases c2 : j = length
      · rw [if_pos c2, if_pos (by omega)]
      · rw [if_neg c2, if_neg (by omega)]

theorem literal_repeat_byte_table :
    ((List.range 8).all fun k =>
      decide (((0xf0 + k) &&& c_high_five_bits) ≠ c_high_five_bits
        ∧ ((0xf0 + k) &&& c_nibble_one) = c_nibble_one)) = true := by
  decide

/-- The body of the reading loop of `expand_input` on a byte `0xF0 + k`, `k ≤ 7`, read
in the ordinary state when the literal repeat applies: `k + 1` copies of `last_ch` are
stored from `length` on, nothing else changes in the buffer, and `length` is left at the
last copy (the loop adds one). -/
theorem expand_byte_literal_repeat (s : expand_state) (k : Nat) (hk : k ≤ 7)
    (hp : s.process_steps = false) (hm : s.had_marker = false)
    (hb1 : ¬ size_sub s.length 1 ∈ s.back_refs) (hb2 : ¬ size_sub s.length 2 ∈ s.back_refs)
    (hs : map_count s.specials (size_sub s.length 2) = false)
    (hl : s.length ≤ c_max_encoded_chunk_size) :
    ∃ s', expand_byte s (0xf0 + k) = (s', true)
      ∧ s'.length + 1 = s.length + (k + 1)
      ∧ (∀ j, rd s'.p_buffer j
          = if s.length ≤ j ∧ j < s.length + (k + 1) then s.last_ch else rd s.p_buffer j)
      ∧ s'.back_refs = s.back_refs ∧ s'.specials = s.specials
      ∧ s'.process_steps = false ∧ s'.had_marker = false := by
  have t := literal_repeat_byte_table
  rw [List.all_eq_true] at t
  obtain ⟨t1, t2⟩ := of_decide_eq_true (t k (List.mem_range.mpr (by omega)))
  have f1 : ¬ (((0xf0 + k) &&& c_high_five_bits) = c_high_five_bits
      ∧ ¬ size_sub s.length 1 ∈ s.back_refs) := fun c => t1 c.1
  have f2 : ¬ (((0xf0 + k) &&& c_high_bit_value) ≠ 0
      ∧ ¬ size_sub s.length 1 ∈ s.back_refs
      ∧ (((0xf0 + k) &&& c_nibble_one) ≠ c_nibble_one
        ∨ size_sub s.length 2 ∈ s.back_refs
        ∨ map_count s.specials (size_sub s.length 2) = true)) := by
    rintro ⟨-, -, c | c | c⟩
    · exact c t2
    · exact hb2 c
    · rw [hs] at c
      exact absurd c (by decide)
  have f3 : ((0xf0 + k) &&& c_nibble_one) = c_nibble_one
      ∧ ¬ size_sub s.length 1 ∈ s.back_refs
      ∧ ¬ size_sub s.length 2 ∈ s.back_refs
      ∧ map_count s.specials (size_sub s.length 2) = false := ⟨t2, hb1, hb2, hs⟩
  have f4 : 0xf0 + k - c_nibble_one + 1 = k + 1 := by
    unfold c_nibble_one
    omega
  obtain ⟨r1, r2⟩ := expand_repeat_spec s.last_ch (k + 1) s.p_buffer s.length
  have e : expand_byte s (0xf0 + k)
      = ({ s with p_buffer := (expand_repeat s.last_ch (k + 1) s.p_buffer s.length).1
                  length := size_sub (expand_repeat s.last_ch (k + 1) s.p_buffer s.length).2 1
                  last_ch := 0xf0 + k }, true) := by
    unfold expand_byte
    simp only [hp, hm, Bool.false_eq_true, if_false, if_neg f1, if_neg f2, if_pos f3, f4]
  refine ⟨_, e, ?_, ?_, ?_, ?_, ?_, ?_⟩
  · show size_sub (expand_repeat s.last_ch (k + 1) s.p_buffer s.length).2 1 + 1 = _
    rw [r1]
    unfold size_sub
    unfold c_max_encoded_chunk_size c_max_offset c_min_pat_length at hl
    omega
  · exact r2
  · rfl
  · rfl
  · exact hp
  · exact hm

/-- C32, counterexample: in `41 F8 F1` the byte `F1` is read after the marker `F8` and is
stored as it is; in `10 11 F9 13 F1` it is read after a stepping run, which has left the
five bytes `10 11 00 12 01`, and two copies of `11`, the byte before the run marker, are
appended, not of the last byte `01` of the buffer.  In both streams no back reference
and no special has been recorded. -/
theorem C32_counterexample :
    expand_input [0x41, 0xf8, 0xf1] c_max_encoded_chunk_size = ([0x41, 0xf1], 2, [])
      ∧ expand_input [0x10, 0x11, 0xf9, 0x13] c_max_encoded_chunk_size
        = ([0x10, 0x11, 0x00, 0x12, 0x01, 0x13], 5, [])
      ∧ expand_input [0x10, 0x11, 0xf9, 0x13, 0xf1] c_max_encoded_chunk_size
        = ([0x10, 0x11, 0x00, 0x12, 0x01, 0x11, 0x11], 7, []) := by
  decide!

/-- C32 (amended): in `expand_input`, for every `k` in 0..7, a byte `0xF0 + k` that is
read in the ordinary state (it is not the count byte after `0xF9`, and no marker `0xF8`
has been read), when the byte read before is the last byte of the expanded buffer
(`last_ch`), neither of the two preceding buffer positions starts a back-ref or
back-ref-repeat and the position two back is not a special, appends exactly `k + 1`
copies of that byte to the expanded buffer and is itself not stored: the bytes before
are unchanged and the length grows by `k + 1` (the state holds one less, the loop adds
one). -/
theorem C32_literal_repeat_expansion (s : expand_state) (k : Nat) (hk : k ≤ 7)
    (hp : s.process_steps = false) (hm : s.had_marker = false)
    (hlast : rd s.p_buffer (s.length - 1) = s.last_ch)
    (hb1 : ¬ size_sub s.length 1 ∈ s.back_refs) (hb2 : ¬ size_sub s.length 2 ∈ s.back_refs)
    (hs : map_count s.specials (size_sub s.length 2) = false)
    (hl : s.length ≤ c_max_encoded_chunk_size) :
    ∃ s', expand_byte s (0xf0 + k) = (s', true)
      ∧ s'.length + 1 = s.length + (k + 1)
      ∧ (∀ i, i < k + 1 → rd s'.p_buffer (s.length + i) = rd s.p_buffer (s.length - 1))
      ∧ (∀ j, j < s.length → rd s'.p_buffer j = rd s.p_buffer j)
      ∧ (∀ j, s.length + (k + 1) ≤ j → rd s'.p_buffer j = rd s.p_buffer j) := by
  obtain ⟨s', h1, h2, h3, -⟩ := expand_byte_literal_repeat s k hk hp hm hb1 hb2 hs hl
  refine ⟨s', h1, h2, ?_, ?_, ?_⟩
  · intro i hi
    rw [h3, if_pos (by omega), hlast]
  · intro j hj
    rw [h3, if_neg (by omega)]
  · intro j hj
    rw [h3, if_neg (by omega)]

/-- C32 (amended) after the byte `41`, for `F2`: three copies of `41` are appended. -/
theorem C32_witness :
    (expand_read c_max_encoded_chunk_size [0x41]
        ⟨0, 0, 0, false, false, [], [], []⟩).1 = after_literal_state
      ∧ expand_input [0x41, 0xf2] c_max_encoded_chunk_size = ([0x41, 0x41, 0x41, 0x41], 4, [])
      ∧ ∃ s', expand_byte after_literal_state (0xf0 + 2) = (s', true)
        ∧ s'.length + 1 = after_literal_state.length + (2 + 1) :=
  ⟨by decide, by decide,
    (C32_literal_repeat_expansion after_literal_state 2 (by decide) (by decide) (by decide)
      (by decide) (by decide) (by decide) (by decide) (by decide)).imp
      fun _ h => ⟨h.1, h.2.1⟩⟩

/-! ## The scratch array of the shrink pass on a block of `01 23 45 67` -/

theorem unit_block_succ (k : Nat) :
    unit_block (k + 1) = 0x01 :: 0x23 :: 0x45 :: 0x67 :: unit_block k := by
  unfold unit_block
  rw [List.replicate_succ, List.flatten_cons]
  rfl

theorem unit_block_length (k : Nat) : (unit_block k).length = 4 * k := by
  induction k with
  | zero => rfl
  | succ k ih =>
    rw [unit_block_succ]
    simp only [List.length_cons, ih]
    omega

theorem rd_cons_four (a b c d : Nat) (l : List Nat) (i : Nat) :
    rd (a :: b :: c :: d :: l) (i + 4) = rd l i := rfl

theorem unit_block_rd (k j : Nat) (h : j < k) :
    rd (unit_block k) (4 * j) = 0x01 ∧ rd (unit_block k) (4 * j + 1) = 0x23
      ∧ rd (unit_block k) (4 * j + 2) = 0x45 ∧ rd (unit_block k) (4 * j + 3) = 0x67 := by
  induction k generalizing j with
  | zero => exact absurd h (Nat.not_lt_zero _)
  | succ k ih =>
    rw [unit_block_succ]
    cases j with
    | zero => exact ⟨rfl, rfl, rfl, rfl⟩
    | succ j =>
      obtain ⟨h0, h1, h2, h3⟩ := ih j (by omega)
      refine ⟨?_, ?_, ?_, ?_⟩
      · rw [show 4 * (j + 1) = 4 * j + 4 by omega, rd_cons_four]
        exact h0
      · rw [show 4 * (j + 1) + 1 = 4 * j + 1 + 4 by omega, rd_cons_four]
        exact h1
      · rw [show 4 * (j + 1) + 2 = 4 * j + 2 + 4 by omega, rd_cons_four]
        exact h2
      · rw [show 4 * (j + 1) + 3 = 4 * j + 3 + 4 by omega, rd_cons_four]
        exact h3

theorem unit_block_seven_bit (k i : Nat) : rd (unit_block k) i &&& c_high_bit_value = 0 := by
  induction k generalizing i with
  | zero =>
    show (([] : List Nat).getD i 0) &&& c_high_bit_value = 0
    rw [List.getD_nil]
    rfl
  | succ k ih =>
    rw [unit_block_succ]
    match i with
    | 0 =>
      show (0x01 &&& c_high_bit_value) = 0
      decide
    | 1 =>
      show (0x23 &&& c_high_bit_value) = 0
      decide
    | 2 =>
      show (0x45 &&& c_high_bit_value) = 0
      decide
    | 3 =>
      show (0x67 &&& c_high_bit_value) = 0
      decide
    | i + 4 =>
      rw [rd_cons_four]
      exact ih i

theorem count_pairs_seven_bit (p_buffer : Buf) (length : Nat)
    (h : ∀ i, rd p_buffer i &&& c_high_bit_value = 0) (fuel i : Nat)
    (pairs : List (byte_pair × Nat)) : count_pairs p_buffer length fuel i pairs = pairs := by
  induction fuel generalizing i with
  | zero => rfl
  | succ n ih =>
    rw [count_pairs]
    by_cases c : i < length
    · have f : ¬ (i < size_sub length 1 ∧ (rd p_buffer i &&& c_high_bit_value) ≠ 0) :=
        fun hc => hc.2 (h i)
      simp only [if_pos c, if_neg f]
      exact ih (i + 1)
    · simp only [if_neg c]

/-- The result of `found_stepping_nibbles` depends on the five bytes from `offset` on and
on the two tests of `offset` against `length` only. -/
theorem found_stepping_nibbles_window (p q : Buf) (o len len' : Nat) (asc : Bool)
    (h3 : o + 3 < len ↔ 0 + 3 < len') (h4 : o + 4 < len ↔ 0 + 4 < len')
    (r0 : rd p o = rd q 0) (r1 : rd p (o + 1) = rd q (0 + 1))
    (r2 : rd p (o + 2) = rd q (0 + 2)) (r3 : rd p (o + 3) = rd q (0 + 3))
    (r4 : rd p (o + 4) = rd q (0 + 4)) :
    found_stepping_nibbles p o len asc = found_stepping_nibbles q 0 len' asc := by
  have r2' : rd p (o + (1 + 1)) = rd q (0 + (1 + 1)) := r2
  have r3' : rd p (o + (1 + 1 + 1)) = rd q (0 + (1 + 1 + 1)) := r3
  unfold found_stepping_nibbles found_stepping_bytes
  simp only [nibble_steps_from, propext h3, propext h4, r0, r1, r2, r3, r4, r2', r3']

theorem found_stepping_head (asc : Bool) :
    found_stepping_nibbles [0x01, 0x23, 0x45, 0x67] 0 4 asc = (true, 1, true) := by
  cases asc <;> decide

theorem found_stepping_mid_one (asc : Bool) :
    (found_stepping_nibbles [0x45, 0x67, 0x01, 0x23, 0x45] 0 5 asc).1 = false := by
  cases asc <;> decide

theorem found_stepping_mid_two (asc : Bool) :
    (found_stepping_nibbles [0x67, 0x01, 0x23, 0x45, 0x67] 0 5 asc).1 = false := by
  cases asc <;> decide

theorem found_stepping_head_more (asc : Bool) :
    found_stepping_nibbles [0x01, 0x23, 0x45, 0x67, 0x01] 0 5 asc = (true, 1, true) := by
  cases asc <;> decide

/-- A round of the main loop of `shrink_output` at the first byte of a stepping run that
`found_stepping_nibbles` reports: the header of four bytes is written for two bytes of
the block. -/
theorem shrink_body_header (p : Buf) (len : Nat) (sn : List (byte_pair × Nat)) (av : Nat)
    (s : shrink_state) (nb : Nat) (asc : Bool) (hst : s.stepping_amount = 0)
    (hrep : s.repeats = 0) (hlow : (rd p s.i &&& c_high_bit_value) = 0)
    (hlast : rd p s.i ≠ s.last_ch) (hlen : s.i < size_sub len 3)
    (hf : found_stepping_nibbles p s.i len s.steps_ascending = (true, nb, asc)) :
    (shrink_body p len sn av s).i = s.i + 2
      ∧ (shrink_body p len sn av s).num = s.num + 4
      ∧ (shrink_body p len sn av s).repeats = 0
      ∧ (shrink_body p len sn av s).stepping_amount = 1
      ∧ (shrink_body p len sn av s).stepping_nibbles = nb
      ∧ (shrink_body p len sn av s).steps_ascending = asc
      ∧ (shrink_body p len sn av s).last_ch = rd p (s.i + 1)
      ∧ (shrink_body p len sn av s).repeated_special_counts = s.repeated_special_counts
      ∧ (shrink_body p len sn av s).shrunken
        = wr (wr (wr (wr s.shrunken s.num (rd p s.i)) (s.num + 1) (rd p (s.i + 1)))
            (s.num + 2) c_special_nsteps) (s.num + 3) (to_byte ((nb - 1) <<< 4)) := by
  have c1 : ¬ (s.stepping_amount ≠ 0 ∧ rd p s.i = stepping_next_val s
      ∧ (rd s.shrunken (s.num - 1) &&& c_nibble_two) < c_max_special_step_vals) :=
    fun hc => hc.1 hst
  have c2 : ¬ (rd p s.i ≠ s.last_ch ∧ s.repeats ≠ 0) := fun hc => hc.2 hrep
  have c3 : ¬ (s.i < size_sub len 1 ∧ (rd p s.i &&& c_high_bit_value) ≠ 0) :=
    fun hc => hc.2 hlow
  have c4 : ¬ (rd p s.i = s.last_ch ∧ s.repeats < c_max_special_repeats - 1) :=
    fun hc => hlast hc.1
  have e : shrink_body p len sn av s
      = { s with
          stepping_amount := 1, stepping_nibbles := nb, steps_ascending := asc
          i := s.i + 1 + 1, last_ch := rd p (s.i + 1)
          shrunken := wr (wr (wr (wr s.shrunken s.num (rd p s.i)) (s.num + 1) (rd p (s.i + 1)))
            (s.num + 2) c_special_nsteps) (s.num + 3) (to_byte ((nb - 1) <<< 4))
          num := s.num + 4 } := by
    unfold shrink_body
    simp only [if_neg c1, if_neg c2, if_neg c3]
    unfold shrink_char
    simp only [if_neg c4, if_pos hlen, hf, Bool.toNat_true, ne_eq, one_ne_zero, not_false_eq_true,
      if_true]
  rw [e]
  exact ⟨rfl, rfl, hrep, rfl, rfl, rfl, rfl, rfl, rfl⟩

/-- A round of the main loop of `shrink_output` on a 7-bit byte that continues no
stepping run, repeats no byte and starts no stepping run: the byte is copied. -/
theorem shrink_body_copy (p : Buf) (len : Nat) (sn : List (byte_pair × Nat)) (av : Nat)
    (s : shrink_state)
    (hst : s.stepping_amount = 0 ∨ rd p s.i ≠ stepping_next_val s)
    (hrep : s.repeats = 0) (hlow : (rd p s.i &&& c_high_bit_value) = 0)
    (hlast : rd p s.i ≠ s.last_ch)
    (hdet : ¬ s.i < size_sub len 3
      ∨ (found_stepping_nibbles p s.i len s.steps_ascending).1 = false) :
    (shrink_body p len sn av s).i = s.i + 1
      ∧ (shrink_body p len sn av s).num = s.num + 1
      ∧ (shrink_body p len sn av s).repeats = 0
      ∧ (shrink_body p len sn av s).stepping_amount = 0
      ∧ (shrink_body p len sn av s).last_ch = rd p s.i
      ∧ (shrink_body p len sn av s).repeated_special_counts = s.repeated_special_counts
      ∧ (shrink_body p len sn av s).shrunken = wr s.shrunken s.num (rd p s.i) := by
  have c1 : ¬ (s.stepping_amount ≠ 0 ∧ rd p s.i = stepping_next_val s
      ∧ (rd s.shrunken (s.num - 1) &&& c_nibble_two) < c_max_special_step_vals) := by
    rintro ⟨h1, h2, -⟩
    rcases hst with h | h
    · exact h1 h
    · exact h h2
  have c2 : ¬ (rd p s.i ≠ s.last_ch ∧ s.repeats ≠ 0) := fun hc => hc.2 hrep
  have c3 : ¬ (s.i < size_sub len 1 ∧ (rd p s.i &&& c_high_bit_value) ≠ 0) :=
    fun hc => hc.2 hlow
  have c4 : ¬ (rd p s.i = s.last_ch ∧ s.repeats < c_max_special_repeats - 1) :=
    fun hc => hlast hc.1
  by_cases c5 : s.i < size_sub len 3
  · have hd : (found_stepping_nibbles p s.i len s.steps_ascending).1 = false := by
      rcases hdet with h | h
      · exact absurd c5 h
      · exact h
    have e : shrink_body p len sn av s
        = { s with
            stepping_amount := 0
            stepping_nibbles := (found_stepping_nibbles p s.i len s.steps_ascending).2.1
            steps_ascending := (found_stepping_nibbles p s.i len s.steps_ascending).2.2
            shrunken := wr s.shrunken s.num (rd p s.i)
            num := s.num + 1, last_ch := rd p s.i, i := s.i + 1 } := by
      unfold shrink_body
      simp only [if_neg c1, if_neg c2, if_neg c3]
      unfold shrink_char
      simp only [if_neg c4, if_pos c5, hd, Bool.toNat_false, ne_eq, not_true_eq_false, if_false]
    rw [e]
    exact ⟨rfl, rfl, hrep, rfl, rfl, rfl, rfl⟩
  · have e : shrink_body p len sn av s
        = { s with
            stepping_amount := 0
            shrunken := wr s.shrunken s.num (rd p s.i)
            num := s.num + 1, last_ch := rd p s.i, i := s.i + 1 } := by
      unfold shrink_body
      simp only [if_neg c1, if_neg c2, if_neg c3]
      unfold shrink_char
      simp only [if_neg c4, if_neg c5]
    rw [e]
    exact ⟨rfl, rfl, hrep, rfl, rfl, rfl, rfl⟩

theorem header_block_length (k : Nat) : (header_block k).length = 6 * k := by
  unfold header_block
  induction k with
  | zero => rfl
  | succ k ih =>
    rw [List.replicate_succ, List.flatten_cons, List.length_append, ih]
    simp only [List.length_cons, List.length_nil]
    omega

theorem header_block_succ (k : Nat) :
    header_block (k + 1) = header_block k ++ [0x01, 0x23, 0xf9, 0x00, 0x45, 0x67] := by
  unfold header_block
  rw [List.replicate_succ', List.flatten_append]
  simp only [List.flatten_cons, List.flatten_nil, List.append_nil]

theorem wr_at_end (b : Buf) (i v : Nat) (h : b.length = i) : wr b i v = b ++ [v] := by
  subst h
  unfold wr
  rw [if_neg (Nat.lt_irrefl _), Nat.sub_self]
  simp only [List.replicate_zero, List.append_nil]

theorem rd_beyond (l : List Nat) (i : Nat) (h : l.length ≤ i) : rd l i = 0 := by
  unfold rd
  rw [List.getD_eq_getElem?_getD, List.getElem?_eq_none h]
  rfl

theorem size_sub_three (len : Nat) (h1 : 3 ≤ len) (h2 : len ≤ 4100) : size_sub len 3 = len - 3 := by
  unfold size_sub
  omega

theorem stepping_next_val_head (s : shrink_state) (h1 : s.last_ch = 0x23)
    (h2 : s.stepping_nibbles = 1) (h3 : s.steps_ascending = true) (h4 : s.stepping_amount = 1) :
    stepping_next_val s = 0x34 := by
  unfold stepping_next_val
  simp only [h1, h2, h3, h4]
  decide

/-- Three rounds of the main loop of `shrink_output` on a unit `01 23 45 67` of the
block `unit_block k`: the header `01 23 F9 00` is written, the continuation expects
`0x34`, and `45` and `67` are copied, six scratch bytes for four block bytes. -/
theorem shrink_body_unit (k j : Nat) (hk : k ≤ 1025) (hj : j < k)
    (sn : List (byte_pair × Nat)) (av : Nat) (s : shrink_state) (inv : scratch_inv s j) :
    (shrink_body (unit_block k) (4 * k) sn av s).i = 4 * j + 2
      ∧ (shrink_body (unit_block k) (4 * k) sn av
          (shrink_body (unit_block k) (4 * k) sn av s)).i = 4 * j + 3
      ∧ scratch_inv
        (shrink_body (unit_block k) (4 * k) sn av
          (shrink_body (unit_block k) (4 * k) sn av
            (shrink_body (unit_block k) (4 * k) sn av s))) (j + 1) := by
  obtain ⟨hi, hnum, hrep, hst, hlast, hcnt, hscr⟩ := inv
  have hH := header_block_length j
  obtain ⟨r0, r1, r2, r3⟩ := unit_block_rd k j hj
  have hlen := unit_block_length k
  have hsub : size_sub (4 * k) 3 = 4 * k - 3 := size_sub_three _ (by omega) (by omega)
  have low := unit_block_seven_bit k
  -- the header round
  have hf : found_stepping_nibbles (unit_block k) s.i (4 * k) s.steps_ascending
      = (true, 1, true) := by
    rw [hi]
    by_cases hm : j + 1 < k
    · have q0 := (unit_block_rd k (j + 1) hm).1
      rw [show 4 * (j + 1) = 4 * j + 4 by omega] at q0
      rw [found_stepping_nibbles_window (unit_block k) [0x01, 0x23, 0x45, 0x67, 0x01] (4 * j)
        (4 * k) 5 _ (by omega) (by omega) (by rw [r0]; rfl) (by rw [r1]; rfl) (by rw [r2]; rfl)
        (by rw [r3]; rfl) (by rw [q0]; rfl)]
      exact found_stepping_head_more _
    · have q0 : rd (unit_block k) (4 * j + 4) = 0 := rd_beyond _ _ (by omega)
      rw [found_stepping_nibbles_window (unit_block k) [0x01, 0x23, 0x45, 0x67] (4 * j)
        (4 * k) 4 _ (by omega) (by omega) (by rw [r0]; rfl) (by rw [r1]; rfl) (by rw [r2]; rfl)
        (by rw [r3]; rfl) (by rw [q0]; rfl)]
      exact found_stepping_head _
  obtain ⟨a1, a2, a3, a4, a5, a6, a7, a8, a9⟩ :=
    shrink_body_header (unit_block k) (4 * k) sn av s 1 true hst hrep (low _)
      (by rw [hi, r0]; exact fun e => hlast e.symm) (by rw [hi, hsub]; omega) hf
  generalize shrink_body (unit_block k) (4 * k) sn av s = s1 at a1 a2 a3 a4 a5 a6 a7 a8 a9 ⊢
  rw [hi] at a1 a7 a9
  rw [r1] at a7
  rw [r0, r1, hscr, hnum, wr_at_end (header_block j) _ _ hH,
    wr_at_end (header_block j ++ [0x01]) _ _ (by rw [List.length_append, hH]; rfl),
    wr_at_end (header_block j ++ [0x01] ++ [0x23]) _ _
      (by rw [List.length_append, List.length_append, hH]; rfl),
    wr_at_end (header_block j ++ [0x01] ++ [0x23] ++ [c_special_nsteps]) _ _
      (by rw [List.length_append, List.length_append, List.length_append, hH]; rfl)]
    at a9
  -- the round on `45`
  have b0 : rd (unit_block k) s1.i = 0x45 := by
    rw [a1]
    exact r2
  have hdet1 : ¬ s1.i < size_sub (4 * k) 3
      ∨ (found_stepping_nibbles (unit_block k) s1.i (4 * k) s1.steps_ascending).1 = false := by
    by_cases hm : j + 1 < k
    · right
      obtain ⟨q0, q1, q2, -⟩ := unit_block_rd k (j + 1) hm
      rw [show 4 * (j + 1) = 4 * j + 2 + 2 by omega] at q0
      rw [show 4 * (j + 1) + 1 = 4 * j + 2 + 3 by omega] at q1
      rw [show 4 * (j + 1) + 2 = 4 * j + 2 + 4 by omega] at q2
      rw [show 4 * j + 3 = 4 * j + 2 + 1 by omega] at r3
      rw [a1, found_stepping_nibbles_window (unit_block k) [0x45, 0x67, 0x01, 0x23, 0x45]
        (4 * j + 2) (4 * k) 5 _ (by omega) (by omega) (by rw [r2]; rfl) (by rw [r3]; rfl)
        (by rw [q0]; rfl) (by rw [q1]; rfl) (by rw [q2]; rfl)]
      exact found_stepping_mid_one _
    · left
      rw [a1, hsub]
      omega
  obtain ⟨c1, c2, c3, c4, c5, c6, c7⟩ :=
    shrink_body_copy (unit_block k) (4 * k) sn av s1
      (Or.inr (by rw [b0, stepping_next_val_head s1 a7 a5 a6 a4]; decide)) a3 (low _)
      (by rw [b0, a7]; decide) hdet1
  generalize shrink_body (unit_block k) (4 * k) sn av s1 = s2 at c1 c2 c3 c4 c5 c6 c7 ⊢
  rw [b0, a9, a2, hnum, wr_at_end _ _ _ (by simp only [List.length_append, hH]; rfl)] at c7
  have a1k := a1
  rw [a1] at c1
  rw [b0] at c5
  -- the round on `67`
  have d0 : rd (unit_block k) s2.i = 0x67 := by
    rw [c1]
    exact r3
  have hdet2 : ¬ s2.i < size_sub (4 * k) 3
      ∨ (found_stepping_nibbles (unit_block k) s2.i (4 * k) s2.steps_ascending).1 = false := by
    by_cases hm : j + 1 < k
    · right
      obtain ⟨q0, q1, q2, q3⟩ := unit_block_rd k (j + 1) hm
      rw [show 4 * (j + 1) = 4 * j + 2 + 1 + 1 by omega] at q0
      rw [show 4 * (j + 1) + 1 = 4 * j + 2 + 1 + 2 by omega] at q1
      rw [show 4 * (j + 1) + 2 = 4 * j + 2 + 1 + 3 by omega] at q2
      rw [show 4 * (j + 1) + 3 = 4 * j + 2 + 1 + 4 by omega] at q3
      rw [show 4 * j + 3 = 4 * j + 2 + 1 by omega] at r3
      rw [c1, found_stepping_nibbles_window (unit_block k) [0x67, 0x01, 0x23, 0x45, 0x67]
        (4 * j + 2 + 1) (4 * k) 5 _ (by omega) (by omega) (by rw [r3]; rfl) (by rw [q0]; rfl)
        (by rw [q1]; rfl) (by rw [q2]; rfl) (by rw [q3]; rfl)]
      exact found_stepping_mid_two _
    · left
      rw [c1, hsub]
      omega
  obtain ⟨e1, e2, e3, e4, e5, e6, e7⟩ :=
    shrink_body_copy (unit_block k) (4 * k) sn av s2 (Or.inl c4) c3 (low _)
      (by rw [d0, c5]; decide) hdet2
  rw [d0, c7, c2, a2, hnum, wr_at_end _ _ _ (by simp only [List.length_append, hH]; rfl)] at e7
  refine ⟨a1k, c1, by rw [e1, c1]; omega, by rw [e2, c2, a2, hnum]; omega, e3, e4,
    by rw [e5, d0]; decide, by rw [e6, c6, a8, hcnt], ?_⟩
  rw [e7, header_block_succ]
  simp only [List.append_assoc, List.cons_append, List.nil_append]
  rfl

/-- The main loop of `shrink_output` on the block `unit_block k`, started in front of the
unit `j` with fuel for the `k - j` units left: it ends in front of the unit `k`. -/
theorem shrink_loop_units (k : Nat) (hk : k ≤ 1025) (sn : List (byte_pair × Nat)) (av : Nat)
    (m : Nat) : ∀ (j fuel : Nat) (s : shrink_state), j + m = k → 3 * m ≤ fuel →
      scratch_inv s j → scratch_inv (shrink_loop (unit_block k) (4 * k) sn av fuel s) k := by
  induction m with
  | zero =>
    intro j fuel s hj _ inv
    have hjk : j = k := by omega
    subst hjk
    cases fuel with
    | zero => exact inv
    | succ f =>
      rw [shrink_loop, if_neg (by rw [inv.at_i]; omega)]
      exact inv
  | succ m ih =>
    intro j fuel s hj hfuel inv
    obtain ⟨f, rfl⟩ : ∃ f, fuel = f + 1 + 1 + 1 := ⟨fuel - 3, by omega⟩
    obtain ⟨h1, h2, h3⟩ := shrink_body_unit k j hk (by omega) sn av s inv
    rw [shrink_loop, if_pos (by rw [inv.at_i]; omega), shrink_loop,
      if_pos (by rw [h1]; omega), shrink_loop, if_pos (by rw [h2]; omega)]
    exact ih (j + 1) f _ (by omega) (by omega) h3

/-- The scratch array and the write index `num` at the end of `shrink_output` on `k`
units `01 23 45 67`: six bytes have been written per unit of four. -/
theorem shrink_scratch_unit_block (k : Nat) (hk : k ≤ 1025) :
    shrink_scratch (unit_block k) (4 * k) = (header_block k, 6 * k) := by
  have hp : count_pairs (unit_block k) (4 * k) (4 * k) 0 [] = [] :=
    count_pairs_seven_bit _ _ (unit_block_seven_bit k) _ _ _
  have inv0 : scratch_inv
      { i := 0, num := 0, repeats := 0, steps_ascending := true, stepping_amount := 0
        stepping_nibbles := 0, last_special_pos := 0, last_ch := c_special_maxval
        shrunken := [], repeated_special_counts := [], repeated_special_offsets := [] } 0 :=
    ⟨rfl, rfl, rfl, rfl, by decide, rfl, rfl⟩
  have inv := shrink_loop_units k hk (number_specials (select_specials []))
    (c_max_specials - (number_specials (select_specials [])).length) k 0 (4 * k) _
    (by omega) (by omega) inv0
  unfold shrink_scratch
  simp only [hp]
  generalize shrink_loop (unit_block k) (4 * k) (number_specials (select_specials []))
    (c_max_specials - (number_specials (select_specials [])).length) (4 * k) _ = s at inv ⊢
  obtain ⟨-, hnum, hrep, -, -, hcnt, hscr⟩ := inv
  have hsel : select_specials [] = [] := rfl
  rw [if_neg (fun h => h hrep), hsel]
  unfold shrink_extras
  simp only [hcnt, List.isEmpty_nil, if_true]
  unfold append_specials
  simp only [List.foldl_nil, List.length_nil, ne_eq, not_true_eq_false, if_false, hnum, hscr]

/-- A full block of 4096 bytes `01 23 45 67 01 23 ...`: `shrink_output` writes 6144 bytes
into its scratch array of `c_max_encoded_chunk_size` = 4100 bytes, and 4104 bytes already
for the 2736 bytes of 684 units; as the index ends above the length, the block itself is
returned unchanged.  Claim C38. -/
theorem C38_scratch_index_exceeds_array :
    (unit_block 1024).length = 4096
      ∧ shrink_scratch (unit_block 1024) 4096 = (header_block 1024, 6144)
      ∧ (header_block 1024).length = 6144
      ∧ c_max_encoded_chunk_size = 4100
      ∧ shrink_output (unit_block 1024) 4096 = (unit_block 1024, 4096)
      ∧ (unit_block 684).length = 2736
      ∧ (shrink_scratch (unit_block 684) 2736).2 = 4104 := by
  have h := shrink_scratch_unit_block 1024 (by decide)
  have g := shrink_scratch_unit_block 684 (by decide)
  refine ⟨unit_block_length 1024, h, header_block_length 1024, rfl, ?_, unit_block_length 684, ?_⟩
  · unfold shrink_output
    rw [if_pos (by decide)]
    show (if (shrink_scratch (unit_block 1024) (4 * 1024)).2 < 4096 then _ else _) = _
    rw [h, if_neg (by decide)]
  · show (shrink_scratch (unit_block 684) (4 * 684)).2 = 4104
    rw [g]

end Clz
